import Mathlib

/-!
# Progress bar state (`progress/bar.go`)

A shallow embedding of the `Bar` progress tracker: its state, the constructor
`NewBar`, the mutator `Set`, the estimators `percent`, `elapsed` and `rate`,
and the renderer `String`.

Modelling conventions.

* Go `int64` and `int` values are integers (`Int`).  `Set` and `percent`
  perform no integer arithmetic on them; the integer subtractions and the
  multiplication of `rate` and `String` wrap to `int64` (`wrapInt64`).
* A `time.Time` instant is the integer number of nanoseconds since Go's zero
  instant; `IsZero` is the test against `0`.  A `time.Duration` is an integer
  number of nanoseconds, and `Time.Sub` saturates at the `int64` bounds as the
  Go library does.
* Every call of `time.Now()` is an explicit argument.  `Set` can read the
  clock three times, so it receives three readings (`Readings`); `String`
  reads it once.
* A `float64` is a rational or one of `+Inf`, `-Inf`, `NaN` (`F64`).  Every
  function that computes in `float64` (`percent`, `Duration.Seconds`, `rate`,
  and the builders of `String`) has a form `...With fl` in which each float64
  result is rounded by `fl`.  With `fl := binary64`, rounding to the nearest
  IEEE 754 binary64 value with ties to even and overflow to an infinity, this
  is the arithmetic of the Go program.  With `fl := F64.fin` no result is
  rounded; the unadorned names (`Bar.percent`, `Bar.rate`, `Bar.String`, ...)
  are these exact forms, used where a property is about exact arithmetic or
  does not depend on the rounding.  Signed zeros are not modelled.
* A Go string is the sequence of its characters; `len` counts the bytes of its
  UTF-8 encoding and `String.length` its glyphs.
* `format.HumanBytes`, `Duration.String`, the terminal width and the result of
  out-of-range conversions to integers are parameters of `String` (`Env`,
  `termWidth`).
-/

namespace Progress

/-! ## Time -/

/-- Go `time.Second`, in nanoseconds. -/
def Second : Int := 1000000000

/-- Smallest `time.Duration` (`-1 << 63`). -/
def minDuration : Int := -9223372036854775808

/-- Largest `time.Duration` (`1<<63 - 1`). -/
def maxDuration : Int := 9223372036854775807

/-- Go `Time.IsZero`: the instant is the zero instant. -/
def Time.IsZero (t : Int) : Bool := t == 0

/-- Go `Time.Sub`: the duration `t - u`, saturated to the `Duration` range. -/
def Time.Sub (t u : Int) : Int :=
  if t - u < minDuration then minDuration
  else if maxDuration < t - u then maxDuration
  else t - u

/-- Go `time.Since(u)` evaluated at the clock reading `now`: `now.Sub(u)`. -/
def Time.Since (now u : Int) : Int := Time.Sub now u

/-! ## Floating point values -/

/-- Values of a `float64`: a finite value, given as a rational, or an IEEE
special value.  (The finite float64 values are the rationals that `binary64`
leaves unchanged; intermediate exact results are held in the same type.) -/
inductive F64 where
  | fin (q : ℚ)
  | posInf
  | negInf
  | nan
  deriving DecidableEq

namespace F64

/-- Conversion `float64(n)` of an integer. -/
def ofInt (n : Int) : F64 := fin (n : ℚ)

/-- The rounding `fl` of float64 results applied to a value: a finite exact
result `q` becomes `fl q`, a special value stays.  With `fl := F64.fin`
arithmetic is exact; with `fl := binary64` it is Go's. -/
def rnd (fl : ℚ → F64) : F64 → F64
  | fin q => fl q
  | x => x

/-- An infinity of the sign of `q`, with `positive` telling the sign of the
infinite operand; `NaN` when `q` is zero. -/
def infTimes (positive : Bool) (q : ℚ) : F64 :=
  if q = 0 then nan
  else if (decide (0 < q)) = positive then posInf
  else negInf

/-- IEEE multiplication. -/
def mul : F64 → F64 → F64
  | fin a, fin b => fin (a * b)
  | fin a, posInf => infTimes true a
  | fin a, negInf => infTimes false a
  | posInf, fin b => infTimes true b
  | negInf, fin b => infTimes false b
  | posInf, posInf => posInf
  | negInf, negInf => posInf
  | posInf, negInf => negInf
  | negInf, posInf => negInf
  | nan, _ => nan
  | _, nan => nan

/-- IEEE division: a finite value divided by zero is an infinity, or `NaN`
for `0 / 0`. -/
def div : F64 → F64 → F64
  | fin a, fin b =>
      if b = 0 then
        if a = 0 then nan else if 0 < a then posInf else negInf
      else fin (a / b)
  | fin _, posInf => fin 0
  | fin _, negInf => fin 0
  | posInf, fin b => if 0 ≤ b then posInf else negInf
  | negInf, fin b => if 0 ≤ b then negInf else posInf
  | posInf, posInf => nan
  | posInf, negInf => nan
  | negInf, posInf => nan
  | negInf, negInf => nan
  | nan, _ => nan
  | _, nan => nan

/-- The value is a finite number of the closed interval `[lo, hi]`. -/
def InRange (lo hi : ℚ) : F64 → Prop
  | fin q => lo ≤ q ∧ q ≤ hi
  | _ => False

end F64

/-! ## The tracker -/

/-- Go `bucket`: one progress sample. -/
structure bucket where
  updated : Int
  value : Int
  deriving DecidableEq, Repr

/-- Go `Bar`: the state of one progress bar. -/
structure Bar where
  message : String
  messageWidth : Int
  maxValue : Int
  initialValue : Int
  currentValue : Int
  started : Int
  stopped : Int
  maxBuckets : Int
  buckets : List bucket
  deriving DecidableEq, Repr

/-- Go `NewBar`; `now` is the reading of `time.Now()`.  The fields `stopped`
and `buckets` keep their zero values. -/
def NewBar (message : String) (maxValue initialValue : Int) (now : Int) : Bar :=
  { message := message
    messageWidth := -1
    maxValue := maxValue
    initialValue := initialValue
    currentValue := initialValue
    started := now
    stopped := 0
    maxBuckets := 10
    buckets := [] }

/-- The clock readings one call of `Set` can make, in program order:
`stop` for `b.stopped = time.Now()`, `since` for the `time.Since` of the
throttle test, `append` for the `updated` field of the new bucket. -/
structure Readings where
  stop : Int
  since : Int
  append : Int
  deriving DecidableEq, Repr

/-- The throttle test of `Set`:
`len(b.buckets) == 0 || time.Since(b.buckets[len(b.buckets)-1].updated) > time.Second`. -/
def throttleOpen (buckets : List bucket) (now : Int) : Bool :=
  match buckets.getLast? with
  | none => true
  | some l => decide (Time.Since now l.updated > Second)

/-- Go `(*Bar).Set`. -/
def Bar.Set (b : Bar) (value : Int) (now : Readings) : Bar :=
  let value := if value ≥ b.maxValue then b.maxValue else value
  let b := { b with currentValue := value }
  let b := if b.currentValue ≥ b.maxValue then { b with stopped := now.stop } else b
  if throttleOpen b.buckets now.since then
    let b := { b with buckets := b.buckets ++ [{ updated := now.append, value := value }] }
    if (b.buckets.length : Int) > b.maxBuckets then
      { b with buckets := b.buckets.drop 1 }
    else b
  else b

/-- Go `(*Bar).percent`, every float64 result (the two conversions, the
quotient and the product) rounded by `fl`. -/
def Bar.percentWith (fl : ℚ → F64) (b : Bar) : F64 :=
  if b.maxValue > 0 then
    F64.rnd fl (F64.mul
      (F64.rnd fl (F64.div (F64.rnd fl (F64.ofInt b.currentValue))
        (F64.rnd fl (F64.ofInt b.maxValue))))
      (F64.fin 100))
  else F64.fin 0

/-- Go `(*Bar).percent` in exact arithmetic. -/
def Bar.percent (b : Bar) : F64 := b.percentWith F64.fin

/-! ## Sequences of calls -/

/-- One call `Set(value)` together with the clock readings it makes. -/
structure SetCall where
  value : Int
  now : Readings
  deriving DecidableEq, Repr

/-- The state after a sequence of `Set` calls, made in list order. -/
def Bar.SetAll (b : Bar) : List SetCall → Bar
  | [] => b
  | c :: cs => (b.Set c.value c.now).SetAll cs

/-- The `currentValue` observed after each call of a sequence of `Set` calls. -/
def Bar.currentValues (b : Bar) : List SetCall → List Int
  | [] => []
  | c :: cs => (b.Set c.value c.now).currentValue :: (b.Set c.value c.now).currentValues cs

/-- All clock readings of a sequence of `Set` calls, in program order. -/
def clockReadings : List SetCall → List Int
  | [] => []
  | c :: cs => c.now.stop :: c.now.since :: c.now.append :: clockReadings cs

/-! ## Machine integers and more floating point operations -/

/-- Smallest `int64`. -/
def minInt64 : Int := -9223372036854775808

/-- Largest `int64`. -/
def maxInt64 : Int := 9223372036854775807

/-- The `int64` an integer result wraps to (two's complement). -/
def wrapInt64 (n : Int) : Int :=
  (n + 9223372036854775808) % 18446744073709551616 - 9223372036854775808

namespace F64

/-- IEEE addition. -/
def add : F64 → F64 → F64
  | fin a, fin b => fin (a + b)
  | fin _, posInf => posInf
  | fin _, negInf => negInf
  | posInf, fin _ => posInf
  | negInf, fin _ => negInf
  | posInf, posInf => posInf
  | negInf, negInf => negInf
  | posInf, negInf => nan
  | negInf, posInf => nan
  | nan, _ => nan
  | _, nan => nan

/-- IEEE subtraction. -/
def sub : F64 → F64 → F64
  | fin a, fin b => fin (a - b)
  | fin _, posInf => negInf
  | fin _, negInf => posInf
  | posInf, fin _ => posInf
  | negInf, fin _ => negInf
  | posInf, negInf => posInf
  | negInf, posInf => negInf
  | posInf, posInf => nan
  | negInf, negInf => nan
  | nan, _ => nan
  | _, nan => nan

/-- The comparison `x > 0`; it is false for `NaN`. -/
def gtZero : F64 → Bool
  | fin q => decide (0 < q)
  | posInf => true
  | negInf => false
  | nan => false

/-- Go `math.Floor`. -/
def Floor : F64 → F64
  | fin q => fin (⌊q⌋ : Int)
  | x => x

/-- The conversion `int64(x)` (and `int(x)` on a 64-bit platform): a finite
value is truncated towards zero; for a value `int64` cannot hold the result is
implementation-dependent and given by `undef`. -/
def toInt64 (undef : F64 → Int) : F64 → Int
  | fin q =>
      let t : Int := if 0 ≤ q then ⌊q⌋ else ⌈q⌉
      if minInt64 ≤ t ∧ t ≤ maxInt64 then t else undef (fin q)
  | x => undef x

end F64

/-! ## Elapsed time and rate -/

/-- Go `Duration.Seconds`: `float64(d / Second) + float64(d % Second) / 1e9`,
every float64 result (the two conversions, the quotient and the sum) rounded
by `fl`. -/
def Duration.SecondsWith (fl : ℚ → F64) (d : Int) : F64 :=
  F64.rnd fl (F64.add (F64.rnd fl (F64.ofInt (Int.tdiv d Second)))
    (F64.rnd fl (F64.div (F64.rnd fl (F64.ofInt (Int.tmod d Second)))
      (F64.fin 1000000000))))

/-- Go `Duration.Seconds` in exact arithmetic. -/
def Duration.Seconds (d : Int) : F64 := Duration.SecondsWith F64.fin d

/-- Go `Duration.Round`: `d` rounded to the nearest multiple of `m`, halfway
values away from zero, saturating at the `Duration` bounds. -/
def Duration.Round (d m : Int) : Int :=
  if m ≤ 0 then d
  else
    let r := Int.tmod d m
    if d < 0 then
      let r := -r
      if r + r < m then wrapInt64 (d + r)
      else
        let d1 := wrapInt64 (d - m + r)
        if d1 < d then d1 else minDuration
    else
      if r + r < m then wrapInt64 (d - r)
      else
        let d1 := wrapInt64 (d + m - r)
        if d1 > d then d1 else maxDuration

/-- Go `(*Bar).elapsed`; `now` is the clock reading of `time.Since`. -/
def Bar.elapsed (b : Bar) (now : Int) : Int :=
  let elapsed := Time.Since now b.started
  let elapsed := if !Time.IsZero b.stopped then Time.Sub b.stopped b.started else elapsed
  Duration.Round elapsed Second

/-- Go `(*Bar).rate`, every float64 result (the conversions, the difference
and the quotient) rounded by `fl`; `now` is the clock reading `elapsed` makes
when the tracker is stopped. -/
def Bar.rateWith (fl : ℚ → F64) (b : Bar) (now : Int) : F64 :=
  if !Time.IsZero b.stopped then
    F64.rnd fl (F64.div
      (F64.rnd fl (F64.sub (F64.rnd fl (F64.ofInt b.currentValue))
        (F64.rnd fl (F64.ofInt b.initialValue))))
      (Duration.SecondsWith fl (b.elapsed now)))
  else
    match b.buckets with
    | [] => F64.fin 0
    | [s] =>
        F64.rnd fl (F64.div (F64.rnd fl (F64.ofInt (wrapInt64 (s.value - b.initialValue))))
          (Duration.SecondsWith fl (Time.Sub s.updated b.started)))
    | first :: second :: rest =>
        let last := (second :: rest).getLast (List.cons_ne_nil second rest)
        F64.rnd fl (F64.div
          (F64.rnd fl (F64.sub (F64.rnd fl (F64.ofInt last.value))
            (F64.rnd fl (F64.ofInt first.value))))
          (Duration.SecondsWith fl (Time.Sub last.updated first.updated)))

/-- Go `(*Bar).rate` in exact arithmetic. -/
def Bar.rate (b : Bar) (now : Int) : F64 := b.rateWith F64.fin now

/-! ## Rendering -/

/-- Go `string`.  A string is modelled by its sequence of characters; its
byte length is the length of its UTF-8 encoding. -/
abbrev GoString := String

/-- Go `len(s)`: the number of bytes of `s`. -/
def len (s : String) : Int := (s.utf8ByteSize : Int)

/-- The glyphs of every character fit in seven bits, so that bytes and
glyphs of the string are the same in number. -/
def IsASCII (s : String) : Prop := ∀ c ∈ s.data, c.toNat < 128

instance instDecidableIsASCII (s : String) : Decidable (IsASCII s) :=
  inferInstanceAs (Decidable (∀ c ∈ s.data, c.toNat < 128))

/-- Go `unicode.IsSpace`. -/
def isSpace (c : Char) : Bool :=
  c.toNat = 0x09 || c.toNat = 0x0A || c.toNat = 0x0B || c.toNat = 0x0C || c.toNat = 0x0D ||
  c.toNat = 0x20 || c.toNat = 0x85 || c.toNat = 0xA0 || c.toNat = 0x1680 ||
  (decide (0x2000 ≤ c.toNat) && decide (c.toNat ≤ 0x200A)) ||
  c.toNat = 0x2028 || c.toNat = 0x2029 || c.toNat = 0x202F || c.toNat = 0x205F ||
  c.toNat = 0x3000

/-- Go `strings.TrimSpace`: leading and trailing white space removed. -/
def TrimSpace (s : String) : String :=
  ⟨((s.data.dropWhile isSpace).reverse.dropWhile isSpace).reverse⟩

/-- The longest run of leading characters whose encoding fits in `n` bytes. -/
def takeBytes : List Char → Nat → List Char
  | [], _ => []
  | c :: cs, n => if c.utf8Size ≤ n then c :: takeBytes cs (n - c.utf8Size) else []

/-- Go `s[:n]`, the first `n` bytes of `s`, for `0 ≤ n ≤ len(s)`.  When the
cut falls inside the encoding of a character Go keeps the leading bytes of
that character; the model drops them.  No such cut exists in an ASCII
string. -/
def sliceTo (s : String) (n : Int) : String := ⟨takeBytes s.data n.toNat⟩

/-- The characters `cs` written `n` times. -/
def repeatChars (cs : List Char) : Nat → List Char
  | 0 => []
  | n + 1 => cs ++ repeatChars cs n

/-- Go `strings.Repeat(s, count)`, for `count ≥ 0` (Go panics on a negative
count; every call in `String` is guarded by `count > 0`). -/
def Repeat (s : String) (count : Int) : String := ⟨repeatChars s.data count.toNat⟩

/-- Rounding to the nearest integer, ties to even: what precision 0 of the
verb `%f` prints of a finite value. -/
def roundHalfEven (q : ℚ) : Int :=
  if q - (⌊q⌋ : Int) < 1 / 2 then ⌊q⌋
  else if 1 / 2 < q - (⌊q⌋ : Int) then ⌊q⌋ + 1
  else if ⌊q⌋ % 2 = 0 then ⌊q⌋
  else ⌊q⌋ + 1

/-- The binary exponent that fixes the spacing of the binary64 values around
`q`: `⌊log₂ |q|⌋`, and `-1022` below the normal range. -/
def binade (q : ℚ) : Int := max (Int.log 2 |q|) (-1022)

/-- The multiple of `2 ^ (binade q - 52)` nearest to `q`, ties to the even
multiple: `q` rounded to 53 significant bits. -/
def nearest64 (q : ℚ) : ℚ :=
  (roundHalfEven (q / (2 : ℚ) ^ (binade q - 52)) : ℚ) * (2 : ℚ) ^ (binade q - 52)

/-- Rounding of a rational to the nearest IEEE 754 binary64 value, ties to
even: 53 significant bits, exponents from `-1022` (below which the spacing
stays `2 ^ (-1074)`) to `1023`, and an infinity when the rounded magnitude
reaches `2 ^ 1024`.  This is the rounding of every float64 result in Go.
(Signed zeros are not modelled.) -/
def binary64 (q : ℚ) : F64 :=
  if (2 : ℚ) ^ (1024 : Nat) ≤ nearest64 q then F64.posInf
  else if nearest64 q ≤ -(2 : ℚ) ^ (1024 : Nat) then F64.negInf
  else F64.fin (nearest64 q)

/-- Padding with spaces on the left to `width` glyphs. -/
def padLeft (width : Nat) (s : String) : String :=
  ⟨List.replicate (width - s.length) ' '⟩ ++ s

/-- Go `fmt.Sprintf("%3.0f", x)`.  (Go prints a negative value that rounds
to zero as `-0`; `String` only formats results of `math.Floor`.) -/
def formatF3 : F64 → String
  | F64.fin q => padLeft 3 (toString (roundHalfEven q))
  | F64.posInf => "+Inf"
  | F64.negInf => "-Inf"
  | F64.nan => "NaN"

/-- The collaborators of `String` that lie outside `bar.go`:
`format.HumanBytes`, the method `Duration.String` of the Go library, and the
implementation-dependent result of converting to an integer a `float64` that
the integer type cannot hold. -/
structure Env where
  HumanBytes : Int → String
  DurationString : Int → String
  undefInt : F64 → Int

/-- The builder `pre` of `String`: the label and the percentage, the
percentage computed with the rounding `fl`. -/
def Bar.preWith (fl : ℚ → F64) (b : Bar) : GoString :=
  let pre := ""
  let pre :=
    if len b.message > 0 then
      let message := TrimSpace b.message
      let message :=
        if b.messageWidth > 0 ∧ len message > b.messageWidth then
          sliceTo message b.messageWidth
        else message
      let pre := pre ++ message
      let padding := b.messageWidth - len pre
      let pre := if padding > 0 then pre ++ Repeat " " padding else pre
      pre ++ " "
    else pre
  pre ++ (formatF3 (F64.Floor (b.percentWith fl)) ++ "% ")

/-- The builder `pre` of `String` in exact arithmetic. -/
def Bar.pre (b : Bar) : GoString := b.preWith F64.fin

/-- The local `remaining` of `String`, a `Duration`, from the rate, the
conversion and the quotient rounded by `fl`. -/
def Bar.remainingWith (fl : ℚ → F64) (b : Bar) (env : Env) (rate : F64) : Int :=
  if F64.gtZero rate then
    wrapInt64 (F64.toInt64 env.undefInt
      (F64.rnd fl (F64.div (F64.rnd fl (F64.ofInt (wrapInt64 (b.maxValue - b.currentValue))))
        rate)) * Second)
  else 0

/-- The local `remaining` of `String` in exact arithmetic. -/
def Bar.remaining (b : Bar) (env : Env) (rate : F64) : Int :=
  b.remainingWith F64.fin env rate

/-- The builder `suf` of `String`: the byte counts, the rate and the
durations, computed with the rounding `fl`.  `now` is the one clock reading
the call makes (in `rate` when the tracker is stopped, in `elapsed`
otherwise). -/
def Bar.sufWith (fl : ℚ → F64) (b : Bar) (env : Env) (now : Int) : GoString :=
  let suf := "("
  let progress :=
    if Time.IsZero b.stopped then
      env.HumanBytes b.currentValue ++ "/" ++ env.HumanBytes b.maxValue
    else env.HumanBytes b.maxValue
  let suf := suf ++ progress
  let rate := b.rateWith fl now
  let suf :=
    if Time.IsZero b.stopped then
      suf ++ (", " ++ env.HumanBytes (F64.toInt64 env.undefInt rate) ++ "/s")
    else suf
  let suf := suf ++ ")"
  if Time.IsZero b.stopped then
    suf ++ (" [" ++ env.DurationString (b.elapsed now) ++ ":"
      ++ env.DurationString (b.remainingWith fl env rate) ++ "]")
  else suf

/-- The builder `suf` of `String` in exact arithmetic. -/
def Bar.suf (b : Bar) (env : Env) (now : Int) : GoString := b.sufWith F64.fin env now

/-- The number `n` of fill glyphs of `String`,
`int(float64(f) * b.percent() / 100)`, every float64 result (the conversion,
the product and the quotient) rounded by `fl`. -/
def Bar.filledWith (fl : ℚ → F64) (b : Bar) (env : Env) (f : Int) : Int :=
  F64.toInt64 env.undefInt
    (F64.rnd fl (F64.div
      (F64.rnd fl (F64.mul (F64.rnd fl (F64.ofInt f)) (b.percentWith fl)))
      (F64.fin 100)))

/-- The builder `mid` of `String`, the bar, for `f` available columns, with
the rounding `fl`. -/
def Bar.midWith (fl : ℚ → F64) (b : Bar) (env : Env) (f : Int) : GoString :=
  let n := b.filledWith fl env f
  let mid := "▕"
  let mid := if n > 0 then mid ++ Repeat "█" n else mid
  let mid := if wrapInt64 (f - n) > 0 then mid ++ Repeat " " (wrapInt64 (f - n)) else mid
  mid ++ "▏"

/-- The builder `mid` of `String` in exact arithmetic. -/
def Bar.mid (b : Bar) (env : Env) (f : Int) : GoString := b.midWith F64.fin env f

/-- The columns `String` leaves to the bar:
`termWidth - pre.Len() - suf.Len() - 3`, before wrap-around, with the
rounding `fl`. -/
def Bar.availableWith (fl : ℚ → F64) (b : Bar) (env : Env) (termWidth now : Int) : Int :=
  termWidth - len (b.preWith fl) - len (b.sufWith fl env now) - 3

/-- The columns `String` leaves to the bar in exact arithmetic. -/
def Bar.available (b : Bar) (env : Env) (termWidth now : Int) : Int :=
  b.availableWith F64.fin env termWidth now

/-- Go `(*Bar).String` with the rounding `fl` of its float64 results;
`termWidth` is the width `term.GetSize` reports, or 80 when it fails. -/
def Bar.StringWith (fl : ℚ → F64) (b : Bar) (env : Env) (termWidth now : Int) : GoString :=
  let f := wrapInt64 (b.availableWith fl env termWidth now)
  b.preWith fl ++ b.midWith fl env f ++ b.sufWith fl env now

/-- Go `(*Bar).String` in exact arithmetic. -/
def Bar.String (b : Bar) (env : Env) (termWidth now : Int) : GoString :=
  b.StringWith F64.fin env termWidth now

/-- An environment for examples: byte counts as `<n> B`, durations as a
number of seconds `<n>s`. -/
def sampleEnv : Env :=
  { HumanBytes := fun n => toString n ++ " B"
    DurationString := fun d => toString (d / 1000000000) ++ "s"
    undefInt := fun _ => minInt64 }

/-- An example state: `NewBar("download", 1000, 0)` at 1 s, then `Set(500)`
at 3 s. -/
def halfway : Bar :=
  (NewBar "download" 1000 0 1000000000).Set 500 ⟨3000000000, 3000000000, 3000000000⟩

/-- An example state: `NewBar("x", 100, 0)` at 1 s, then `Set(-50)` at 2 s. -/
def belowZero : Bar :=
  (NewBar "x" 100 0 1000000000).Set (-50) ⟨2000000000, 2000000000, 2000000000⟩

/-- An example state: `NewBar("xx", 3, 0)` at 1 s, then `Set(1)` at 2 s. -/
def oneThird : Bar :=
  (NewBar "xx" 3 0 1000000000).Set 1 ⟨2000000000, 2000000000, 2000000000⟩

/-- An example state: `NewBar("xx", 7, 0)` at 1 s, then `Set(1)` at 2 s. -/
def oneSeventh : Bar :=
  (NewBar "xx" 7 0 1000000000).Set 1 ⟨2000000000, 2000000000, 2000000000⟩

/-- An example state: `NewBar("x", 100, 0)` at 1 s, then `Set(29)` at 2 s. -/
def twentyNine : Bar :=
  (NewBar "x" 100 0 1000000000).Set 29 ⟨2000000000, 2000000000, 2000000000⟩

/-! ## Basic facts about `Set` -/

theorem Set_maxValue (b : Bar) (value : Int) (now : Readings) :
    (b.Set value now).maxValue = b.maxValue := by
  unfold Bar.Set
  simp only
  split_ifs <;> rfl

theorem Set_maxBuckets (b : Bar) (value : Int) (now : Readings) :
    (b.Set value now).maxBuckets = b.maxBuckets := by
  unfold Bar.Set
  simp only
  split_ifs <;> rfl

theorem Set_currentValue (b : Bar) (value : Int) (now : Readings) :
    (b.Set value now).currentValue = min value b.maxValue := by
  unfold Bar.Set
  simp only
  split_ifs <;> simp_all <;> omega

theorem Set_stopped (b : Bar) (value : Int) (now : Readings) :
    (b.Set value now).stopped = if value ≥ b.maxValue then now.stop else b.stopped := by
  unfold Bar.Set
  simp only
  split_ifs <;> simp_all

theorem SetAll_maxValue (b : Bar) (calls : List SetCall) :
    (b.SetAll calls).maxValue = b.maxValue := by
  induction calls generalizing b with
  | nil => rfl
  | cons c cs ih => rw [Bar.SetAll, ih, Set_maxValue]

theorem SetAll_maxBuckets (b : Bar) (calls : List SetCall) :
    (b.SetAll calls).maxBuckets = b.maxBuckets := by
  induction calls generalizing b with
  | nil => rfl
  | cons c cs ih => rw [Bar.SetAll, ih, Set_maxBuckets]

theorem isZero_eq_true (t : Int) : Time.IsZero t = true ↔ t = 0 := by
  simp [Time.IsZero]

theorem isZero_eq_false (t : Int) : Time.IsZero t = false ↔ t ≠ 0 := by
  simp [Time.IsZero]

theorem SetAll_append (b : Bar) (xs ys : List SetCall) :
    b.SetAll (xs ++ ys) = (b.SetAll xs).SetAll ys := by
  induction xs generalizing b with
  | nil => rfl
  | cons c cs ih =>
    rw [List.cons_append, Bar.SetAll, Bar.SetAll]
    exact ih _

/-! ## The sample window -/

theorem Set_buckets (b : Bar) (value : Int) (now : Readings) :
    (b.Set value now).buckets =
      if throttleOpen b.buckets now.since then
        if ((b.buckets.length : Int) + 1 > b.maxBuckets) then
          (b.buckets ++ [(⟨now.append, min value b.maxValue⟩ : bucket)]).drop 1
        else b.buckets ++ [(⟨now.append, min value b.maxValue⟩ : bucket)]
      else b.buckets := by
  have hmin : (if value ≥ b.maxValue then b.maxValue else value) = min value b.maxValue := by
    split_ifs <;> omega
  unfold Bar.Set
  simp only [hmin, List.length_append, List.length_singleton, Nat.cast_add, Nat.cast_one]
  split_ifs <;> rfl

theorem second_lt_sub_iff (t u : Int) : Second < Time.Sub t u ↔ Second < t - u := by
  unfold Time.Sub Second minDuration maxDuration
  split_ifs <;> omega

theorem throttleOpen_iff (bs : List bucket) (now : Int) :
    throttleOpen bs now = true ↔
      bs = [] ∨ ∃ l, bs.getLast? = some l ∧ now - l.updated > Second := by
  unfold throttleOpen
  cases h : bs.getLast? with
  | none => simp [List.getLast?_eq_none_iff.mp h]
  | some l =>
    have hne : bs ≠ [] := by
      intro he
      rw [he] at h
      simp at h
    simp [Time.Since, second_lt_sub_iff, hne]

theorem Set_length_le (b : Bar) (value : Int) (now : Readings)
    (hb : (b.buckets.length : Int) ≤ b.maxBuckets) :
    ((b.Set value now).buckets.length : Int) ≤ b.maxBuckets := by
  rw [Set_buckets]
  split_ifs <;> (try simp) <;> omega

theorem SetAll_length_le (b : Bar) (calls : List SetCall)
    (hb : (b.buckets.length : Int) ≤ b.maxBuckets) :
    ((b.SetAll calls).buckets.length : Int) ≤ b.maxBuckets := by
  induction calls generalizing b with
  | nil => exact hb
  | cons c cs ih =>
    rw [Bar.SetAll]
    have h := ih (b.Set c.value c.now) (by rw [Set_maxBuckets]; exact Set_length_le b _ _ hb)
    rwa [Set_maxBuckets] at h

theorem Set_spaced (b : Bar) (value : Int) (now : Readings)
    (hnow : now.since ≤ now.append) (hb : List.Chain' (fun a c : bucket => Second < c.updated - a.updated) b.buckets) :
    List.Chain' (fun a c : bucket => Second < c.updated - a.updated) (b.Set value now).buckets := by
  rw [Set_buckets]
  by_cases ho : throttleOpen b.buckets now.since = true
  · have happ : List.Chain' (fun a c : bucket => Second < c.updated - a.updated) (b.buckets ++ [⟨now.append, min value b.maxValue⟩]) := by
      rw [List.chain'_append]
      refine ⟨hb, List.chain'_singleton _, ?_⟩
      intro x hx y hy
      simp only [List.head?_cons, Option.mem_def, Option.some.injEq] at hy
      subst hy
      rcases (throttleOpen_iff _ _).mp ho with he | ⟨l, hl, hlt⟩
      · rw [he] at hx
        simp at hx
      · rw [Option.mem_def, hl] at hx
        have hxl : l = x := Option.some.inj hx
        rw [← hxl]
        show Second < now.append - l.updated
        omega
    rw [if_pos ho]
    split_ifs
    · rw [List.drop_one]
      exact happ.tail
    · exact happ
  · rw [if_neg ho]
    exact hb

theorem SetAll_spaced (b : Bar) (calls : List SetCall)
    (hnow : ∀ c ∈ calls, c.now.since ≤ c.now.append) (hb : List.Chain' (fun a c : bucket => Second < c.updated - a.updated) b.buckets) :
    List.Chain' (fun a c : bucket => Second < c.updated - a.updated) (b.SetAll calls).buckets := by
  induction calls generalizing b with
  | nil => exact hb
  | cons c cs ih =>
    rw [Bar.SetAll]
    exact ih _ (fun d hd => hnow d (List.mem_cons_of_mem c hd))
      (Set_spaced b _ _ (hnow c (List.mem_cons_self c cs)) hb)

/-- After a call that takes the appending branch, the newest bucket is the
one just built (the window keeps at least one entry). -/
theorem Set_getLast_of_open (b : Bar) (value : Int) (now : Readings)
    (hmax : 0 < b.maxBuckets) (ho : throttleOpen b.buckets now.since = true) :
    (b.Set value now).buckets.getLast? = some ⟨now.append, min value b.maxValue⟩ := by
  rw [Set_buckets, if_pos ho]
  split_ifs with hlen
  · cases hbs : b.buckets with
    | nil =>
      rw [hbs] at hlen
      simp at hlen
      omega
    | cons x xs => simp
  · simp

/-- The timestamp of the newest bucket never decreases along `Set` calls
whose `since` reading is not after their `append` reading. -/
theorem SetAll_getLast_le (b : Bar) (calls : List SetCall) (l : bucket)
    (hmax : 0 < b.maxBuckets)
    (hnow : ∀ c ∈ calls, c.now.since ≤ c.now.append)
    (hl : b.buckets.getLast? = some l) :
    ∃ m, (b.SetAll calls).buckets.getLast? = some m ∧ l.updated ≤ m.updated := by
  induction calls generalizing b l with
  | nil => exact ⟨l, hl, le_refl _⟩
  | cons c cs ih =>
    rw [Bar.SetAll]
    have hcs : ∀ d ∈ cs, d.now.since ≤ d.now.append := fun d hd =>
      hnow d (List.mem_cons_of_mem c hd)
    have hc := hnow c (List.mem_cons_self c cs)
    have hmax2 : 0 < (b.Set c.value c.now).maxBuckets := by rw [Set_maxBuckets]; exact hmax
    by_cases ho : throttleOpen b.buckets c.now.since = true
    · obtain ⟨m, hm, hle⟩ := ih (b.Set c.value c.now) _ hmax2 hcs
        (Set_getLast_of_open b c.value c.now hmax ho)
      refine ⟨m, hm, le_trans ?_ hle⟩
      rcases (throttleOpen_iff _ _).mp ho with he | ⟨l2, hl2, hlt⟩
      · rw [he] at hl
        simp at hl
      · rw [hl] at hl2
        have hll : l = l2 := Option.some.inj hl2
        rw [← hll] at hlt
        show l.updated ≤ c.now.append
        unfold Second at hlt
        omega
    · have hsame : (b.Set c.value c.now).buckets = b.buckets := by
        rw [Set_buckets, if_neg ho]
      exact ih (b.Set c.value c.now) l hmax2 hcs (by rw [hsame]; exact hl)

/-- Two calls of a sequence that both take the appending branch are more than
one second apart. -/
theorem SetAll_throttle (b : Bar) (pre mid : List SetCall) (ci cj : SetCall)
    (hmax : 0 < b.maxBuckets)
    (hnow : ∀ c ∈ mid, c.now.since ≤ c.now.append)
    (hi : throttleOpen (b.SetAll pre).buckets ci.now.since = true)
    (hj : throttleOpen (b.SetAll (pre ++ ci :: mid)).buckets cj.now.since = true) :
    Second < cj.now.since - ci.now.append := by
  have hmax1 : 0 < (b.SetAll pre).maxBuckets := by rw [SetAll_maxBuckets]; exact hmax
  have hlast := Set_getLast_of_open (b.SetAll pre) ci.value ci.now hmax1 hi
  have hmax2 : 0 < ((b.SetAll pre).Set ci.value ci.now).maxBuckets := by
    rw [Set_maxBuckets]; exact hmax1
  obtain ⟨m, hm, hle⟩ := SetAll_getLast_le _ mid _ hmax2 hnow hlast
  rw [SetAll_append, Bar.SetAll] at hj
  rcases (throttleOpen_iff _ _).mp hj with he | ⟨l, hl, hlt⟩
  · rw [he] at hm
    simp at hm
  · rw [hm] at hl
    have hml : m = l := Option.some.inj hl
    rw [← hml] at hlt
    have hle2 : ci.now.append ≤ m.updated := hle
    omega

theorem clockReadings_since_le_append (calls : List SetCall)
    (hclock : List.Chain' (· ≤ ·) (clockReadings calls)) :
    ∀ c ∈ calls, c.now.since ≤ c.now.append := by
  have hp : List.Pairwise (· ≤ ·) (clockReadings calls) := List.chain'_iff_pairwise.mp hclock
  clear hclock
  induction calls with
  | nil => intro c hc; simp at hc
  | cons d ds ih =>
    simp only [clockReadings, List.pairwise_cons] at hp
    intro c hc
    rcases List.mem_cons.mp hc with rfl | hc
    · exact hp.2.1 _ (List.mem_cons_self _ _)
    · exact ih hp.2.2.2 c hc

/-! ## The percentage -/

theorem rnd_fin (x : F64) : F64.rnd F64.fin x = x := by
  cases x <;> rfl

theorem percentWith_fin (b : Bar) : b.percentWith F64.fin = b.percent := rfl

/-! ### The estimators and builders in exact arithmetic -/

theorem Seconds_def (d : Int) :
    Duration.Seconds d
      = F64.fin (((Int.tdiv d Second : Int) : ℚ)
          + ((Int.tmod d Second : Int) : ℚ) / 1000000000) := by
  unfold Duration.Seconds Duration.SecondsWith
  have h : (1000000000 : ℚ) ≠ 0 := by norm_num
  simp only [F64.rnd, F64.ofInt, F64.div, F64.add, h, if_false]

theorem rate_def (b : Bar) (now : Int) :
    b.rate now =
      if !Time.IsZero b.stopped then
        F64.div (F64.sub (F64.ofInt b.currentValue) (F64.ofInt b.initialValue))
          (Duration.Seconds (b.elapsed now))
      else
        match b.buckets with
        | [] => F64.fin 0
        | [s] =>
            F64.div (F64.ofInt (wrapInt64 (s.value - b.initialValue)))
              (Duration.Seconds (Time.Sub s.updated b.started))
        | first :: second :: rest =>
            F64.div
              (F64.sub (F64.ofInt ((second :: rest).getLast (List.cons_ne_nil second rest)).value)
                (F64.ofInt first.value))
              (Duration.Seconds
                (Time.Sub ((second :: rest).getLast (List.cons_ne_nil second rest)).updated
                  first.updated)) := by
  unfold Bar.rate Bar.rateWith Duration.Seconds
  simp only [rnd_fin]

theorem remaining_def (b : Bar) (env : Env) (rate : F64) :
    b.remaining env rate =
      if F64.gtZero rate then
        wrapInt64 (F64.toInt64 env.undefInt
          (F64.div (F64.ofInt (wrapInt64 (b.maxValue - b.currentValue))) rate) * Second)
      else 0 := by
  unfold Bar.remaining Bar.remainingWith
  simp only [rnd_fin]

theorem suf_def (b : Bar) (env : Env) (now : Int) :
    b.suf env now =
      if Time.IsZero b.stopped then
        (("(" ++ (env.HumanBytes b.currentValue ++ "/" ++ env.HumanBytes b.maxValue))
            ++ (", " ++ env.HumanBytes (F64.toInt64 env.undefInt (b.rate now)) ++ "/s") ++ ")")
          ++ (" [" ++ env.DurationString (b.elapsed now) ++ ":"
            ++ env.DurationString (b.remaining env (b.rate now)) ++ "]")
      else "(" ++ env.HumanBytes b.maxValue ++ ")" := by
  unfold Bar.suf Bar.sufWith Bar.remaining Bar.rate
  simp only []
  split_ifs <;> rfl

theorem rateWith_fin (b : Bar) (now : Int) : b.rateWith F64.fin now = b.rate now := rfl

theorem remainingWith_fin (b : Bar) (env : Env) (rate : F64) :
    b.remainingWith F64.fin env rate = b.remaining env rate := rfl

theorem available_def (b : Bar) (env : Env) (termWidth now : Int) :
    b.available env termWidth now = termWidth - len b.pre - len (b.suf env now) - 3 := rfl

theorem String_def (b : Bar) (env : Env) (termWidth now : Int) :
    b.String env termWidth now
      = b.pre ++ b.mid env (wrapInt64 (b.available env termWidth now)) ++ b.suf env now := rfl

theorem percent_of_pos (b : Bar) (h : 0 < b.maxValue) :
    b.percent = F64.fin ((b.currentValue : ℚ) / (b.maxValue : ℚ) * 100) := by
  have hne : (b.maxValue : ℚ) ≠ 0 := by
    have : (0 : ℚ) < (b.maxValue : ℚ) := by exact_mod_cast h
    exact ne_of_gt this
  unfold Bar.percent Bar.percentWith
  rw [if_pos h]
  simp only [F64.ofInt, F64.rnd, F64.div, hne, if_false, F64.mul]

theorem percent_of_nonpos (b : Bar) (h : b.maxValue ≤ 0) : b.percent = F64.fin 0 := by
  unfold Bar.percent Bar.percentWith
  rw [if_neg (by omega)]

theorem percent_inRange (b : Bar) (h0 : 0 ≤ b.currentValue)
    (h1 : b.currentValue ≤ b.maxValue) : F64.InRange 0 100 b.percent := by
  by_cases hm : 0 < b.maxValue
  · rw [percent_of_pos b hm]
    have hmq : (0 : ℚ) < (b.maxValue : ℚ) := by exact_mod_cast hm
    have h0q : (0 : ℚ) ≤ (b.currentValue : ℚ) := by exact_mod_cast h0
    have h1q : (b.currentValue : ℚ) ≤ (b.maxValue : ℚ) := by exact_mod_cast h1
    have hq0 : 0 ≤ (b.currentValue : ℚ) / (b.maxValue : ℚ) := div_nonneg h0q hmq.le
    have hq1 : (b.currentValue : ℚ) / (b.maxValue : ℚ) ≤ 1 := (div_le_one hmq).mpr h1q
    show 0 ≤ (b.currentValue : ℚ) / (b.maxValue : ℚ) * 100 ∧
      (b.currentValue : ℚ) / (b.maxValue : ℚ) * 100 ≤ 100
    constructor <;> nlinarith
  · rw [percent_of_nonpos b (by omega)]
    show (0 : ℚ) ≤ 0 ∧ (0 : ℚ) ≤ 100
    norm_num

theorem SetAll_currentValue_bounds (b : Bar) (calls : List SetCall)
    (hvalues : ∀ c ∈ calls, 0 ≤ c.value)
    (h0 : 0 ≤ b.currentValue) (h1 : b.currentValue ≤ b.maxValue) :
    0 ≤ (b.SetAll calls).currentValue ∧
      (b.SetAll calls).currentValue ≤ (b.SetAll calls).maxValue := by
  induction calls generalizing b with
  | nil => exact ⟨h0, h1⟩
  | cons c cs ih =>
    rw [Bar.SetAll]
    have hc := hvalues c (List.mem_cons_self c cs)
    apply ih _ (fun d hd => hvalues d (List.mem_cons_of_mem c hd))
    · rw [Set_currentValue]
      omega
    · rw [Set_currentValue, Set_maxValue]
      omega

/-! ## Completion -/

theorem SetAll_stopped_stays (b : Bar) (calls : List SetCall)
    (hclock : ∀ c ∈ calls, c.now.stop ≠ 0) (hb : b.stopped ≠ 0) :
    (b.SetAll calls).stopped ≠ 0 := by
  induction calls generalizing b with
  | nil => exact hb
  | cons c cs ih =>
    rw [Bar.SetAll]
    apply ih
    · intro d hd
      exact hclock d (List.mem_cons_of_mem c hd)
    · rw [Set_stopped]
      split_ifs
      · exact hclock c (List.mem_cons_self c cs)
      · exact hb

theorem SetAll_stopped_iff (b : Bar) (calls : List SetCall)
    (hclock : ∀ c ∈ calls, c.now.stop ≠ 0) (hb : b.stopped = 0) :
    (b.SetAll calls).stopped ≠ 0 ↔ ∃ c ∈ calls, c.value ≥ b.maxValue := by
  induction calls generalizing b with
  | nil => simp [Bar.SetAll, hb]
  | cons c cs ih =>
    have hcs : ∀ d ∈ cs, d.now.stop ≠ 0 := fun d hd =>
      hclock d (List.mem_cons_of_mem c hd)
    rw [Bar.SetAll]
    by_cases hv : c.value ≥ b.maxValue
    · constructor
      · intro _
        exact ⟨c, List.mem_cons_self c cs, hv⟩
      · intro _
        apply SetAll_stopped_stays _ _ hcs
        rw [Set_stopped, if_pos hv]
        exact hclock c (List.mem_cons_self c cs)
    · have hs : (b.Set c.value c.now).stopped = 0 := by
        rw [Set_stopped, if_neg hv]
        exact hb
      rw [ih _ hcs hs, Set_maxValue]
      constructor
      · rintro ⟨d, hd, hdv⟩
        exact ⟨d, List.mem_cons_of_mem c hd, hdv⟩
      · rintro ⟨d, hd, hdv⟩
        rcases List.mem_cons.mp hd with rfl | hd
        · exact absurd hdv hv
        · exact ⟨d, hd, hdv⟩

theorem currentValues_eq_map (b : Bar) (calls : List SetCall) :
    b.currentValues calls = calls.map (fun c => min c.value b.maxValue) := by
  induction calls generalizing b with
  | nil => rfl
  | cons c cs ih =>
    rw [Bar.currentValues, ih, Set_currentValue, Set_maxValue]
    rfl

/-! ## Elapsed time and rate -/

theorem wrapInt64_of_range (n : Int) (h0 : minInt64 ≤ n) (h1 : n ≤ maxInt64) :
    wrapInt64 n = n := by
  unfold wrapInt64
  unfold minInt64 at h0
  unfold maxInt64 at h1
  omega

theorem wrapInt64_of_bounds (n : Int) (h0 : -9223372036854775808 ≤ n)
    (h1 : n ≤ 9223372036854775807) : wrapInt64 n = n := by
  unfold wrapInt64
  omega

theorem Time_Sub_of_range (t u : Int) (h0 : minDuration ≤ t - u) (h1 : t - u ≤ maxDuration) :
    Time.Sub t u = t - u := by
  unfold Time.Sub
  split_ifs <;> omega

theorem Time_Sub_pos (t u : Int) (h : 0 < t - u) : 0 < Time.Sub t u := by
  unfold Time.Sub minDuration maxDuration
  split_ifs <;> omega

theorem Time_Sub_self (t : Int) : Time.Sub t t = 0 := by
  unfold Time.Sub minDuration maxDuration
  split_ifs <;> omega

theorem Seconds_eq (d : Int) : Duration.Seconds d = F64.fin ((d : ℚ) / 1000000000) := by
  rw [Seconds_def]
  have h : Second * Int.tdiv d Second + Int.tmod d Second = d := Int.tdiv_add_tmod d Second
  have hq : ((Second * Int.tdiv d Second + Int.tmod d Second : Int) : ℚ) = (d : ℚ) := by
    rw [h]
  unfold Second at hq ⊢
  push_cast at hq
  congr 1
  rw [← hq]
  ring

theorem div_fin_zero (a : ℚ) :
    F64.div (F64.fin a) (F64.fin 0) =
      if a = 0 then F64.nan else if 0 < a then F64.posInf else F64.negInf := by
  simp [F64.div]

theorem div_fin_of_ne (a c : ℚ) (hc : c ≠ 0) :
    F64.div (F64.fin a) (F64.fin c) = F64.fin (a / c) := by
  simp [F64.div, hc]

theorem rate_stopped (b : Bar) (now : Int) (hs : Time.IsZero b.stopped = false) :
    b.rate now = F64.div (F64.fin ((b.currentValue : ℚ) - (b.initialValue : ℚ)))
      (F64.fin ((b.elapsed now : ℚ) / 1000000000)) := by
  rw [rate_def]
  simp only [hs, Bool.not_false, if_true, Seconds_eq, F64.ofInt, F64.sub]

theorem rate_no_sample (b : Bar) (now : Int) (hs : Time.IsZero b.stopped = true)
    (hb : b.buckets = []) : b.rate now = F64.fin 0 := by
  rw [rate_def]
  simp [hs, hb]

theorem rate_one_sample (b : Bar) (now : Int) (s : bucket)
    (hs : Time.IsZero b.stopped = true) (hb : b.buckets = [s]) :
    b.rate now = F64.div (F64.fin ((wrapInt64 (s.value - b.initialValue) : Int) : ℚ))
      (F64.fin ((Time.Sub s.updated b.started : ℚ) / 1000000000)) := by
  rw [rate_def]
  simp [hs, hb, Seconds_eq, F64.ofInt]

theorem rate_window (b : Bar) (now : Int) (first last : bucket) (mid : List bucket)
    (hs : Time.IsZero b.stopped = true) (hb : b.buckets = first :: (mid ++ [last])) :
    b.rate now = F64.div (F64.fin ((last.value : ℚ) - (first.value : ℚ)))
      (F64.fin ((Time.Sub last.updated first.updated : ℚ) / 1000000000)) := by
  rw [rate_def]
  cases mid with
  | nil => simp [hs, hb, Seconds_eq, F64.ofInt, F64.sub]
  | cons m ms => simp [hs, hb, Seconds_eq, F64.ofInt, F64.sub]

theorem tmod_Second (d : Int) :
    Int.tmod d Second = if 0 ≤ d then d % Second else -((-d) % Second) := by
  split_ifs with h
  · exact Int.tmod_eq_emod h (by decide)
  · have h2 : Int.tmod (-d) Second = (-d) % Second :=
      Int.tmod_eq_emod (by omega) (by decide)
    have h3 : Int.tmod (-d) Second = -Int.tmod d Second := by
      rw [Int.tmod_def, Int.tmod_def, Int.neg_tdiv]
      ring
    rw [← h2, h3, neg_neg]

theorem Round_Second_eq (d : Int) (h0 : minDuration + Second ≤ d)
    (h1 : d ≤ maxDuration - Second) :
    Duration.Round d Second =
      if d < 0 then
        if (-d) % Second + (-d) % Second < Second then d + (-d) % Second
        else d - Second + (-d) % Second
      else
        if d % Second + d % Second < Second then d - d % Second
        else d + Second - d % Second := by
  have hS : Second = 1000000000 := rfl
  have hrange : minInt64 + 1000000000 ≤ d ∧ d ≤ maxInt64 - 1000000000 := by
    unfold minDuration maxDuration Second at *
    unfold minInt64 maxInt64
    omega
  unfold minInt64 maxInt64 at hrange
  have w1 : wrapInt64 (d + (-d) % Second) = d + (-d) % Second := by
    apply wrapInt64_of_bounds <;> rw [hS] <;> omega
  have w2 : wrapInt64 (d - Second + (-d) % Second) = d - Second + (-d) % Second := by
    apply wrapInt64_of_bounds <;> rw [hS] <;> omega
  have w3 : wrapInt64 (d - d % Second) = d - d % Second := by
    apply wrapInt64_of_bounds <;> rw [hS] <;> omega
  have w4 : wrapInt64 (d + Second - d % Second) = d + Second - d % Second := by
    apply wrapInt64_of_bounds <;> rw [hS] <;> omega
  unfold Duration.Round
  rw [tmod_Second, if_neg (by decide : ¬ Second ≤ 0)]
  by_cases hd : d < 0
  · simp only [hd, if_true, if_neg (by omega : ¬ 0 ≤ d), neg_neg, w1, w2]
    split_ifs with ha hb
    · rfl
    · rfl
    · exfalso
      rw [hS] at hb
      omega
  · simp only [hd, if_false, if_pos (by omega : 0 ≤ d), w3, w4]
    split_ifs with ha hb
    · rfl
    · rfl
    · exfalso
      rw [hS] at hb
      omega

theorem Round_Second_spec (d : Int) (h0 : minDuration + Second ≤ d)
    (h1 : d ≤ maxDuration - Second) :
    (∃ k : Int, Duration.Round d Second = k * Second) ∧
      2 * (Duration.Round d Second - d) ≤ Second ∧
      -Second ≤ 2 * (Duration.Round d Second - d) := by
  have hdvd : (1000000000 : Int) ∣ Duration.Round d Second ∧
      2 * (Duration.Round d Second - d) ≤ Second ∧
      -Second ≤ 2 * (Duration.Round d Second - d) := by
    rw [Round_Second_eq d h0 h1]
    unfold Second
    split_ifs <;> omega
  obtain ⟨⟨k, hk⟩, h2, h3⟩ := hdvd
  refine ⟨⟨k, ?_⟩, h2, h3⟩
  rw [hk]
  unfold Second
  ring

/-- In a window whose neighbours are more than a second apart, the newest
sample is more than a second per gap after the oldest. -/
theorem spaced_span (l : List bucket) (first last : bucket)
    (hchain : List.Chain' (fun a c : bucket => Second < c.updated - a.updated) (first :: l))
    (hlast : (first :: l).getLast? = some last) :
    (l.length : Int) * (Second + 1) ≤ last.updated - first.updated := by
  induction l generalizing first with
  | nil =>
    simp at hlast
    subst hlast
    simp
  | cons x xs ih =>
    rw [List.chain'_cons] at hchain
    have hl : (x :: xs).getLast? = some last := by
      rw [← hlast]
      simp [List.getLast?_cons_cons]
    have h := ih x hchain.2 hl
    have hg := hchain.1
    simp only [List.length_cons, Nat.cast_add, Nat.cast_one]
    have hx : ((xs.length : Int) + 1) * (Second + 1)
        = (xs.length : Int) * (Second + 1) + (Second + 1) := by ring
    rw [hx]
    omega

/-! ## Strings -/

theorem utf8ByteSize_go_append (xs ys : List Char) :
    String.utf8ByteSize.go (xs ++ ys)
      = String.utf8ByteSize.go xs + String.utf8ByteSize.go ys := by
  induction xs with
  | nil => simp [String.utf8ByteSize.go]
  | cons c cs ih =>
    show String.utf8ByteSize.go (cs ++ ys) + c.utf8Size
      = (String.utf8ByteSize.go cs + c.utf8Size) + String.utf8ByteSize.go ys
    rw [ih]
    omega

theorem len_append (s t : String) : len (s ++ t) = len s + len t := by
  unfold len
  have h : (s ++ t).utf8ByteSize = s.utf8ByteSize + t.utf8ByteSize := by
    show String.utf8ByteSize.go (s.data ++ t.data) = _
    exact utf8ByteSize_go_append s.data t.data
  rw [h]
  push_cast
  rfl

theorem len_nonneg (s : String) : 0 ≤ len s := Int.ofNat_nonneg _

theorem utf8Size_of_ascii (c : Char) (h : c.toNat < 128) : c.utf8Size = 1 := by
  have hv : c.val ≤ 127 := by
    rw [UInt32.le_def]
    show c.val.val ≤ (127 : UInt32).val
    have hc : c.toNat = c.val.val.val := rfl
    rw [Fin.le_def]
    show c.val.val.val ≤ 127
    omega
  unfold Char.utf8Size
  exact if_pos hv

theorem utf8ByteSize_go_of_ascii (cs : List Char) (h : ∀ c ∈ cs, c.toNat < 128) :
    String.utf8ByteSize.go cs = cs.length := by
  induction cs with
  | nil => rfl
  | cons c cs ih =>
    simp only [String.utf8ByteSize.go, List.length_cons]
    rw [ih (fun d hd => h d (List.mem_cons_of_mem c hd)),
      utf8Size_of_ascii c (h c (List.mem_cons_self c cs))]

theorem len_of_ascii (s : String) (h : IsASCII s) : len s = (s.length : Int) := by
  unfold len
  have : s.utf8ByteSize = s.length := utf8ByteSize_go_of_ascii s.data h
  rw [this]

theorem IsASCII_append (s t : String) (hs : IsASCII s) (ht : IsASCII t) :
    IsASCII (s ++ t) := by
  intro c hc
  rw [String.data_append, List.mem_append] at hc
  rcases hc with hc | hc
  · exact hs c hc
  · exact ht c hc

theorem takeBytes_of_ascii (cs : List Char) (n : Nat) (h : ∀ c ∈ cs, c.toNat < 128) :
    takeBytes cs n = cs.take n := by
  induction cs generalizing n with
  | nil => simp [takeBytes]
  | cons c cs ih =>
    have hc := utf8Size_of_ascii c (h c (List.mem_cons_self c cs))
    have hcs : ∀ d ∈ cs, d.toNat < 128 := fun d hd => h d (List.mem_cons_of_mem c hd)
    cases n with
    | zero => simp [takeBytes, hc]
    | succ m => simp [takeBytes, hc, ih m hcs]

theorem length_repeatChars (cs : List Char) (n : Nat) :
    (repeatChars cs n).length = n * cs.length := by
  induction n with
  | zero => simp [repeatChars]
  | succ m ih =>
    simp only [repeatChars, List.length_append, ih]
    ring

theorem repeatChars_singleton (c : Char) (n : Nat) :
    repeatChars [c] n = List.replicate n c := by
  induction n with
  | zero => rfl
  | succ m ih =>
    simp only [repeatChars, ih, List.replicate_succ]
    rfl

theorem TrimSpace_sublist (s : String) : List.Sublist (TrimSpace s).data s.data := by
  unfold TrimSpace
  simp only
  have h1 : List.Sublist ((s.data.dropWhile isSpace).reverse.dropWhile isSpace)
      (s.data.dropWhile isSpace).reverse := List.dropWhile_sublist _
  have h2 := h1.reverse
  rw [List.reverse_reverse] at h2
  exact h2.trans (List.dropWhile_sublist _)

theorem IsASCII_TrimSpace (s : String) (h : IsASCII s) : IsASCII (TrimSpace s) :=
  fun c hc => h c ((TrimSpace_sublist s).subset hc)

theorem digitChar_ascii (d : Nat) (h : d < 10) : (Nat.digitChar d).toNat < 128 := by
  interval_cases d <;> decide

theorem toDigitsCore_ascii (fuel n : Nat) (ds : List Char)
    (h : ∀ c ∈ ds, c.toNat < 128) :
    ∀ c ∈ Nat.toDigitsCore 10 fuel n ds, c.toNat < 128 := by
  induction fuel generalizing n ds with
  | zero => exact h
  | succ m ih =>
    have hd : ∀ c ∈ Nat.digitChar (n % 10) :: ds, c.toNat < 128 := by
      intro c hc
      rcases List.mem_cons.mp hc with rfl | hc
      · exact digitChar_ascii _ (Nat.mod_lt _ (by decide))
      · exact h c hc
    unfold Nat.toDigitsCore
    simp only
    split_ifs
    · exact hd
    · exact ih _ _ hd

theorem IsASCII_Nat_repr (n : Nat) : IsASCII (Nat.repr n) := by
  unfold IsASCII Nat.repr Nat.toDigits
  exact toDigitsCore_ascii _ _ _ (by simp)

theorem IsASCII_toString_Int (z : Int) : IsASCII (toString z) := by
  cases z with
  | ofNat m => exact IsASCII_Nat_repr m
  | negSucc m =>
    show IsASCII ("-" ++ Nat.repr (m + 1))
    exact IsASCII_append _ _ (by decide) (IsASCII_Nat_repr _)

theorem IsASCII_padLeft (w : Nat) (s : String) (h : IsASCII s) : IsASCII (padLeft w s) := by
  unfold padLeft
  apply IsASCII_append _ _ _ h
  intro c hc
  rw [List.eq_of_mem_replicate hc]
  decide

theorem IsASCII_formatF3 (x : F64) : IsASCII (formatF3 x) := by
  cases x with
  | fin q => exact IsASCII_padLeft _ _ (IsASCII_toString_Int _)
  | posInf => decide
  | negInf => decide
  | nan => decide

theorem IsASCII_Repeat_space (n : Int) : IsASCII (Repeat " " n) := by
  intro c hc
  have hc2 : c ∈ repeatChars [' '] n.toNat := hc
  rw [repeatChars_singleton] at hc2
  rw [List.eq_of_mem_replicate hc2]
  decide

theorem IsASCII_sliceTo (s : String) (n : Int) (h : IsASCII s) : IsASCII (sliceTo s n) := by
  intro c hc
  have hc2 : c ∈ takeBytes s.data n.toNat := hc
  rw [takeBytes_of_ascii _ _ h] at hc2
  exact h c (List.mem_of_mem_take hc2)

theorem IsASCII_preWith (fl : ℚ → F64) (b : Bar) (h : IsASCII b.message) :
    IsASCII (b.preWith fl) := by
  have hpct : IsASCII (formatF3 (F64.Floor (b.percentWith fl)) ++ "% ") :=
    IsASCII_append _ _ (IsASCII_formatF3 _) (by decide)
  have htrim := IsASCII_TrimSpace b.message h
  have hempty : IsASCII "" := by decide
  have hsp : IsASCII " " := by decide
  unfold Bar.preWith
  simp only
  apply IsASCII_append _ _ _ hpct
  split_ifs
  · exact IsASCII_append _ _ (IsASCII_append _ _ (IsASCII_append _ _ hempty
      (IsASCII_sliceTo _ _ htrim)) (IsASCII_Repeat_space _)) hsp
  · exact IsASCII_append _ _ (IsASCII_append _ _ hempty (IsASCII_sliceTo _ _ htrim)) hsp
  · exact IsASCII_append _ _ (IsASCII_append _ _ (IsASCII_append _ _ hempty htrim)
      (IsASCII_Repeat_space _)) hsp
  · exact IsASCII_append _ _ (IsASCII_append _ _ hempty htrim) hsp
  · exact hempty

theorem IsASCII_pre (b : Bar) (h : IsASCII b.message) : IsASCII b.pre :=
  IsASCII_preWith F64.fin b h

theorem IsASCII_suf (b : Bar) (env : Env) (now : Int)
    (hbytes : ∀ n, IsASCII (env.HumanBytes n))
    (hdur : IsASCII (env.DurationString (b.elapsed now)) ∧
      IsASCII (env.DurationString (b.remaining env (b.rate now)))) :
    IsASCII (b.suf env now) := by
  have h1 : IsASCII "(" := by decide
  have h2 : IsASCII "/" := by decide
  have h3 : IsASCII ", " := by decide
  have h4 : IsASCII "/s" := by decide
  have h5 : IsASCII ")" := by decide
  have h6 : IsASCII " [" := by decide
  have h7 : IsASCII ":" := by decide
  have h8 : IsASCII "]" := by decide
  unfold Bar.suf Bar.sufWith
  simp only [rateWith_fin, remainingWith_fin]
  split_ifs
  · exact IsASCII_append _ _ (IsASCII_append _ _ (IsASCII_append _ _ (IsASCII_append _ _ h1
      (IsASCII_append _ _ (IsASCII_append _ _ (hbytes _) h2) (hbytes _)))
      (IsASCII_append _ _ (IsASCII_append _ _ h3 (hbytes _)) h4)) h5)
      (IsASCII_append _ _ (IsASCII_append _ _ (IsASCII_append _ _
        (IsASCII_append _ _ h6 hdur.1) h7) hdur.2) h8)
  · exact IsASCII_append _ _ (IsASCII_append _ _ h1 (hbytes _)) h5

/-! ## The bar -/

theorem Repeat_nonpos (s : String) (n : Int) (h : n ≤ 0) : Repeat s n = "" := by
  unfold Repeat
  rw [Int.toNat_of_nonpos h]
  rfl

theorem length_Repeat_glyph (c : Char) (n : Int) :
    (Repeat (String.singleton c) n).length = n.toNat := by
  show (repeatChars [c] n.toNat).length = n.toNat
  rw [length_repeatChars]
  simp

theorem String_append_empty (s : String) : s ++ "" = s := by
  show String.mk (s.data ++ []) = s
  rw [List.append_nil]

theorem inRange_finite (x : F64) (lo hi : ℚ) (h : F64.InRange lo hi x) :
    ∃ p : ℚ, x = F64.fin p ∧ lo ≤ p ∧ p ≤ hi := by
  cases x with
  | fin q => exact ⟨q, rfl, h.1, h.2⟩
  | posInf => exact absurd h id
  | negInf => exact absurd h id
  | nan => exact absurd h id

theorem filled_eq (b : Bar) (f : Int) (p : ℚ) (hp : b.percent = F64.fin p) :
    F64.div (F64.mul (F64.ofInt f) b.percent) (F64.fin 100)
      = F64.fin ((f : ℚ) * p / 100) := by
  rw [hp]
  simp [F64.ofInt, F64.mul, F64.div]

theorem toInt64_of_nonneg (undef : F64 → Int) (q : ℚ) (h0 : 0 ≤ q) (h1 : ⌊q⌋ ≤ maxInt64) :
    F64.toInt64 undef (F64.fin q) = ⌊q⌋ := by
  have h2 : minInt64 ≤ ⌊q⌋ := le_trans (by decide) (Int.floor_nonneg.mpr h0)
  simp only [F64.toInt64, if_pos h0]
  rw [if_pos ⟨h2, h1⟩]

theorem toInt64_of_nonpos (undef : F64 → Int) (q : ℚ) (h0 : q ≤ 0) (h1 : minInt64 ≤ ⌈q⌉) :
    F64.toInt64 undef (F64.fin q) = ⌈q⌉ := by
  have h2 : ⌈q⌉ ≤ maxInt64 := le_trans (Int.ceil_le.mpr (by exact_mod_cast h0)) (by decide)
  by_cases hq : 0 ≤ q
  · have hz : q = 0 := le_antisymm h0 hq
    subst hz
    simp [F64.toInt64, minInt64, maxInt64]
  · simp only [F64.toInt64, if_neg hq]
    rw [if_pos ⟨h1, h2⟩]

/-- The bar for any state and rounding: the guards `n > 0` and `f - n > 0`
only skip empty repetitions. -/
theorem midWith_eq (fl : ℚ → F64) (b : Bar) (env : Env) (f : Int) :
    b.midWith fl env f = "▕"
      ++ Repeat "█" (b.filledWith fl env f)
      ++ Repeat " " (wrapInt64 (f - b.filledWith fl env f))
      ++ "▏" := by
  unfold Bar.midWith
  simp only
  by_cases h1 : b.filledWith fl env f > 0
  · by_cases h2 : wrapInt64 (f - b.filledWith fl env f) > 0
    · rw [if_pos h1, if_pos h2]
    · rw [if_pos h1, if_neg h2, Repeat_nonpos " " _ (by omega), String_append_empty]
  · by_cases h2 : wrapInt64 (f - b.filledWith fl env f) > 0
    · rw [if_neg h1, if_pos h2, Repeat_nonpos "█" _ (by omega), String_append_empty]
    · rw [if_neg h1, if_neg h2, Repeat_nonpos "█" _ (by omega),
        Repeat_nonpos " " _ (by omega), String_append_empty, String_append_empty]

theorem filledWith_fin (b : Bar) (env : Env) (f : Int) :
    b.filledWith F64.fin env f = F64.toInt64 env.undefInt
      (F64.div (F64.mul (F64.ofInt f) b.percent) (F64.fin 100)) := by
  unfold Bar.filledWith
  rw [rnd_fin, rnd_fin, rnd_fin, percentWith_fin]

/-- The bar in exact arithmetic. -/
theorem mid_eq (b : Bar) (env : Env) (f : Int) :
    b.mid env f = "▕"
      ++ Repeat "█" (F64.toInt64 env.undefInt
          (F64.div (F64.mul (F64.ofInt f) b.percent) (F64.fin 100)))
      ++ Repeat " " (wrapInt64 (f - F64.toInt64 env.undefInt
          (F64.div (F64.mul (F64.ofInt f) b.percent) (F64.fin 100))))
      ++ "▏" := by
  unfold Bar.mid
  rw [midWith_eq, filledWith_fin]

/-- With a percentage in `[0, 100]` and `f ≥ 0` columns, the number of fill
glyphs is `⌊f * percent / 100⌋`, between `0` and `f`. -/
theorem filled_of_nonneg (b : Bar) (env : Env) (f : Int) (p : ℚ)
    (hp : b.percent = F64.fin p) (hp0 : 0 ≤ p) (hp1 : p ≤ 100)
    (hf0 : 0 ≤ f) (hf1 : f ≤ maxInt64) :
    F64.toInt64 env.undefInt (F64.div (F64.mul (F64.ofInt f) b.percent) (F64.fin 100))
        = ⌊(f : ℚ) * p / 100⌋ ∧
      0 ≤ ⌊(f : ℚ) * p / 100⌋ ∧ ⌊(f : ℚ) * p / 100⌋ ≤ f := by
  have hfq : (0 : ℚ) ≤ (f : ℚ) := by exact_mod_cast hf0
  have hq0 : (0 : ℚ) ≤ (f : ℚ) * p / 100 := by positivity
  have hq1 : (f : ℚ) * p / 100 ≤ (f : ℚ) := by
    rw [div_le_iff₀ (by norm_num)]
    nlinarith
  have hfl : ⌊(f : ℚ) * p / 100⌋ ≤ f := by
    have := Int.floor_mono hq1
    rwa [Int.floor_intCast] at this
  rw [filled_eq b f p hp, toInt64_of_nonneg _ _ hq0 (le_trans hfl hf1)]
  exact ⟨rfl, Int.floor_nonneg.mpr hq0, hfl⟩

/-- With a percentage in `[0, 100]` and `f ≤ 0` columns, the computed number
of fill glyphs lies between `f` and `0`. -/
theorem filled_of_nonpos (b : Bar) (env : Env) (f : Int) (p : ℚ)
    (hp : b.percent = F64.fin p) (hp0 : 0 ≤ p) (hp1 : p ≤ 100)
    (hf0 : f ≤ 0) (hf1 : minInt64 ≤ f) :
    F64.toInt64 env.undefInt (F64.div (F64.mul (F64.ofInt f) b.percent) (F64.fin 100)) ≤ 0 ∧
      f ≤ F64.toInt64 env.undefInt
        (F64.div (F64.mul (F64.ofInt f) b.percent) (F64.fin 100)) := by
  have hfq : (f : ℚ) ≤ 0 := by exact_mod_cast hf0
  have hq0 : (f : ℚ) * p / 100 ≤ 0 := by
    rw [div_le_iff₀ (by norm_num)]
    nlinarith
  have hq1 : (f : ℚ) ≤ (f : ℚ) * p / 100 := by
    rw [le_div_iff₀ (by norm_num)]
    nlinarith
  have hce : f ≤ ⌈(f : ℚ) * p / 100⌉ := by
    have := Int.ceil_mono hq1
    rwa [Int.ceil_intCast] at this
  have hce0 : ⌈(f : ℚ) * p / 100⌉ ≤ 0 := Int.ceil_le.mpr (by exact_mod_cast hq0)
  rw [filled_eq b f p hp, toInt64_of_nonpos _ _ hq0 (le_trans hf1 hce)]
  exact ⟨hce0, hce⟩

/-! ## The rendered line -/

theorem length_Repeat_fill (n : Int) : (Repeat "█" n).length = n.toNat :=
  length_Repeat_glyph '█' n

theorem length_Repeat_space (n : Int) : (Repeat " " n).length = n.toNat :=
  length_Repeat_glyph ' ' n

theorem String_length (b : Bar) (env : Env) (termWidth now : Int)
    (hpre : len b.pre = (b.pre.length : Int))
    (hsuf : len (b.suf env now) = ((b.suf env now).length : Int))
    (hp : F64.InRange 0 100 b.percent)
    (hw : termWidth ≤ maxInt64) (hf : 0 ≤ b.available env termWidth now) :
    ((b.String env termWidth now).length : Int) = termWidth - 1 ∧
    ((b.mid env (b.available env termWidth now)).length : Int)
      = b.available env termWidth now + 2 := by
  obtain ⟨p, hpe, hp0, hp1⟩ := inRange_finite _ _ _ hp
  have hav : b.available env termWidth now
      = termWidth - len b.pre - len (b.suf env now) - 3 := rfl
  have hl1 := len_nonneg b.pre
  have hl2 := len_nonneg (b.suf env now)
  have hf1 : b.available env termWidth now ≤ maxInt64 := by omega
  have hwrap : wrapInt64 (b.available env termWidth now) = b.available env termWidth now :=
    wrapInt64_of_range _ (le_trans (by decide) hf) hf1
  obtain ⟨hn, hn0, hn1⟩ := filled_of_nonneg b env _ p hpe hp0 hp1 hf hf1
  have hw2 : wrapInt64 (b.available env termWidth now
      - ⌊((b.available env termWidth now : Int) : ℚ) * p / 100⌋)
      = b.available env termWidth now
        - ⌊((b.available env termWidth now : Int) : ℚ) * p / 100⌋ :=
    wrapInt64_of_range _ (le_trans (by decide) (by omega : (0 : Int) ≤ _)) (by omega)
  have hb1 : ("▕" : String).length = 1 := rfl
  have hb2 : ("▏" : String).length = 1 := rfl
  have hmid : ((b.mid env (b.available env termWidth now)).length : Int)
      = b.available env termWidth now + 2 := by
    rw [mid_eq, hn, hw2]
    simp only [String.length_append, length_Repeat_fill, length_Repeat_space, hb1, hb2]
    push_cast
    omega
  refine ⟨?_, hmid⟩
  rw [String_def]
  simp only [hwrap, String.length_append]
  push_cast
  rw [hmid]
  omega

theorem String_length_of_ascii (b : Bar) (env : Env) (termWidth now : Int)
    (hcur : 0 ≤ b.currentValue ∧ b.currentValue ≤ b.maxValue)
    (hlabel : IsASCII b.message)
    (hbytes : ∀ n, IsASCII (env.HumanBytes n))
    (hdur : IsASCII (env.DurationString (b.elapsed now)) ∧
      IsASCII (env.DurationString (b.remaining env (b.rate now))))
    (hw : termWidth ≤ maxInt64) (hf : 0 ≤ b.available env termWidth now) :
    ((b.String env termWidth now).length : Int) = termWidth - 1 ∧
    ((b.mid env (b.available env termWidth now)).length : Int)
      = b.available env termWidth now + 2 :=
  String_length b env termWidth now (len_of_ascii _ (IsASCII_pre b hlabel))
    (len_of_ascii _ (IsASCII_suf b env now hbytes hdur))
    (percent_inRange b hcur.1 hcur.2) hw hf

theorem sampleEnv_bytes_ascii (n : Int) : IsASCII (sampleEnv.HumanBytes n) :=
  IsASCII_append _ _ (IsASCII_toString_Int n) (by decide)

theorem sampleEnv_duration_ascii (d : Int) : IsASCII (sampleEnv.DurationString d) :=
  IsASCII_append _ _ (IsASCII_toString_Int _) (by decide)

/-! ## Evaluation of the example states -/

theorem roundHalfEven_intCast (z : Int) : roundHalfEven (z : ℚ) = z := by
  unfold roundHalfEven
  simp

theorem Floor_intCast (z : Int) : F64.Floor (F64.fin (z : ℚ)) = F64.fin (z : ℚ) := by
  simp [F64.Floor]

theorem formatF3_intCast (z : Int) :
    formatF3 (F64.fin (z : ℚ)) = padLeft 3 (toString z) := by
  simp [formatF3, roundHalfEven_intCast]

theorem toInt64_intCast (undef : F64 → Int) (z : Int) (h0 : minInt64 ≤ z)
    (h1 : z ≤ maxInt64) : F64.toInt64 undef (F64.fin (z : ℚ)) = z := by
  simp [F64.toInt64, h0, h1]

theorem halfway_percent : halfway.percent = F64.fin ((50 : Int) : ℚ) := by
  rw [percent_of_pos _ (by decide)]
  have hc : halfway.currentValue = 500 := by decide
  have hm : halfway.maxValue = 1000 := by decide
  rw [hc, hm]
  norm_num

theorem halfway_pre : halfway.pre = "download  50% " := by
  unfold Bar.pre Bar.preWith
  rw [percentWith_fin, halfway_percent, Floor_intCast, formatF3_intCast]
  decide

theorem halfway_rate : halfway.rate 3000000000 = F64.fin ((250 : Int) : ℚ) := by
  rw [rate_one_sample _ _ ⟨3000000000, 500⟩ (by decide) (by decide)]
  have hw : wrapInt64 ((⟨3000000000, 500⟩ : bucket).value - halfway.initialValue) = 500 := by
    decide
  have ht : Time.Sub (⟨3000000000, 500⟩ : bucket).updated halfway.started = 2000000000 := by
    decide
  rw [hw, ht]
  simp [F64.div]
  norm_num

theorem halfway_remaining :
    halfway.remaining sampleEnv (F64.fin ((250 : Int) : ℚ)) = 2000000000 := by
  rw [remaining_def]
  have hw : wrapInt64 (halfway.maxValue - halfway.currentValue) = 500 := by decide
  have hd : F64.div (F64.ofInt 500) (F64.fin ((250 : Int) : ℚ)) = F64.fin ((2 : Int) : ℚ) := by
    simp [F64.div, F64.ofInt]
    norm_num
  have hg : F64.gtZero (F64.fin ((250 : Int) : ℚ)) = true := by
    simp [F64.gtZero]
  rw [hw, hd, hg, toInt64_intCast _ _ (by decide) (by decide)]
  decide

theorem halfway_suf :
    halfway.suf sampleEnv 3000000000 = "(500 B/1000 B, 250 B/s) [2s:2s]" := by
  unfold Bar.suf Bar.sufWith
  simp only [rateWith_fin, remainingWith_fin]
  rw [halfway_rate, halfway_remaining, toInt64_intCast _ _ (by decide) (by decide)]
  decide

theorem halfway_available (w : Int) :
    halfway.available sampleEnv w 3000000000 = w - 48 := by
  rw [available_def]
  rw [halfway_pre, halfway_suf]
  have h1 : len "download  50% " = 14 := by decide
  have h2 : len "(500 B/1000 B, 250 B/s) [2s:2s]" = 31 := by decide
  rw [h1, h2]
  omega

theorem belowZero_percent : belowZero.percent = F64.fin ((-50 : Int) : ℚ) := by
  rw [percent_of_pos _ (by decide)]
  have hc : belowZero.currentValue = -50 := by decide
  have hm : belowZero.maxValue = 100 := by decide
  rw [hc, hm]
  norm_num

theorem belowZero_pre : belowZero.pre = "x -50% " := by
  unfold Bar.pre Bar.preWith
  rw [percentWith_fin, belowZero_percent, Floor_intCast, formatF3_intCast]
  decide

theorem belowZero_rate : belowZero.rate 2000000000 = F64.fin ((-50 : Int) : ℚ) := by
  rw [rate_one_sample _ _ ⟨2000000000, -50⟩ (by decide) (by decide)]
  have hw : wrapInt64 ((⟨2000000000, -50⟩ : bucket).value - belowZero.initialValue) = -50 := by
    decide
  have ht : Time.Sub (⟨2000000000, -50⟩ : bucket).updated belowZero.started
      = 1000000000 := by
    decide
  rw [hw, ht]
  simp [F64.div]

theorem belowZero_suf :
    belowZero.suf sampleEnv 2000000000 = "(-50 B/100 B, -50 B/s) [1s:0s]" := by
  have hr : belowZero.remaining sampleEnv (F64.fin ((-50 : Int) : ℚ)) = 0 := by
    rw [remaining_def]
    have hg : F64.gtZero (F64.fin ((-50 : Int) : ℚ)) = false := by
      simp [F64.gtZero]
    rw [hg]
    rfl
  unfold Bar.suf Bar.sufWith
  simp only [rateWith_fin, remainingWith_fin]
  rw [belowZero_rate, hr, toInt64_intCast _ _ (by decide) (by decide)]
  decide

theorem belowZero_mid : belowZero.mid sampleEnv (-40) = "▕████████████████████▏" := by
  have hn : F64.toInt64 sampleEnv.undefInt
      (F64.div (F64.mul (F64.ofInt (-40)) belowZero.percent) (F64.fin 100)) = 20 := by
    rw [belowZero_percent]
    have : F64.div (F64.mul (F64.ofInt (-40)) (F64.fin ((-50 : Int) : ℚ))) (F64.fin 100)
        = F64.fin ((20 : Int) : ℚ) := by
      simp [F64.div, F64.mul, F64.ofInt]
      norm_num
    rw [this, toInt64_intCast _ _ (by decide) (by decide)]
  rw [mid_eq, hn]
  decide

theorem belowZero_available : belowZero.available sampleEnv 0 2000000000 = -40 := by
  rw [available_def]
  rw [belowZero_pre, belowZero_suf]
  decide

/-! ## Rounding to the nearest binary64 value -/

theorem rhe_cases (x : ℚ) : roundHalfEven x = ⌊x⌋ ∨ roundHalfEven x = ⌊x⌋ + 1 := by
  unfold roundHalfEven
  split_ifs <;> simp

theorem rhe_intCast (z : Int) : roundHalfEven (z : ℚ) = z := by
  unfold roundHalfEven
  simp

theorem rhe_mono {x y : ℚ} (h : x ≤ y) : roundHalfEven x ≤ roundHalfEven y := by
  have hf := Int.floor_mono h
  rcases lt_or_eq_of_le hf with hlt | heq
  · rcases rhe_cases x with h1 | h1 <;> rcases rhe_cases y with h2 | h2 <;> omega
  · unfold roundHalfEven
    rw [← heq]
    split_ifs <;> first | omega | (exfalso; linarith)

theorem rhe_eq_of_near (x : ℚ) (m : Int) (h : |x - (m : ℚ)| < 1 / 2) :
    roundHalfEven x = m := by
  rw [abs_lt] at h
  by_cases hx : (m : ℚ) ≤ x
  · have hfl : ⌊x⌋ = m := by
      rw [Int.floor_eq_iff]
      constructor <;> linarith
    unfold roundHalfEven
    rw [hfl, if_pos (by linarith)]
  · have hfl : ⌊x⌋ = m - 1 := by
      rw [Int.floor_eq_iff]
      push_cast
      constructor <;> linarith
    unfold roundHalfEven
    rw [hfl]
    push_cast
    rw [if_neg (by linarith), if_pos (by linarith)]
    omega

theorem rhe_abs_sub_le (x : ℚ) : |(roundHalfEven x : ℚ) - x| ≤ 1 / 2 := by
  have h1 := Int.floor_le x
  have h2 := Int.lt_floor_add_one x
  rw [abs_le]
  unfold roundHalfEven
  split_ifs <;> push_cast <;> constructor <;> linarith


theorem two_zpow_pos (k : Int) : (0 : ℚ) < (2 : ℚ) ^ k := zpow_pos (by norm_num) k

theorem two_zpow_add (j k : Int) : (2 : ℚ) ^ (j + k) = (2 : ℚ) ^ j * (2 : ℚ) ^ k :=
  zpow_add₀ (by norm_num) j k

theorem two_zpow_mono {j k : Int} (h : j ≤ k) : (2 : ℚ) ^ j ≤ (2 : ℚ) ^ k :=
  zpow_le_zpow_right₀ (by norm_num) h

theorem binade_ge (q : ℚ) : -1022 ≤ binade q := le_max_right _ _

theorem log_le_binade (q : ℚ) : Int.log 2 |q| ≤ binade q := le_max_left _ _

theorem lt_two_zpow_binade (q : ℚ) (hq : 0 < q) : q < (2 : ℚ) ^ (binade q + 1) := by
  have h := Int.lt_zpow_succ_log_self (b := 2) (by norm_num) q
  rw [Nat.cast_ofNat] at h
  have hl := log_le_binade q
  rw [abs_of_pos hq] at hl
  exact lt_of_lt_of_le h (two_zpow_mono (by omega))

theorem two_zpow_binade_le (q : ℚ) (hq : 0 < q) (hn : -1022 ≤ Int.log 2 q) :
    (2 : ℚ) ^ binade q ≤ q := by
  have h := Int.zpow_log_le_self (b := 2) (r := q) (by norm_num) hq
  rw [Nat.cast_ofNat] at h
  have hb : binade q = Int.log 2 q := by
    unfold binade
    rw [abs_of_pos hq]
    exact max_eq_left hn
  rw [hb]
  exact h

theorem binade_mono {q1 q2 : ℚ} (h1 : 0 < q1) (h : q1 ≤ q2) : binade q1 ≤ binade q2 := by
  unfold binade
  rw [abs_of_pos h1, abs_of_pos (lt_of_lt_of_le h1 h)]
  exact max_le_max (Int.log_mono_right h1 h) (le_refl _)

theorem nearest64_nonneg (q : ℚ) (hq : 0 ≤ q) : 0 ≤ nearest64 q := by
  unfold nearest64
  have hu := two_zpow_pos (binade q - 52)
  have h0 : roundHalfEven 0 ≤ roundHalfEven (q / (2 : ℚ) ^ (binade q - 52)) :=
    rhe_mono (div_nonneg hq hu.le)
  have h00 : roundHalfEven 0 = 0 := by
    have := rhe_intCast 0
    simpa using this
  rw [h00] at h0
  have : (0 : ℚ) ≤ (roundHalfEven (q / (2 : ℚ) ^ (binade q - 52)) : ℚ) := by exact_mod_cast h0
  exact mul_nonneg this hu.le

theorem nearest64_le_top (q : ℚ) (hq : 0 < q) : nearest64 q ≤ (2 : ℚ) ^ (binade q + 1) := by
  unfold nearest64
  have hu := two_zpow_pos (binade q - 52)
  have hlt := lt_two_zpow_binade q hq
  have hsplit : (2 : ℚ) ^ (binade q + 1) = (2 : ℚ) ^ (53 : Int) * (2 : ℚ) ^ (binade q - 52) := by
    rw [← two_zpow_add]
    congr 1
    omega
  have hx : q / (2 : ℚ) ^ (binade q - 52) ≤ ((9007199254740992 : Int) : ℚ) := by
    rw [div_le_iff₀ hu]
    have h53 : ((9007199254740992 : Int) : ℚ) = (2 : ℚ) ^ (53 : Int) := by norm_num
    rw [h53, ← hsplit]
    exact hlt.le
  have hr := rhe_mono hx
  rw [rhe_intCast] at hr
  have hrq : (roundHalfEven (q / (2 : ℚ) ^ (binade q - 52)) : ℚ)
      ≤ ((9007199254740992 : Int) : ℚ) := by exact_mod_cast hr
  have h53 : ((9007199254740992 : Int) : ℚ) = (2 : ℚ) ^ (53 : Int) := by norm_num
  rw [hsplit, ← h53]
  exact mul_le_mul_of_nonneg_right hrq hu.le

theorem nearest64_ge_bottom (q : ℚ) (hq : 0 < q) (hn : -1022 ≤ Int.log 2 q) :
    (2 : ℚ) ^ binade q ≤ nearest64 q := by
  unfold nearest64
  have hu := two_zpow_pos (binade q - 52)
  have hle := two_zpow_binade_le q hq hn
  have hsplit : (2 : ℚ) ^ binade q = (2 : ℚ) ^ (52 : Int) * (2 : ℚ) ^ (binade q - 52) := by
    rw [← two_zpow_add]
    congr 1
    omega
  have h52 : ((4503599627370496 : Int) : ℚ) = (2 : ℚ) ^ (52 : Int) := by norm_num
  have hx : ((4503599627370496 : Int) : ℚ) ≤ q / (2 : ℚ) ^ (binade q - 52) := by
    rw [le_div_iff₀ hu, h52, ← hsplit]
    exact hle
  have hr := rhe_mono hx
  rw [rhe_intCast] at hr
  have hrq : ((4503599627370496 : Int) : ℚ)
      ≤ (roundHalfEven (q / (2 : ℚ) ^ (binade q - 52)) : ℚ) := by exact_mod_cast hr
  rw [hsplit, ← h52]
  exact mul_le_mul_of_nonneg_right hrq hu.le

theorem nearest64_mono {q1 q2 : ℚ} (h1 : 0 < q1) (h : q1 ≤ q2) :
    nearest64 q1 ≤ nearest64 q2 := by
  have h2 : 0 < q2 := lt_of_lt_of_le h1 h
  rcases lt_or_eq_of_le (binade_mono h1 h) with hlt | heq
  · have hlog : -1022 ≤ Int.log 2 q2 := by
      by_contra hc
      have hb : binade q2 = -1022 := by
        unfold binade
        rw [abs_of_pos h2]
        exact max_eq_right (by omega)
      have := binade_ge q1
      omega
    calc nearest64 q1 ≤ (2 : ℚ) ^ (binade q1 + 1) := nearest64_le_top q1 h1
      _ ≤ (2 : ℚ) ^ binade q2 := two_zpow_mono (by omega)
      _ ≤ nearest64 q2 := nearest64_ge_bottom q2 h2 hlog
  · unfold nearest64
    rw [heq]
    have hu := two_zpow_pos (binade q2 - 52)
    have hx : q1 / (2 : ℚ) ^ (binade q2 - 52) ≤ q2 / (2 : ℚ) ^ (binade q2 - 52) :=
      div_le_div_of_nonneg_right h hu.le
    have hr := rhe_mono hx
    have hrq : (roundHalfEven (q1 / (2 : ℚ) ^ (binade q2 - 52)) : ℚ)
        ≤ (roundHalfEven (q2 / (2 : ℚ) ^ (binade q2 - 52)) : ℚ) := by exact_mod_cast hr
    exact mul_le_mul_of_nonneg_right hrq hu.le

theorem nearest64_zero : nearest64 0 = 0 := by
  unfold nearest64
  have := rhe_intCast 0
  simp only [Int.cast_zero] at this
  rw [zero_div, this]
  simp

theorem nearest64_mono_nonneg {q1 q2 : ℚ} (h1 : 0 ≤ q1) (h : q1 ≤ q2) :
    nearest64 q1 ≤ nearest64 q2 := by
  rcases eq_or_lt_of_le h1 with h0 | hpos
  · rw [← h0, nearest64_zero]
    exact nearest64_nonneg q2 (le_trans h1 h)
  · exact nearest64_mono hpos h

/-- Rounding is monotone on the non-negative rationals, and finite below a
finite result. -/
theorem binary64_mono_nonneg {q1 q2 r2 : ℚ} (h1 : 0 ≤ q1) (h : q1 ≤ q2)
    (h2 : binary64 q2 = F64.fin r2) :
    ∃ r1 : ℚ, binary64 q1 = F64.fin r1 ∧ 0 ≤ r1 ∧ r1 ≤ r2 := by
  have hm := nearest64_mono_nonneg h1 h
  have hn := nearest64_nonneg q1 h1
  have hp : (0 : ℚ) < (2 : ℚ) ^ (1024 : Nat) := by positivity
  unfold binary64 at h2
  split_ifs at h2 with ha hb
  have hr2 : nearest64 q2 = r2 := F64.fin.inj h2
  refine ⟨nearest64 q1, ?_, hn, by rw [← hr2]; exact hm⟩
  unfold binary64
  rw [if_neg (by linarith), if_neg (by linarith)]

theorem nearest64_of_scaled (q : ℚ) (z : Int)
    (hz : q = (z : ℚ) * (2 : ℚ) ^ (binade q - 52)) : nearest64 q = q := by
  have hu := two_zpow_pos (binade q - 52)
  unfold nearest64
  have hx : q / (2 : ℚ) ^ (binade q - 52) = (z : ℚ) := by
    rw [div_eq_iff hu.ne']
    exact hz
  rw [hx, rhe_intCast]
  exact hz.symm

theorem binary64_of_nearest (q : ℚ) (h : nearest64 q = q)
    (hlt : |q| < (2 : ℚ) ^ (1024 : Nat)) : binary64 q = F64.fin q := by
  rw [abs_lt] at hlt
  unfold binary64
  rw [h, if_neg (by linarith), if_neg (by linarith)]

/-- Integers below `2 ^ 53` are binary64 values. -/
theorem binary64_natCast (n : Nat) (hn : n < 9007199254740992) :
    binary64 (n : ℚ) = F64.fin (n : ℚ) := by
  rcases Nat.eq_zero_or_pos n with h0 | hpos
  · subst h0
    apply binary64_of_nearest
    · simpa using nearest64_zero
    · simp
  · have hq : (0 : ℚ) < (n : ℚ) := by exact_mod_cast hpos
    have hlog : Int.log 2 ((n : ℚ)) = (Nat.log 2 n : Int) := Int.log_natCast 2 n
    have hle : Nat.log 2 n < 53 := by
      apply Nat.log_lt_of_lt_pow (by omega)
      norm_num
      exact hn
    have hb : binade (n : ℚ) = (Nat.log 2 n : Int) := by
      unfold binade
      rw [abs_of_pos hq, hlog]
      exact max_eq_left (by omega)
    apply binary64_of_nearest
    · apply nearest64_of_scaled _ ((n * 2 ^ (52 - Nat.log 2 n) : Nat) : Int)
      rw [hb]
      have hk : ((Nat.log 2 n : Int) - 52) = -((52 - Nat.log 2 n : Nat) : Int) := by omega
      rw [hk, zpow_neg, zpow_natCast]
      push_cast
      field_simp
    · rw [abs_of_pos hq]
      have : (n : ℚ) < 9007199254740992 := by exact_mod_cast hn
      have h2 : (9007199254740992 : ℚ) ≤ (2 : ℚ) ^ (1024 : Nat) := by norm_num
      linarith

theorem binary64_intCast_nonneg (z : Int) (h0 : 0 ≤ z) (h1 : z < 9007199254740992) :
    binary64 (z : ℚ) = F64.fin (z : ℚ) := by
  have := binary64_natCast z.toNat (by omega)
  have hz : ((z.toNat : Nat) : ℚ) = (z : ℚ) := by
    have : ((z.toNat : Nat) : Int) = z := Int.toNat_of_nonneg h0
    exact_mod_cast this
  rwa [hz] at this


/-- A value halfway between two integers rounds to the even one. -/
theorem rhe_eq_of_tie (x : ℚ) (m : Int) (h : x = (m : ℚ) - 1 / 2) (heven : m % 2 = 0) :
    roundHalfEven x = m := by
  have hfl : ⌊x⌋ = m - 1 := by
    rw [Int.floor_eq_iff]
    push_cast
    constructor <;> linarith
  unfold roundHalfEven
  rw [hfl]
  push_cast
  rw [if_neg (by linarith), if_neg (by linarith), if_neg (by omega)]
  omega

/-- Evaluation of the rounding at a positive rational from its binade and the
rounded multiple of the spacing. -/
theorem binary64_eval_round (q : ℚ) (e m : Int) (hq : 0 < q)
    (hlo : (2 : ℚ) ^ e ≤ q) (hhi : q < (2 : ℚ) ^ (e + 1)) (he : -1022 ≤ e)
    (hm : roundHalfEven (q / (2 : ℚ) ^ (e - 52)) = m)
    (hfin : |(m : ℚ) * (2 : ℚ) ^ (e - 52)| < (2 : ℚ) ^ (1024 : Nat)) :
    binary64 q = F64.fin ((m : ℚ) * (2 : ℚ) ^ (e - 52)) := by
  have hlog : Int.log 2 q = e := by
    have h1 : e ≤ Int.log 2 q := by
      apply (Int.zpow_le_iff_le_log (b := 2) (by norm_num) hq).mp
      rw [Nat.cast_ofNat]
      exact hlo
    have h2 : Int.log 2 q < e + 1 := by
      apply (Int.lt_zpow_iff_log_lt (b := 2) (by norm_num) hq).mp
      rw [Nat.cast_ofNat]
      exact hhi
    omega
  have hb : binade q = e := by
    unfold binade
    rw [abs_of_pos hq, hlog]
    exact max_eq_left he
  have hn : nearest64 q = (m : ℚ) * (2 : ℚ) ^ (e - 52) := by
    unfold nearest64
    rw [hb, hm]
  rw [abs_lt] at hfin
  unfold binary64
  rw [hn, if_neg (by linarith), if_neg (by linarith)]

/-- Evaluation of the rounding at a positive rational from its binade and the
nearest multiple of the spacing. -/
theorem binary64_eval (q : ℚ) (e m : Int) (hq : 0 < q)
    (hlo : (2 : ℚ) ^ e ≤ q) (hhi : q < (2 : ℚ) ^ (e + 1)) (he : -1022 ≤ e)
    (hm : |q / (2 : ℚ) ^ (e - 52) - (m : ℚ)| < 1 / 2)
    (hfin : |(m : ℚ) * (2 : ℚ) ^ (e - 52)| < (2 : ℚ) ^ (1024 : Nat)) :
    binary64 q = F64.fin ((m : ℚ) * (2 : ℚ) ^ (e - 52)) :=
  binary64_eval_round q e m hq hlo hhi he (rhe_eq_of_near _ m hm) hfin

theorem binary64_two_pow_63 :
    binary64 (9223372036854775808 : ℚ) = F64.fin 9223372036854775808 := by
  have h := binary64_eval 9223372036854775808 63 4503599627370496 (by norm_num)
    (by norm_num) (by norm_num) (by norm_num) (by norm_num) (by norm_num)
  rw [h]
  norm_num

theorem percentWith_eval (fl : ℚ → F64) (b : Bar) (hmax : 0 < b.maxValue) (a m q p : ℚ)
    (ha : fl (b.currentValue : ℚ) = F64.fin a) (hm : fl (b.maxValue : ℚ) = F64.fin m)
    (hm0 : m ≠ 0) (hq : fl (a / m) = F64.fin q) (hp : fl (q * 100) = F64.fin p) :
    b.percentWith fl = F64.fin p := by
  unfold Bar.percentWith
  rw [if_pos hmax]
  simp only [F64.ofInt, F64.rnd, ha, hm, F64.div, hm0, if_false, hq, F64.mul, hp]

theorem filledWith_eval (fl : ℚ → F64) (b : Bar) (env : Env) (f : Int) (g p x y : ℚ)
    (hf : fl (f : ℚ) = F64.fin g) (hper : b.percentWith fl = F64.fin p)
    (hx : fl (g * p) = F64.fin x) (hy : fl (x / 100) = F64.fin y) :
    b.filledWith fl env f = F64.toInt64 env.undefInt (F64.fin y) := by
  unfold Bar.filledWith
  have h100 : (100 : ℚ) ≠ 0 := by norm_num
  simp only [F64.ofInt, F64.rnd, hf, hper, F64.mul, hx, F64.div, h100, if_false, hy]

/-- In float64 arithmetic the percentage of a state with
`0 ≤ currentValue ≤ maxValue` is a finite number of `[0, 100]`. -/
theorem percent_binary64_inRange (b : Bar) (h0 : 0 ≤ b.currentValue)
    (h1 : b.currentValue ≤ b.maxValue) (hmax : 0 < b.maxValue)
    (hM : b.maxValue ≤ maxInt64) :
    ∃ p : ℚ, b.percentWith binary64 = F64.fin p ∧ 0 ≤ p ∧ p ≤ 100 := by
  have hcq : (0 : ℚ) ≤ (b.currentValue : ℚ) := by exact_mod_cast h0
  have hcm : (b.currentValue : ℚ) ≤ (b.maxValue : ℚ) := by exact_mod_cast h1
  have hmq : (1 : ℚ) ≤ (b.maxValue : ℚ) := by exact_mod_cast hmax
  have hMq : (b.maxValue : ℚ) ≤ 9223372036854775808 := by
    unfold maxInt64 at hM
    have : b.maxValue ≤ 9223372036854775808 := by omega
    exact_mod_cast this
  have hone : binary64 (1 : ℚ) = F64.fin 1 := by
    simpa using binary64_natCast 1 (by norm_num)
  have hhund : binary64 (100 : ℚ) = F64.fin 100 := by
    simpa using binary64_natCast 100 (by norm_num)
  obtain ⟨m, hm, _, _⟩ := binary64_mono_nonneg (by linarith) hMq binary64_two_pow_63
  obtain ⟨r1, hr1, _, hr1m⟩ := binary64_mono_nonneg (by norm_num) hmq hm
  rw [hone] at hr1
  have hr11 : (1 : ℚ) = r1 := F64.fin.inj hr1
  have hm1 : (1 : ℚ) ≤ m := by rw [hr11]; exact hr1m
  obtain ⟨a, ha, ha0, ham⟩ := binary64_mono_nonneg hcq hcm hm
  have hq0 : (0 : ℚ) ≤ a / m := div_nonneg ha0 (by linarith)
  have hq1 : a / m ≤ 1 := (div_le_one (by linarith)).mpr ham
  obtain ⟨q, hq, hq0', hq1'⟩ := binary64_mono_nonneg hq0 hq1 hone
  obtain ⟨p, hp, hp0, hp1⟩ := @binary64_mono_nonneg (q * 100) 100 _
    (by positivity) (by linarith) hhund
  exact ⟨p, percentWith_eval binary64 b hmax a m q p ha hm (by linarith) hq hp, hp0, hp1⟩

/-- In float64 arithmetic, with a percentage in `[0, 100]` and
`0 ≤ f ≤ 90071992547409` columns, the number of fill glyphs lies between `0`
and `f`. -/
theorem filled_binary64_range (b : Bar) (env : Env) (f : Int) (p : ℚ)
    (hper : b.percentWith binary64 = F64.fin p) (hp0 : 0 ≤ p) (hp1 : p ≤ 100)
    (hf0 : 0 ≤ f) (hf1 : f ≤ 90071992547409) :
    0 ≤ b.filledWith binary64 env f ∧ b.filledWith binary64 env f ≤ f := by
  have hfq : (0 : ℚ) ≤ (f : ℚ) := by exact_mod_cast hf0
  have hf : binary64 (f : ℚ) = F64.fin (f : ℚ) := binary64_intCast_nonneg f hf0 (by omega)
  have hf100 : binary64 ((f : ℚ) * 100) = F64.fin ((f : ℚ) * 100) := by
    have := binary64_intCast_nonneg (f * 100) (by omega) (by omega)
    push_cast at this
    exact this
  obtain ⟨x, hx, hx0, hx1⟩ := @binary64_mono_nonneg ((f : ℚ) * p) _ _
    (mul_nonneg hfq hp0) (mul_le_mul_of_nonneg_left hp1 hfq) hf100
  have hy1 : x / 100 ≤ (f : ℚ) := by
    rw [div_le_iff₀ (by norm_num)]
    exact hx1
  obtain ⟨y, hy, hy0, hy1'⟩ := @binary64_mono_nonneg (x / 100) _ _
    (div_nonneg hx0 (by norm_num)) hy1 hf
  have hfl : ⌊y⌋ ≤ f := by
    have := Int.floor_mono hy1'
    rwa [Int.floor_intCast] at this
  rw [filledWith_eval binary64 b env f _ p x y hf hper hx hy,
    toInt64_of_nonneg _ _ hy0 (le_trans hfl (by unfold maxInt64; omega))]
  exact ⟨Int.floor_nonneg.mpr hy0, hfl⟩

-- concrete
/-- The percentage of 29 of 100 in float64 arithmetic: the quotient rounds to
`0.28999999999999998` and the product to `28.999999999999996`, below 29. -/
theorem percent_29_of_100 (b : Bar) (hc : b.currentValue = 29) (hm : b.maxValue = 100) :
    b.percentWith binary64 = F64.fin (8162774324609023 / 281474976710656) := by
  have h1 : binary64 ((b.currentValue : Int) : ℚ) = F64.fin 29 := by
    rw [hc]
    simpa using binary64_natCast 29 (by norm_num)
  have h2 : binary64 ((b.maxValue : Int) : ℚ) = F64.fin 100 := by
    rw [hm]
    simpa using binary64_natCast 100 (by norm_num)
  have h3 : binary64 ((29 : ℚ) / 100) = F64.fin (5224175567749775 / 18014398509481984) := by
    have h := binary64_eval (29 / 100) (-2) 5224175567749775 (by norm_num)
      (by norm_num) (by norm_num) (by norm_num) (by norm_num [abs_lt]) (by norm_num [abs_lt])
    rw [h]
    norm_num
  have h4 : binary64 ((5224175567749775 / 18014398509481984 : ℚ) * 100)
      = F64.fin (8162774324609023 / 281474976710656) := by
    have h := binary64_eval ((5224175567749775 / 18014398509481984 : ℚ) * 100) 4
      8162774324609023 (by norm_num)
      (by norm_num) (by norm_num) (by norm_num) (by norm_num [abs_lt]) (by norm_num [abs_lt])
    rw [h]
    norm_num
  exact percentWith_eval binary64 b (by omega) 29 100 _ _ h1 h2 (by norm_num) h3 h4

/-- The percentage of 50 of 200 in float64 arithmetic is 25: the quotient
`0.25` and the product are float64 values. -/
theorem percent_50_of_200 (b : Bar) (hc : b.currentValue = 50) (hm : b.maxValue = 200) :
    b.percentWith binary64 = F64.fin 25 := by
  have h1 : binary64 ((b.currentValue : Int) : ℚ) = F64.fin 50 := by
    rw [hc]
    simpa using binary64_natCast 50 (by norm_num)
  have h2 : binary64 ((b.maxValue : Int) : ℚ) = F64.fin 200 := by
    rw [hm]
    simpa using binary64_natCast 200 (by norm_num)
  have h3 : binary64 ((50 : ℚ) / 200) = F64.fin (1 / 4) := by
    have h := binary64_eval (50 / 200) (-2) 4503599627370496 (by norm_num)
      (by norm_num) (by norm_num) (by norm_num) (by norm_num [abs_lt]) (by norm_num [abs_lt])
    rw [h]
    norm_num
  have h4 : binary64 ((1 / 4 : ℚ) * 100) = F64.fin 25 := by
    have : ((1 / 4 : ℚ) * 100) = ((25 : Nat) : ℚ) := by norm_num
    rw [this]
    simpa using binary64_natCast 25 (by norm_num)
  exact percentWith_eval binary64 b (by omega) 50 200 _ _ h1 h2 (by norm_num) h3 h4

/-! ### Relative error -/

theorem binary64_of_abs_lt (q : ℚ) (h : |nearest64 q| < (2 : ℚ) ^ (1024 : Nat)) :
    binary64 q = F64.fin (nearest64 q) := by
  rw [abs_lt] at h
  unfold binary64
  rw [if_neg (by linarith), if_neg (by linarith)]

/-- In the normal range rounding moves a value by at most `2 ^ (-53)` of its
magnitude, and the result is finite. -/
theorem binary64_rel (q : ℚ) (hlo : (2 : ℚ) ^ (-1022 : Int) ≤ |q|)
    (hhi : |q| ≤ (2 : ℚ) ^ (1023 : Int)) :
    ∃ r : ℚ, binary64 q = F64.fin r ∧ |r - q| ≤ |q| * (1 / 9007199254740992) := by
  have hpos : 0 < |q| := lt_of_lt_of_le (two_zpow_pos _) hlo
  have hlog : -1022 ≤ Int.log 2 |q| := by
    apply (Int.zpow_le_iff_le_log (b := 2) (by norm_num) hpos).mp
    rw [Nat.cast_ofNat]
    exact hlo
  have hb : binade q = Int.log 2 |q| := max_eq_left hlog
  have hle : (2 : ℚ) ^ binade q ≤ |q| := by
    rw [hb]
    have h := Int.zpow_log_le_self (b := 2) (r := |q|) (by norm_num) hpos
    rwa [Nat.cast_ofNat] at h
  have hu := two_zpow_pos (binade q - 52)
  have hsplit : (2 : ℚ) ^ (binade q - 52) = (2 : ℚ) ^ binade q * (1 / 4503599627370496) := by
    have : binade q - 52 = binade q + (-52) := by ring
    rw [this, two_zpow_add]
    norm_num
  have herr : |nearest64 q - q| ≤ |q| * (1 / 9007199254740992) := by
    have hd : nearest64 q - q
        = ((roundHalfEven (q / (2 : ℚ) ^ (binade q - 52)) : ℚ)
            - q / (2 : ℚ) ^ (binade q - 52)) * (2 : ℚ) ^ (binade q - 52) := by
      unfold nearest64
      field_simp
    rw [hd, abs_mul, abs_of_pos hu]
    have h1 := rhe_abs_sub_le (q / (2 : ℚ) ^ (binade q - 52))
    calc |(roundHalfEven (q / (2 : ℚ) ^ (binade q - 52)) : ℚ)
            - q / (2 : ℚ) ^ (binade q - 52)| * (2 : ℚ) ^ (binade q - 52)
        ≤ 1 / 2 * (2 : ℚ) ^ (binade q - 52) := mul_le_mul_of_nonneg_right h1 hu.le
      _ = (2 : ℚ) ^ binade q * (1 / 9007199254740992) := by
        rw [hsplit]
        ring
      _ ≤ |q| * (1 / 9007199254740992) := mul_le_mul_of_nonneg_right hle (by norm_num)
  refine ⟨nearest64 q, binary64_of_abs_lt q ?_, herr⟩
  have h1 : |nearest64 q| ≤ |q| + |nearest64 q - q| := by
    have := abs_add (nearest64 q - q) q
    rw [sub_add_cancel] at this
    linarith
  have h2 : (2 : ℚ) ^ (1023 : Int) * 2 = (2 : ℚ) ^ (1024 : Nat) := by norm_num
  have h3 : (0 : ℚ) < (2 : ℚ) ^ (1023 : Int) := two_zpow_pos _
  nlinarith

theorem rel_trans (r q t e d : ℚ) (h1 : |r - q| ≤ |q| * e) (h2 : |q - t| ≤ |t| * d)
    (he : 0 ≤ e) : |r - t| ≤ |t| * (e + d + e * d) := by
  have h3 : |r - t| ≤ |r - q| + |q - t| := abs_sub_le r q t
  have h4 : |q| ≤ |t| + |q - t| := by
    have := abs_add (q - t) t
    rw [sub_add_cancel] at this
    linarith
  have h5 : |q| * e ≤ (|t| + |t| * d) * e := mul_le_mul_of_nonneg_right (by linarith) he
  nlinarith

theorem rel_mul_const (r q e c : ℚ) (h : |r - q| ≤ |q| * e) :
    |r * c - q * c| ≤ |q * c| * e := by
  rw [← sub_mul, abs_mul, abs_mul]
  have := mul_le_mul_of_nonneg_right h (abs_nonneg c)
  linarith

theorem rel_div_const (r q e c : ℚ) (h : |r - q| ≤ |q| * e) :
    |r / c - q / c| ≤ |q / c| * e := by
  rw [div_eq_mul_inv, div_eq_mul_inv]
  exact rel_mul_const r q e c⁻¹ h

theorem rel_mul (a c b d e1 e2 : ℚ) (h1 : |a - c| ≤ |c| * e1) (h2 : |b - d| ≤ |d| * e2)
    (he1 : 0 ≤ e1) : |a * b - c * d| ≤ |c * d| * (e1 + e2 + e1 * e2) := by
  have hd : a * b - c * d = (a - c) * b + c * (b - d) := by ring
  have hb : |b| ≤ |d| + |b - d| := by
    have := abs_add (b - d) d
    rw [sub_add_cancel] at this
    linarith
  rw [hd, abs_mul c d]
  have h3 : |(a - c) * b + c * (b - d)| ≤ |a - c| * |b| + |c| * |b - d| := by
    have := abs_add ((a - c) * b) (c * (b - d))
    rwa [abs_mul, abs_mul] at this
  have h4 : |a - c| * |b| ≤ (|c| * e1) * (|d| + |d| * e2) :=
    mul_le_mul h1 (by linarith) (abs_nonneg b) (mul_nonneg (abs_nonneg c) he1)
  have h5 : |c| * |b - d| ≤ |c| * (|d| * e2) := mul_le_mul_of_nonneg_left h2 (abs_nonneg c)
  nlinarith

theorem rel_div (a c m M e1 e2 : ℚ) (hM : 0 < M) (h1 : |a - c| ≤ |c| * e1)
    (h2 : |m - M| ≤ M * e2) (he1 : 0 ≤ e1) (he2 : 0 ≤ e2) (he2' : e2 < 1) :
    0 < m ∧ |a / m - c / M| ≤ |c / M| * ((e1 + e2) / (1 - e2)) := by
  rw [abs_le] at h2
  have hm : M * (1 - e2) ≤ m := by linarith
  have hmpos : 0 < m := lt_of_lt_of_le (mul_pos hM (by linarith)) hm
  refine ⟨hmpos, ?_⟩
  have hd : a / m - c / M = ((a - c) * M - c * (m - M)) / (m * M) := by
    field_simp
    ring
  have hnum : |(a - c) * M - c * (m - M)| ≤ |c| * M * (e1 + e2) := by
    have h3 : |(a - c) * M - c * (m - M)| ≤ |(a - c) * M| + |c * (m - M)| := abs_sub _ _
    rw [abs_mul, abs_mul, abs_of_pos hM] at h3
    have h4 : |m - M| ≤ M * e2 := abs_le.mpr h2
    have h5 : |a - c| * M ≤ |c| * e1 * M := mul_le_mul_of_nonneg_right h1 hM.le
    have h6 : |c| * |m - M| ≤ |c| * (M * e2) := mul_le_mul_of_nonneg_left h4 (abs_nonneg c)
    nlinarith
  rw [hd, abs_div, abs_of_pos (mul_pos hmpos hM), abs_div, abs_of_pos hM,
    div_le_iff₀ (mul_pos hmpos hM)]
  have h1e : 0 < 1 - e2 := by linarith
  have hkey : |c| * M * (e1 + e2) ≤ |c| / M * ((e1 + e2) / (1 - e2)) * (m * M) := by
    have hrw : |c| / M * ((e1 + e2) / (1 - e2)) * (m * M)
        = |c| * (e1 + e2) * (m / (1 - e2)) := by
      field_simp
      ring
    rw [hrw]
    have hm2 : M ≤ m / (1 - e2) := by
      rw [le_div_iff₀ h1e]
      exact hm
    have : |c| * (e1 + e2) * M ≤ |c| * (e1 + e2) * (m / (1 - e2)) :=
      mul_le_mul_of_nonneg_left hm2 (mul_nonneg (abs_nonneg c) (by linarith))
    linarith
  linarith


theorem abs_bounds_of_rel (x y e : ℚ) (h : |x - y| ≤ |y| * e) :
    |y| * (1 - e) ≤ |x| ∧ |x| ≤ |y| * (1 + e) := by
  have h1 : |x| ≤ |y| + |x - y| := by
    have := abs_add (x - y) y
    rw [sub_add_cancel] at this
    linarith
  have h2 : |y| ≤ |x| + |x - y| := by
    have := abs_add (y - x) x
    rw [sub_add_cancel, abs_sub_comm y x] at this
    linarith
  constructor <;> nlinarith

theorem binary64_zero : binary64 0 = F64.fin 0 := by
  simpa using binary64_natCast 0 (by norm_num)

/-- In float64 arithmetic the percentage of a state with `int64` values and
`maxValue > 0` is finite and within relative error `2 ^ (-50)` of
`currentValue / maxValue * 100`. -/
theorem percent_binary64_close (b : Bar) (hmax : 0 < b.maxValue)
    (hM : b.maxValue ≤ maxInt64) (hc0 : minInt64 ≤ b.currentValue)
    (hc1 : b.currentValue ≤ maxInt64) :
    ∃ p : ℚ, b.percentWith binary64 = F64.fin p ∧
      |p - (b.currentValue : ℚ) / (b.maxValue : ℚ) * 100|
        ≤ |(b.currentValue : ℚ) / (b.maxValue : ℚ) * 100| * (1 / 1125899906842624) := by
  unfold maxInt64 at hM hc1
  unfold minInt64 at hc0
  have hMq1 : (1 : ℚ) ≤ (b.maxValue : ℚ) := by exact_mod_cast hmax
  have hMq2 : (b.maxValue : ℚ) ≤ 9223372036854775808 := by
    have : b.maxValue ≤ 9223372036854775808 := by omega
    exact_mod_cast this
  have hMpos : (0 : ℚ) < (b.maxValue : ℚ) := by linarith
  have hz1022 : (2 : ℚ) ^ (-1022 : Int) ≤ 1 / 340282366920938463463374607431768211456 := by
    rw [zpow_neg, ← one_div]
    apply one_div_le_one_div_of_le (by norm_num)
    norm_num
  have hz1023 : (340282366920938463463374607431768211456 : ℚ) ≤ (2 : ℚ) ^ (1023 : Int) := by
    norm_num
  obtain ⟨m, hm, hmerr⟩ := binary64_rel (b.maxValue : ℚ)
    (by rw [abs_of_pos hMpos]; exact le_trans hz1022 (by linarith))
    (by rw [abs_of_pos hMpos]; exact le_trans (by linarith) hz1023)
  rw [abs_of_pos hMpos] at hmerr
  by_cases hc : b.currentValue = 0
  · have hm0 : 0 < m := by
      rw [abs_le] at hmerr
      nlinarith
    refine ⟨0, percentWith_eval binary64 b hmax 0 m 0 0 ?_ hm hm0.ne' ?_ ?_, ?_⟩
    · rw [hc]
      simpa using binary64_zero
    · simpa using binary64_zero
    · simpa using binary64_zero
    · rw [hc]
      simp
  · have hcabs1 : (1 : ℚ) ≤ |(b.currentValue : ℚ)| := by
      have : (1 : Int) ≤ |b.currentValue| := Int.one_le_abs hc
      exact_mod_cast this
    have hcabs2 : |(b.currentValue : ℚ)| ≤ 9223372036854775808 := by
      have : |b.currentValue| ≤ 9223372036854775808 := by
        rw [abs_le]
        omega
      exact_mod_cast this
    obtain ⟨a, ha, haerr⟩ := binary64_rel (b.currentValue : ℚ)
      (le_trans hz1022 (by linarith)) (le_trans (by linarith) hz1023)
    obtain ⟨hmpos, hdiv⟩ := rel_div a (b.currentValue : ℚ) m (b.maxValue : ℚ)
      (1 / 9007199254740992) (1 / 9007199254740992) hMpos haerr hmerr
      (by norm_num) (by norm_num) (by norm_num)
    -- the quotient of the exact values
    have hK1 : (1 : ℚ) / 9223372036854775808 ≤ |(b.currentValue : ℚ) / (b.maxValue : ℚ)| := by
      rw [abs_div, abs_of_pos hMpos, le_div_iff₀ hMpos]
      nlinarith
    have hK2 : |(b.currentValue : ℚ) / (b.maxValue : ℚ)| ≤ 9223372036854775808 := by
      rw [abs_div, abs_of_pos hMpos, div_le_iff₀ hMpos]
      nlinarith
    obtain ⟨hb1, hb2⟩ := abs_bounds_of_rel _ _ _ hdiv
    have hK0 : 0 ≤ |(b.currentValue : ℚ) / (b.maxValue : ℚ)| := abs_nonneg _
    obtain ⟨q, hq, hqerr⟩ := binary64_rel (a / m)
      (by
        have : (1 : ℚ) / 340282366920938463463374607431768211456 ≤ |a / m| := by
          nlinarith
        exact le_trans hz1022 this)
      (by
        have : |a / m| ≤ 340282366920938463463374607431768211456 := by
          nlinarith
        exact le_trans this hz1023)
    have hq2 := rel_trans q (a / m) ((b.currentValue : ℚ) / (b.maxValue : ℚ)) _ _ hqerr hdiv
      (by norm_num)
    have hq3 := rel_mul_const q ((b.currentValue : ℚ) / (b.maxValue : ℚ)) _ 100 hq2
    obtain ⟨hc1', hc2'⟩ := abs_bounds_of_rel _ _ _ hq3
    have hA : |(b.currentValue : ℚ) / (b.maxValue : ℚ) * 100|
        = |(b.currentValue : ℚ) / (b.maxValue : ℚ)| * 100 := by
      rw [abs_mul]
      norm_num
    rw [hA] at hc1' hc2'
    obtain ⟨p, hp, hperr⟩ := binary64_rel (q * 100)
      (by
        have : (1 : ℚ) / 340282366920938463463374607431768211456 ≤ |q * 100| := by
          nlinarith
        exact le_trans hz1022 this)
      (by
        have : |q * 100| ≤ 340282366920938463463374607431768211456 := by
          nlinarith
        exact le_trans this hz1023)
    have hp2 := rel_trans p (q * 100) ((b.currentValue : ℚ) / (b.maxValue : ℚ) * 100) _ _
      hperr hq3 (by norm_num)
    refine ⟨p, percentWith_eval binary64 b hmax a m q p ha hm hmpos.ne' hq hp, ?_⟩
    refine le_trans hp2 (mul_le_mul_of_nonneg_left ?_ (abs_nonneg _))
    norm_num


theorem le_of_rel_upper (v K e C : ℚ) (h : v ≤ K * (1 + e)) (hK0 : 0 ≤ K) (hK : K ≤ C)
    (he : e ≤ 1) : v ≤ 2 * C := by
  nlinarith

theorem le_of_rel_lower (v K e c : ℚ) (h : K * (1 - e) ≤ v) (hc : 0 ≤ c) (hK : c ≤ K)
    (he : e ≤ 1 / 2) : c / 2 ≤ v := by
  nlinarith

theorem floor_close (y T : ℚ) (h : |y - T| < 1) : |⌊y⌋ - ⌊T⌋| ≤ 1 := by
  rw [abs_lt] at h
  have h1 : ⌊y⌋ ≤ ⌊T + 1⌋ := Int.floor_le_floor (by linarith)
  have h2 : ⌊T⌋ ≤ ⌊y + 1⌋ := Int.floor_le_floor (by linarith)
  rw [Int.floor_add_one] at h1 h2
  rw [abs_le]
  constructor <;> omega

/-- In float64 arithmetic the number of fill glyphs is within one of
`⌊f * currentValue / maxValue⌋`. -/
theorem filled_binary64_close (b : Bar) (env : Env) (f : Int) (h0 : 0 ≤ b.currentValue)
    (h1 : b.currentValue ≤ b.maxValue) (hmax : 0 < b.maxValue) (hM : b.maxValue ≤ maxInt64)
    (hf0 : 0 ≤ f) (hf1 : f ≤ 90071992547409) :
    |b.filledWith binary64 env f - ⌊(f : ℚ) * (b.currentValue : ℚ) / (b.maxValue : ℚ)⌋| ≤ 1 := by
  obtain ⟨p, hper, hperr⟩ := percent_binary64_close b hmax hM
    (le_trans (by decide) h0) (le_trans h1 hM)
  have hfq0 : (0 : ℚ) ≤ (f : ℚ) := by exact_mod_cast hf0
  have hfq1 : (f : ℚ) ≤ 90071992547409 := by exact_mod_cast hf1
  have hcq0 : (0 : ℚ) ≤ (b.currentValue : ℚ) := by exact_mod_cast h0
  have hcq1 : (b.currentValue : ℚ) ≤ (b.maxValue : ℚ) := by exact_mod_cast h1
  have hMq1 : (1 : ℚ) ≤ (b.maxValue : ℚ) := by exact_mod_cast hmax
  have hMq2 : (b.maxValue : ℚ) ≤ 9223372036854775808 := by
    unfold maxInt64 at hM
    have : b.maxValue ≤ 9223372036854775808 := by omega
    exact_mod_cast this
  have hMpos : (0 : ℚ) < (b.maxValue : ℚ) := by linarith
  have hg : binary64 (f : ℚ) = F64.fin (f : ℚ) := binary64_intCast_nonneg f hf0 (by omega)
  by_cases hz : f = 0 ∨ b.currentValue = 0
  · have hprod : (f : ℚ) * p = 0 := by
      rcases hz with hz | hz
      · rw [hz]
        simp
      · rw [hz] at hperr
        simp only [Int.cast_zero, zero_div, zero_mul, sub_zero, abs_zero] at hperr
        have : p = 0 := abs_eq_zero.mp (le_antisymm hperr (abs_nonneg p))
        rw [this]
        simp
    have hfl := filledWith_eval binary64 b env f (f : ℚ) p 0 0 hg hper
      (by rw [hprod]; exact binary64_zero) (by rw [zero_div]; exact binary64_zero)
    rw [hfl, toInt64_of_nonneg _ 0 le_rfl (by rw [Int.floor_zero]; decide)]
    have hT : (f : ℚ) * (b.currentValue : ℚ) / (b.maxValue : ℚ) = 0 := by
      rcases hz with hz | hz <;> rw [hz] <;> simp
    rw [hT]
    simp
  · have hf1' : (1 : ℚ) ≤ (f : ℚ) := by
      have : 1 ≤ f := by omega
      exact_mod_cast this
    have hc1' : (1 : ℚ) ≤ (b.currentValue : ℚ) := by
      have : 1 ≤ b.currentValue := by omega
      exact_mod_cast this
    have hz1022 : (2 : ℚ) ^ (-1022 : Int) ≤ 1 / 340282366920938463463374607431768211456 := by
      rw [zpow_neg, ← one_div]
      apply one_div_le_one_div_of_le (by norm_num)
      norm_num
    have hz1023 : (340282366920938463463374607431768211456 : ℚ) ≤ (2 : ℚ) ^ (1023 : Int) := by
      norm_num
    -- the exact product
    have hA0 : 0 ≤ (b.currentValue : ℚ) / (b.maxValue : ℚ) * 100 * (f : ℚ) := by positivity
    have hT : (b.currentValue : ℚ) / (b.maxValue : ℚ) * 100 * (f : ℚ) / 100
        = (f : ℚ) * (b.currentValue : ℚ) / (b.maxValue : ℚ) := by
      field_simp
      ring
    have hq1 : (b.currentValue : ℚ) / (b.maxValue : ℚ) ≤ 1 := (div_le_one hMpos).mpr hcq1
    have hq0 : (1 : ℚ) / 9223372036854775808 ≤ (b.currentValue : ℚ) / (b.maxValue : ℚ) := by
      rw [le_div_iff₀ hMpos]
      nlinarith
    have hK1 : (1 : ℚ) / 9223372036854775808
        ≤ |(b.currentValue : ℚ) / (b.maxValue : ℚ) * 100 * (f : ℚ)| := by
      rw [abs_of_nonneg hA0]
      nlinarith
    have hK2 : |(b.currentValue : ℚ) / (b.maxValue : ℚ) * 100 * (f : ℚ)|
        ≤ 9223372036854775808 := by
      rw [abs_of_nonneg hA0]
      nlinarith
    have h3 := rel_mul_const p _ _ (f : ℚ) hperr
    obtain ⟨hb1, hb2⟩ := abs_bounds_of_rel _ _ _ h3
    rw [mul_comm p (f : ℚ)] at h3 hb1 hb2
    obtain ⟨x, hx, hxerr⟩ := binary64_rel ((f : ℚ) * p)
      (by
        have := le_of_rel_lower _ _ _ (1 / 9223372036854775808) hb1 (by norm_num) hK1
          (by norm_num)
        exact le_trans hz1022 (le_trans (by norm_num) this))
      (by
        have := le_of_rel_upper _ _ _ 9223372036854775808 hb2 (abs_nonneg _) hK2
          (by norm_num)
        exact le_trans this (le_trans (by norm_num) hz1023))
    have h4 := rel_trans x ((f : ℚ) * p) _ _ _ hxerr h3 (by norm_num)
    have h5 := rel_div_const x _ _ 100 h4
    obtain ⟨hd1, hd2⟩ := abs_bounds_of_rel _ _ _ h5
    have hA100 : |(b.currentValue : ℚ) / (b.maxValue : ℚ) * 100 * (f : ℚ) / 100|
        = |(b.currentValue : ℚ) / (b.maxValue : ℚ) * 100 * (f : ℚ)| / 100 := by
      rw [abs_div]
      norm_num
    rw [hA100] at hd1 hd2
    obtain ⟨y, hy, hyerr⟩ := binary64_rel (x / 100)
      (by
        have := le_of_rel_lower _ _ _ (1 / 9223372036854775808 / 100) hd1 (by norm_num)
          (div_le_div_of_nonneg_right hK1 (by norm_num)) (by norm_num)
        exact le_trans hz1022 (le_trans (by norm_num) this))
      (by
        have := le_of_rel_upper _ _ _ (9223372036854775808 / 100) hd2
          (div_nonneg (abs_nonneg _) (by norm_num))
          (div_le_div_of_nonneg_right hK2 (by norm_num)) (by norm_num)
        exact le_trans this (le_trans (by norm_num) hz1023))
    have h6 := rel_trans y (x / 100) _ _ _ hyerr h5 (by norm_num)
    rw [hT] at h6
    have hT0 : 0 ≤ (f : ℚ) * (b.currentValue : ℚ) / (b.maxValue : ℚ) := by positivity
    have hT1 : (f : ℚ) * (b.currentValue : ℚ) / (b.maxValue : ℚ) ≤ 90071992547409 := by
      rw [div_le_iff₀ hMpos]
      nlinarith
    rw [abs_of_nonneg hT0] at h6
    have hlt : |y - (f : ℚ) * (b.currentValue : ℚ) / (b.maxValue : ℚ)| < 1 := by
      refine lt_of_le_of_lt h6 ?_
      refine lt_of_le_of_lt (mul_le_mul_of_nonneg_right hT1 (by norm_num)) ?_
      norm_num
    have hy0 : 0 ≤ y := by
      have h7 := (abs_le.mp h6).1
      have : (f : ℚ) * (b.currentValue : ℚ) / (b.maxValue : ℚ) * (1 / 9007199254740992 +
          (1 / 9007199254740992 + 1 / 1125899906842624 +
            1 / 9007199254740992 * (1 / 1125899906842624)) +
          1 / 9007199254740992 * (1 / 9007199254740992 + 1 / 1125899906842624 +
            1 / 9007199254740992 * (1 / 1125899906842624)))
          ≤ (f : ℚ) * (b.currentValue : ℚ) / (b.maxValue : ℚ) * 1 :=
        mul_le_mul_of_nonneg_left (by norm_num) hT0
      linarith
    have hyfl : ⌊y⌋ ≤ maxInt64 := by
      have : y < 90071992547409 + 1 := by
        have := (abs_lt.mp hlt).2
        linarith
      have h8 : ⌊y⌋ < 90071992547409 + 1 := by
        rw [Int.floor_lt]
        exact_mod_cast this
      unfold maxInt64
      omega
    rw [filledWith_eval binary64 b env f (f : ℚ) p x y hg hper hx hy,
      toInt64_of_nonneg _ y hy0 hyfl]
    exact floor_close _ _ hlt


/-! ### Values at one third and one seventh -/

/-- One of three in float64 arithmetic: the percentage is
`33.33333333333333`, below `100 / 3`. -/
theorem percent_1_of_3 (b : Bar) (hc : b.currentValue = 1) (hm : b.maxValue = 3) :
    b.percentWith binary64 = F64.fin (2345624805922133 / 70368744177664) := by
  have h1 : binary64 ((b.currentValue : Int) : ℚ) = F64.fin 1 := by
    rw [hc]
    simpa using binary64_natCast 1 (by norm_num)
  have h2 : binary64 ((b.maxValue : Int) : ℚ) = F64.fin 3 := by
    rw [hm]
    simpa using binary64_natCast 3 (by norm_num)
  have h3 : binary64 ((1 : ℚ) / 3) = F64.fin (6004799503160661 / 18014398509481984) := by
    have h := binary64_eval (1 / 3) (-2) 6004799503160661 (by norm_num)
      (by norm_num) (by norm_num) (by norm_num) (by norm_num [abs_lt]) (by norm_num [abs_lt])
    rw [h]
    norm_num
  have h4 : binary64 ((6004799503160661 / 18014398509481984 : ℚ) * 100)
      = F64.fin (2345624805922133 / 70368744177664) := by
    have h := binary64_eval ((6004799503160661 / 18014398509481984 : ℚ) * 100) 5
      4691249611844266 (by norm_num)
      (by norm_num) (by norm_num) (by norm_num) (by norm_num [abs_lt]) (by norm_num [abs_lt])
    rw [h]
    norm_num
  exact percentWith_eval binary64 b (by omega) 1 3 _ _ h1 h2 (by norm_num) h3 h4

/-- One of three at 45 columns in float64 arithmetic: 14 fill glyphs. -/
theorem filled_1_of_3 (b : Bar) (env : Env) (hc : b.currentValue = 1) (hm : b.maxValue = 3) :
    b.filledWith binary64 env 45 = 14 := by
  have hg : binary64 (((45 : Int) : ℚ)) = F64.fin 45 := by
    simpa using binary64_natCast 45 (by norm_num)
  have hx : binary64 ((45 : ℚ) * (2345624805922133 / 70368744177664))
      = F64.fin (6597069766655999 / 4398046511104) := by
    have h := binary64_eval ((45 : ℚ) * (2345624805922133 / 70368744177664)) 10
      6597069766655999 (by norm_num)
      (by norm_num) (by norm_num) (by norm_num) (by norm_num [abs_lt]) (by norm_num [abs_lt])
    rw [h]
    norm_num
  have hy : binary64 ((6597069766655999 / 4398046511104 : ℚ) / 100)
      = F64.fin (8444249301319679 / 562949953421312) := by
    have h := binary64_eval ((6597069766655999 / 4398046511104 : ℚ) / 100) 3
      8444249301319679 (by norm_num)
      (by norm_num) (by norm_num) (by norm_num) (by norm_num [abs_lt]) (by norm_num [abs_lt])
    rw [h]
    norm_num
  have hfloor : ⌊(8444249301319679 / 562949953421312 : ℚ)⌋ = 14 := by
    rw [Int.floor_eq_iff]
    norm_num
  rw [filledWith_eval binary64 b env 45 45 _ _ _ hg (percent_1_of_3 b hc hm) hx hy,
    toInt64_of_nonneg _ _ (by norm_num) (by rw [hfloor]; decide), hfloor]

/-- One of seven in float64 arithmetic: the percentage is
`14.285714285714285`, below `100 / 7`. -/
theorem percent_1_of_7 (b : Bar) (hc : b.currentValue = 1) (hm : b.maxValue = 7) :
    b.percentWith binary64 = F64.fin (2010535547933257 / 140737488355328) := by
  have h1 : binary64 ((b.currentValue : Int) : ℚ) = F64.fin 1 := by
    rw [hc]
    simpa using binary64_natCast 1 (by norm_num)
  have h2 : binary64 ((b.maxValue : Int) : ℚ) = F64.fin 7 := by
    rw [hm]
    simpa using binary64_natCast 7 (by norm_num)
  have h3 : binary64 ((1 : ℚ) / 7) = F64.fin (2573485501354569 / 18014398509481984) := by
    have h := binary64_eval (1 / 7) (-3) 5146971002709138 (by norm_num)
      (by norm_num) (by norm_num) (by norm_num) (by norm_num [abs_lt]) (by norm_num [abs_lt])
    rw [h]
    norm_num
  have h4 : binary64 ((2573485501354569 / 18014398509481984 : ℚ) * 100)
      = F64.fin (2010535547933257 / 140737488355328) := by
    have h := binary64_eval ((2573485501354569 / 18014398509481984 : ℚ) * 100) 3
      8042142191733028 (by norm_num)
      (by norm_num) (by norm_num) (by norm_num) (by norm_num [abs_lt]) (by norm_num [abs_lt])
    rw [h]
    norm_num
  exact percentWith_eval binary64 b (by omega) 1 7 _ _ h1 h2 (by norm_num) h3 h4

/-- One of seven at 7 columns in float64 arithmetic: the product with the
percentage lies halfway between 100 and the float64 value below it, rounds to
100 (the even one), and there is one fill glyph. -/
theorem filled_1_of_7 (b : Bar) (env : Env) (hc : b.currentValue = 1) (hm : b.maxValue = 7) :
    b.filledWith binary64 env 7 = 1 := by
  have hg : binary64 (((7 : Int) : ℚ)) = F64.fin 7 := by
    simpa using binary64_natCast 7 (by norm_num)
  have hx : binary64 ((7 : ℚ) * (2010535547933257 / 140737488355328)) = F64.fin 100 := by
    have h := binary64_eval_round ((7 : ℚ) * (2010535547933257 / 140737488355328)) 6
      7036874417766400 (by norm_num)
      (by norm_num) (by norm_num) (by norm_num)
      (rhe_eq_of_tie _ 7036874417766400 (by norm_num) (by decide)) (by norm_num [abs_lt])
    rw [h]
    norm_num
  have hy : binary64 ((100 : ℚ) / 100) = F64.fin 1 := by
    rw [div_self (by norm_num)]
    simpa using binary64_natCast 1 (by norm_num)
  rw [filledWith_eval binary64 b env 7 7 _ _ _ hg (percent_1_of_7 b hc hm) hx hy,
    toInt64_of_nonneg _ _ (by norm_num) (by rw [Int.floor_one]; decide), Int.floor_one]

/-! ## Evaluation of the example states in float64 arithmetic -/

theorem binary64_one : binary64 1 = F64.fin 1 := by
  simpa using binary64_natCast 1 (by norm_num)

theorem SecondsWith_binary64_second :
    Duration.SecondsWith binary64 1000000000 = F64.fin 1 := by
  unfold Duration.SecondsWith
  have h1 : Int.tdiv 1000000000 Second = 1 := by decide
  have h2 : Int.tmod 1000000000 Second = 0 := by decide
  rw [h1, h2]
  simp [F64.ofInt, F64.rnd, F64.div, F64.add, binary64_zero, binary64_one]

/-- One unit in the one second since the start, with one sample: the rate is
1 in float64 arithmetic. -/
theorem rateWith_binary64_unit (b : Bar) (now : Int) (s : bucket)
    (hs : Time.IsZero b.stopped = true) (hb : b.buckets = [s])
    (hv : wrapInt64 (s.value - b.initialValue) = 1)
    (ht : Time.Sub s.updated b.started = 1000000000) :
    b.rateWith binary64 now = F64.fin ((1 : Int) : ℚ) := by
  unfold Bar.rateWith
  simp only [hs, hb, Bool.not_true]
  rw [hv, ht, SecondsWith_binary64_second]
  simp [F64.ofInt, F64.rnd, F64.div, binary64_one]

/-- At rate 1 the remaining time is the remaining amount, in seconds. -/
theorem remainingWith_binary64_unit (b : Bar) (env : Env) (k : Nat)
    (hk : wrapInt64 (b.maxValue - b.currentValue) = (k : Int)) (hk1 : k < 1000000000) :
    b.remainingWith binary64 env (F64.fin ((1 : Int) : ℚ)) = (k : Int) * 1000000000 := by
  unfold Bar.remainingWith
  have hg : F64.gtZero (F64.fin ((1 : Int) : ℚ)) = true := by
    simp [F64.gtZero]
  have hkq : binary64 ((k : Nat) : ℚ) = F64.fin ((k : Nat) : ℚ) :=
    binary64_natCast k (by omega)
  have hd : F64.rnd binary64 (F64.div (F64.rnd binary64 (F64.ofInt (k : Int)))
      (F64.fin ((1 : Int) : ℚ))) = F64.fin (((k : Int) : Int) : ℚ) := by
    simp [F64.ofInt, F64.rnd, F64.div, hkq]
  rw [hg, if_pos rfl, hk, hd, toInt64_intCast _ _ (by unfold minInt64; omega)
    (by unfold maxInt64; omega)]
  unfold Second
  exact wrapInt64_of_bounds _ (by omega) (by omega)

theorem floor_of_bounds (q : ℚ) (z : Int) (h0 : (z : ℚ) ≤ q) (h1 : q < (z : ℚ) + 1) :
    F64.Floor (F64.fin q) = F64.fin ((z : Int) : ℚ) := by
  have : ⌊q⌋ = z := by
    rw [Int.floor_eq_iff]
    exact ⟨h0, h1⟩
  simp [F64.Floor, this]

theorem oneThird_percent :
    oneThird.percentWith binary64 = F64.fin (2345624805922133 / 70368744177664) :=
  percent_1_of_3 _ (by decide) (by decide)

theorem oneThird_pre : oneThird.preWith binary64 = "xx  33% " := by
  unfold Bar.preWith
  rw [oneThird_percent, floor_of_bounds _ 33 (by norm_num) (by norm_num), formatF3_intCast]
  decide

theorem oneThird_suf :
    oneThird.sufWith binary64 sampleEnv 2000000000 = "(1 B/3 B, 1 B/s) [1s:2s]" := by
  unfold Bar.sufWith
  simp only []
  rw [rateWith_binary64_unit oneThird _ ⟨2000000000, 1⟩ (by decide) (by decide) (by decide)
      (by decide),
    remainingWith_binary64_unit oneThird sampleEnv 2 (by decide) (by norm_num),
    toInt64_intCast _ _ (by decide) (by decide)]
  decide

theorem oneThird_available :
    oneThird.availableWith binary64 sampleEnv 80 2000000000 = 45 := by
  unfold Bar.availableWith
  rw [oneThird_pre, oneThird_suf]
  decide

theorem oneThird_String :
    oneThird.StringWith binary64 sampleEnv 80 2000000000
      = "xx  33% ▕██████████████                               ▏(1 B/3 B, 1 B/s) [1s:2s]" := by
  unfold Bar.StringWith
  simp only []
  rw [oneThird_available]
  have hw : wrapInt64 45 = 45 := by decide
  rw [hw, midWith_eq, filled_1_of_3 oneThird sampleEnv (by decide) (by decide), oneThird_pre,
    oneThird_suf]
  decide

theorem oneSeventh_percent :
    oneSeventh.percentWith binary64 = F64.fin (2010535547933257 / 140737488355328) :=
  percent_1_of_7 _ (by decide) (by decide)

theorem oneSeventh_pre : oneSeventh.preWith binary64 = "xx  14% " := by
  unfold Bar.preWith
  rw [oneSeventh_percent, floor_of_bounds _ 14 (by norm_num) (by norm_num), formatF3_intCast]
  decide

theorem oneSeventh_suf :
    oneSeventh.sufWith binary64 sampleEnv 2000000000 = "(1 B/7 B, 1 B/s) [1s:6s]" := by
  unfold Bar.sufWith
  simp only []
  rw [rateWith_binary64_unit oneSeventh _ ⟨2000000000, 1⟩ (by decide) (by decide) (by decide)
      (by decide),
    remainingWith_binary64_unit oneSeventh sampleEnv 6 (by decide) (by norm_num),
    toInt64_intCast _ _ (by decide) (by decide)]
  decide

theorem oneSeventh_available :
    oneSeventh.availableWith binary64 sampleEnv 42 2000000000 = 7 := by
  unfold Bar.availableWith
  rw [oneSeventh_pre, oneSeventh_suf]
  decide

theorem oneSeventh_String :
    oneSeventh.StringWith binary64 sampleEnv 42 2000000000
      = "xx  14% ▕█      ▏(1 B/7 B, 1 B/s) [1s:6s]" := by
  unfold Bar.StringWith
  simp only []
  rw [oneSeventh_available]
  have hw : wrapInt64 7 = 7 := by decide
  rw [hw, midWith_eq, filled_1_of_7 oneSeventh sampleEnv (by decide) (by decide),
    oneSeventh_pre, oneSeventh_suf]
  decide

theorem twentyNine_percent :
    twentyNine.percentWith binary64 = F64.fin (8162774324609023 / 281474976710656) :=
  percent_29_of_100 _ (by decide) (by decide)

theorem twentyNine_pre : twentyNine.preWith binary64 = "x  28% " := by
  unfold Bar.preWith
  rw [twentyNine_percent, floor_of_bounds _ 28 (by norm_num) (by norm_num), formatF3_intCast]
  decide

/-! ## The rendered line in float64 arithmetic -/

/-- The length of the rendered line does not depend on the rounding: in
float64 arithmetic too, for `0 ≤ currentValue ≤ maxValue`, ASCII label and
suffix and `available ≥ 0`, the line has `termWidth - 1` glyphs. -/
theorem StringWith_binary64_length (b : Bar) (env : Env) (termWidth now : Int)
    (hmax : 0 < b.maxValue)
    (hcur : 0 ≤ b.currentValue ∧ b.currentValue ≤ b.maxValue)
    (hint : b.maxValue ≤ maxInt64)
    (hlabel : IsASCII b.message) (hsuf : IsASCII (b.sufWith binary64 env now))
    (hw : termWidth ≤ 90071992547409)
    (hf : 0 ≤ b.availableWith binary64 env termWidth now) :
    ((b.StringWith binary64 env termWidth now).length : Int) = termWidth - 1 := by
  have hav : b.availableWith binary64 env termWidth now
      = termWidth - len (b.preWith binary64) - len (b.sufWith binary64 env now) - 3 := rfl
  have hl1 := len_nonneg (b.preWith binary64)
  have hl2 := len_nonneg (b.sufWith binary64 env now)
  have hp := len_of_ascii _ (IsASCII_preWith binary64 b hlabel)
  have hs := len_of_ascii _ hsuf
  have hf1 : b.availableWith binary64 env termWidth now ≤ 90071992547409 := by omega
  have hwrap : wrapInt64 (b.availableWith binary64 env termWidth now)
      = b.availableWith binary64 env termWidth now :=
    wrapInt64_of_range _ (le_trans (by decide) hf) (le_trans hf1 (by decide))
  obtain ⟨p, hper, hp0, hp1⟩ := percent_binary64_inRange b hcur.1 hcur.2 hmax hint
  obtain ⟨hn0, hn1⟩ := filled_binary64_range b env _ p hper hp0 hp1 hf hf1
  have hb1 : ("▕" : String).length = 1 := rfl
  have hb2 : ("▏" : String).length = 1 := rfl
  unfold Bar.StringWith
  simp only [hwrap]
  rw [midWith_eq, wrapInt64_of_range _ (le_trans (by decide) (by omega : (0 : Int) ≤ _))
    (le_trans (by omega : _ ≤ (90071992547409 : Int)) (by decide))]
  simp only [String.length_append, length_Repeat_fill, length_Repeat_space, hb1, hb2]
  push_cast
  omega

/-! ## Claims about the value and the completion flag -/

/-- C1, as stated, fails: `Set` clamps from above only.  After
`NewBar("x", 100, 0)` the call `Set(-5)` leaves `currentValue = -5`, so
`0 ≤ currentValue ≤ maxValue` does not hold. -/
theorem C1_counterexample :
    ((NewBar "x" 100 0 1).Set (-5) ⟨2, 2, 2⟩).currentValue = -5 ∧
    ¬ (0 ≤ ((NewBar "x" 100 0 1).Set (-5) ⟨2, 2, 2⟩).currentValue ∧
        ((NewBar "x" 100 0 1).Set (-5) ⟨2, 2, 2⟩).currentValue
          ≤ ((NewBar "x" 100 0 1).Set (-5) ⟨2, 2, 2⟩).maxValue) := by
  decide

/-- C1, amended: for every tracker built by `NewBar` and every integer value,
after `Set(value)` the upper bound `currentValue ≤ maxValue` holds, and the
lower bound `0 ≤ currentValue` holds exactly when `0 ≤ value` and
`0 ≤ maxValue`. -/
theorem C1_Set_bounds (message : String) (maxValue initialValue start value : Int)
    (now : Readings) :
    ((NewBar message maxValue initialValue start).Set value now).currentValue
        ≤ ((NewBar message maxValue initialValue start).Set value now).maxValue ∧
    (0 ≤ ((NewBar message maxValue initialValue start).Set value now).currentValue
        ↔ 0 ≤ value ∧ 0 ≤ maxValue) := by
  rw [Set_currentValue, Set_maxValue]
  simp only [NewBar]
  omega

/-- C2: for every tracker and every integer value, after `Set(value)` the
field `currentValue` equals `min(value, maxValue)`; in particular it is at
most `maxValue` and at most `value`. -/
theorem C2_Set_clamps (b : Bar) (value : Int) (now : Readings) :
    (b.Set value now).currentValue = min value b.maxValue ∧
    (b.Set value now).currentValue ≤ (b.Set value now).maxValue ∧
    (b.Set value now).currentValue ≤ value := by
  rw [Set_currentValue, Set_maxValue]
  omega

/-- C3: take any sequence of `Set` calls whose clock never reads the zero
instant.  Started on a Running tracker (`stopped` unset, as `NewBar` builds
it), the sequence leaves `stopped` set if and only if one of its calls had
`value ≥ maxValue`; started on a Completed tracker, it leaves the tracker
Completed whatever the values are. -/
theorem C3_stopped_iff_reached (b : Bar) (calls : List SetCall)
    (hclock : ∀ c ∈ calls, Time.IsZero c.now.stop = false) :
    (Time.IsZero b.stopped = true →
      (Time.IsZero (b.SetAll calls).stopped = false ↔
        ∃ c ∈ calls, c.value ≥ b.maxValue)) ∧
    (Time.IsZero b.stopped = false →
      Time.IsZero (b.SetAll calls).stopped = false) := by
  simp only [isZero_eq_true, isZero_eq_false] at hclock ⊢
  exact ⟨fun hb => SetAll_stopped_iff b calls hclock hb,
    fun hb => SetAll_stopped_stays b calls hclock hb⟩

/-- C3 at a concrete input: `NewBar("x", 100, 0)` followed by `Set(40)`,
`Set(100)`, `Set(10)`. -/
theorem C3_stopped_iff_reached_witness :
    (Time.IsZero (NewBar "x" 100 0 1).stopped = true →
      (Time.IsZero ((NewBar "x" 100 0 1).SetAll
          [⟨40, ⟨2, 2, 2⟩⟩, ⟨100, ⟨3, 3, 3⟩⟩, ⟨10, ⟨4, 4, 4⟩⟩]).stopped = false ↔
        ∃ c ∈ [(⟨40, ⟨2, 2, 2⟩⟩ : SetCall), ⟨100, ⟨3, 3, 3⟩⟩, ⟨10, ⟨4, 4, 4⟩⟩],
          c.value ≥ (NewBar "x" 100 0 1).maxValue)) ∧
    (Time.IsZero (NewBar "x" 100 0 1).stopped = false →
      Time.IsZero ((NewBar "x" 100 0 1).SetAll
          [⟨40, ⟨2, 2, 2⟩⟩, ⟨100, ⟨3, 3, 3⟩⟩, ⟨10, ⟨4, 4, 4⟩⟩]).stopped = false) :=
  C3_stopped_iff_reached (NewBar "x" 100 0 1)
    [⟨40, ⟨2, 2, 2⟩⟩, ⟨100, ⟨3, 3, 3⟩⟩, ⟨10, ⟨4, 4, 4⟩⟩] (by decide)

/-- C4, as stated, fails: `Set` writes `stopped` whenever the clamped value
reaches `maxValue`, also when `stopped` is already set.  After
`NewBar("x", 100, 0)` and `Set(100)` at clock reading 5 s the tracker is
Completed with `stopped = 5 s`; a second `Set(100)` at 7 s leaves
`stopped = 7 s`. -/
theorem C4_counterexample :
    Time.IsZero ((NewBar "x" 100 0 1).Set 100
        ⟨5 * Second, 5 * Second, 5 * Second⟩).stopped = false ∧
    ((NewBar "x" 100 0 1).Set 100
        ⟨5 * Second, 5 * Second, 5 * Second⟩).stopped = 5 * Second ∧
    (((NewBar "x" 100 0 1).Set 100 ⟨5 * Second, 5 * Second, 5 * Second⟩).Set 100
        ⟨7 * Second, 7 * Second, 7 * Second⟩).stopped = 7 * Second ∧
    (((NewBar "x" 100 0 1).Set 100 ⟨5 * Second, 5 * Second, 5 * Second⟩).Set 100
        ⟨7 * Second, 7 * Second, 7 * Second⟩).stopped
      ≠ ((NewBar "x" 100 0 1).Set 100
        ⟨5 * Second, 5 * Second, 5 * Second⟩).stopped := by
  decide

/-- C4, amended: for every tracker (Completed or not), every clock reading
and every value below `maxValue`, `Set(value)` leaves `stopped` equal to what
it was before the call; a call with `value ≥ maxValue` overwrites `stopped`
with the clock reading of that call. -/
theorem C4_stopped_frame (b : Bar) (value : Int) (now : Readings) :
    (value < b.maxValue → (b.Set value now).stopped = b.stopped) ∧
    (value ≥ b.maxValue → (b.Set value now).stopped = now.stop) := by
  rw [Set_stopped]
  constructor
  · intro h
    rw [if_neg (by omega)]
  · intro h
    rw [if_pos h]

/-- C4 amended, at a concrete Completed tracker: `Set(30)` at 7 s keeps
`stopped = 5 s`. -/
theorem C4_stopped_frame_witness :
    (((NewBar "x" 100 0 1).Set 100 ⟨5 * Second, 5 * Second, 5 * Second⟩).Set 30
        ⟨7 * Second, 7 * Second, 7 * Second⟩).stopped = 5 * Second :=
  ((C4_stopped_frame ((NewBar "x" 100 0 1).Set 100 ⟨5 * Second, 5 * Second, 5 * Second⟩)
    30 ⟨7 * Second, 7 * Second, 7 * Second⟩).1 (by decide)).trans (by decide)

/-- C5: for every tracker and every sequence of `Set` calls whose values are
non-decreasing (`v1 ≤ v2 ≤ ... ≤ vk`), the `currentValue` observed after each
successive call is a non-decreasing sequence. -/
theorem C5_currentValue_monotone (b : Bar) (calls : List SetCall)
    (hvalues : List.Chain' (· ≤ ·) (calls.map SetCall.value)) :
    List.Sorted (· ≤ ·) (b.currentValues calls) := by
  rw [currentValues_eq_map]
  have hp : List.Pairwise (· ≤ ·) (calls.map SetCall.value) :=
    List.chain'_iff_pairwise.mp hvalues
  rw [List.pairwise_map] at hp
  rw [List.Sorted, List.pairwise_map]
  exact hp.imp (fun h => min_le_min_right _ h)

/-- C5 at a concrete input: the values 10, 10, 60, 250 on a tracker with
`maxValue = 100`. -/
theorem C5_currentValue_monotone_witness :
    List.Sorted (· ≤ ·) ((NewBar "x" 100 0 1).currentValues
      [⟨10, ⟨2, 2, 2⟩⟩, ⟨10, ⟨3, 3, 3⟩⟩, ⟨60, ⟨4, 4, 4⟩⟩, ⟨250, ⟨5, 5, 5⟩⟩]) :=
  C5_currentValue_monotone (NewBar "x" 100 0 1)
    [⟨10, ⟨2, 2, 2⟩⟩, ⟨10, ⟨3, 3, 3⟩⟩, ⟨60, ⟨4, 4, 4⟩⟩, ⟨250, ⟨5, 5, 5⟩⟩] (by simp)

/-! ## Claims about the sample window -/

/-- C6: for every tracker built by `NewBar` and every finite sequence of
`Set` calls at arbitrary clock readings, the sample window `buckets` holds at
most 10 entries. -/
theorem C6_window_bounded (message : String) (maxValue initialValue start : Int)
    (calls : List SetCall) :
    ((NewBar message maxValue initialValue start).SetAll calls).buckets.length ≤ 10 := by
  have h := SetAll_length_le (NewBar message maxValue initialValue start) calls
    (by simp [NewBar])
  simp only [NewBar] at h ⊢
  omega

/-- C7: for every tracker (with a positive window capacity, as `NewBar`
sets it), value and clock readings, `Set(value)` appends a sample if and only
if the window is empty or the `since` reading is strictly more than one second
after the timestamp of the newest sample.  When it appends, the window becomes
the old window (without its oldest entry when the capacity is exceeded)
followed by the new sample `(append reading, min(value, maxValue))`; when it
does not, the window is unchanged.  When the two readings are one reading
`now`, the window changes exactly when the condition holds. -/
theorem C7_sampling (b : Bar) (value : Int) (now : Readings) (hmax : 0 < b.maxBuckets) :
    ((b.buckets = [] ∨ ∃ l, b.buckets.getLast? = some l ∧ now.since - l.updated > Second) →
      ∃ kept, (b.Set value now).buckets
          = kept ++ [(⟨now.append, min value b.maxValue⟩ : bucket)] ∧
        (kept = b.buckets ∨ kept = b.buckets.drop 1)) ∧
    (¬ (b.buckets = [] ∨ ∃ l, b.buckets.getLast? = some l ∧ now.since - l.updated > Second) →
      (b.Set value now).buckets = b.buckets) ∧
    (now.append = now.since →
      ((b.Set value now).buckets ≠ b.buckets ↔
        (b.buckets = [] ∨
          ∃ l, b.buckets.getLast? = some l ∧ now.since - l.updated > Second))) := by
  have happ : (b.buckets = [] ∨
        ∃ l, b.buckets.getLast? = some l ∧ now.since - l.updated > Second) →
      ∃ kept, (b.Set value now).buckets
          = kept ++ [(⟨now.append, min value b.maxValue⟩ : bucket)] ∧
        (kept = b.buckets ∨ kept = b.buckets.drop 1) := by
    intro hc
    have ho := (throttleOpen_iff b.buckets now.since).mpr hc
    rw [Set_buckets, if_pos ho]
    split_ifs with hlen
    · refine ⟨b.buckets.drop 1, ?_, Or.inr rfl⟩
      apply List.drop_append_of_le_length
      omega
    · exact ⟨b.buckets, rfl, Or.inl rfl⟩
  have hkeep : ¬ (b.buckets = [] ∨
        ∃ l, b.buckets.getLast? = some l ∧ now.since - l.updated > Second) →
      (b.Set value now).buckets = b.buckets := by
    intro hc
    have ho : ¬ throttleOpen b.buckets now.since = true := fun h =>
      hc ((throttleOpen_iff b.buckets now.since).mp h)
    rw [Set_buckets, if_neg ho]
  refine ⟨happ, hkeep, fun hnow => ⟨fun hne => ?_, fun hc heq => ?_⟩⟩
  · by_contra hc
    exact hne (hkeep hc)
  · obtain ⟨kept, hk, _⟩ := happ hc
    rw [heq] at hk
    rcases hc with he | ⟨l, hl, hlt⟩
    · rw [he] at hk
      simp at hk
    · rw [hk, List.getLast?_concat] at hl
      have hl2 : (⟨now.append, min value b.maxValue⟩ : bucket) = l := Option.some.inj hl
      rw [← hl2, hnow] at hlt
      simp only at hlt
      unfold Second at hlt
      omega

/-- C7 at a concrete input: a tracker whose only sample is stamped 1 s
receives `Set(20)` at exactly 2 s; the gap is exactly one second, nothing is
appended and the window is unchanged. -/
theorem C7_sampling_witness :
    0 < ((NewBar "x" 100 0 Second).Set 10 ⟨Second, Second, Second⟩).maxBuckets ∧
    (((NewBar "x" 100 0 Second).Set 10 ⟨Second, Second, Second⟩).Set 20
        ⟨2 * Second, 2 * Second, 2 * Second⟩).buckets
      = ((NewBar "x" 100 0 Second).Set 10 ⟨Second, Second, Second⟩).buckets :=
  ⟨by decide,
    (C7_sampling ((NewBar "x" 100 0 Second).Set 10 ⟨Second, Second, Second⟩) 20
      ⟨2 * Second, 2 * Second, 2 * Second⟩ (by decide)).2.1 (by
        have hb : ((NewBar "x" 100 0 Second).Set 10 ⟨Second, Second, Second⟩).buckets
            = [⟨Second, 10⟩] := by decide
        rw [hb]
        rintro (h | ⟨l, hl, h⟩)
        · exact absurd h (by decide)
        · have hl2 : l = ⟨Second, 10⟩ := (Option.some.inj hl).symm
          rw [hl2] at h
          revert h
          decide)⟩

/-- C8: for every tracker built by `NewBar` and every sequence of `Set` calls
whose clock readings are non-decreasing, each timestamp in the sample window
exceeds its predecessor by more than one second, so the timestamps are
non-decreasing; and two calls of the sequence that both append a sample are
more than one second apart, so among the calls whose readings fall within a
window of at most one second at most one appends. -/
theorem C8_throttle (message : String) (maxValue initialValue start : Int)
    (calls : List SetCall) (hclock : List.Chain' (· ≤ ·) (clockReadings calls)) :
    List.Chain' (fun a c : bucket => Second < c.updated - a.updated)
      ((NewBar message maxValue initialValue start).SetAll calls).buckets ∧
    List.Sorted (· ≤ ·)
      (((NewBar message maxValue initialValue start).SetAll calls).buckets.map
        bucket.updated) ∧
    ∀ (pre mid post : List SetCall) (ci cj : SetCall),
      calls = pre ++ ci :: (mid ++ cj :: post) →
      throttleOpen ((NewBar message maxValue initialValue start).SetAll pre).buckets
        ci.now.since = true →
      throttleOpen ((NewBar message maxValue initialValue start).SetAll
        (pre ++ ci :: mid)).buckets cj.now.since = true →
      Second < cj.now.since - ci.now.append := by
  have hnow := clockReadings_since_le_append calls hclock
  have hchain := SetAll_spaced (NewBar message maxValue initialValue start) calls hnow
    (by simp [NewBar])
  refine ⟨hchain, ?_, ?_⟩
  · rw [List.Sorted, ← List.chain'_iff_pairwise, List.chain'_map]
    refine hchain.imp ?_
    intro a c hac
    unfold Second at hac
    omega
  · intro pre mid post ci cj hcalls hi hj
    refine SetAll_throttle _ pre mid ci cj (by simp [NewBar]) ?_ hi hj
    intro c hc
    apply hnow c
    rw [hcalls]
    simp [hc]

/-- C8 at a concrete input: `Set` calls at 1.0 s, 1.5 s, 2.0 s and 2.5 s;
the window ends with the samples stamped 1.0 s and 2.5 s. -/
theorem C8_throttle_witness :
    List.Chain' (fun a c : bucket => Second < c.updated - a.updated)
      ((NewBar "x" 100 0 0).SetAll
        [⟨10, ⟨1000000000, 1000000000, 1000000000⟩⟩,
          ⟨20, ⟨1500000000, 1500000000, 1500000000⟩⟩,
          ⟨30, ⟨2000000000, 2000000000, 2000000000⟩⟩,
          ⟨40, ⟨2500000000, 2500000000, 2500000000⟩⟩]).buckets :=
  (C8_throttle "x" 100 0 0
    [⟨10, ⟨1000000000, 1000000000, 1000000000⟩⟩,
      ⟨20, ⟨1500000000, 1500000000, 1500000000⟩⟩,
      ⟨30, ⟨2000000000, 2000000000, 2000000000⟩⟩,
      ⟨40, ⟨2500000000, 2500000000, 2500000000⟩⟩]
    (by simp [clockReadings])).1

/-! ## Claims about the percentage -/

/-- C9, as stated, fails: reachable states can have a percentage outside
`[0, 100]`.  After `NewBar("x", 100, 0)` and `Set(-50)` the percentage is
`-50`; and `NewBar("x", 100, 200)`, before any `Set`, has percentage `200`. -/
theorem C9_counterexample :
    ((NewBar "x" 100 0 1).SetAll [⟨-50, ⟨2, 2, 2⟩⟩]).percent = F64.fin (-50) ∧
    ¬ F64.InRange 0 100 ((NewBar "x" 100 0 1).SetAll [⟨-50, ⟨2, 2, 2⟩⟩]).percent ∧
    ((NewBar "x" 100 200 1).SetAll []).percent = F64.fin 200 ∧
    ¬ F64.InRange 0 100 ((NewBar "x" 100 200 1).SetAll []).percent := by
  have h1 : ((NewBar "x" 100 0 1).SetAll [⟨-50, ⟨2, 2, 2⟩⟩]).percent = F64.fin (-50) := by
    rw [percent_of_pos _ (by decide)]
    have hc : ((NewBar "x" 100 0 1).SetAll [⟨-50, ⟨2, 2, 2⟩⟩]).currentValue = -50 := by
      decide
    have hm : ((NewBar "x" 100 0 1).SetAll [⟨-50, ⟨2, 2, 2⟩⟩]).maxValue = 100 := by
      decide
    rw [hc, hm]
    norm_num
  have h2 : ((NewBar "x" 100 200 1).SetAll []).percent = F64.fin 200 := by
    rw [percent_of_pos _ (by decide)]
    have hc : ((NewBar "x" 100 200 1).SetAll []).currentValue = 200 := by decide
    have hm : ((NewBar "x" 100 200 1).SetAll []).maxValue = 100 := by decide
    rw [hc, hm]
    norm_num
  refine ⟨h1, ?_, h2, ?_⟩
  · rw [h1]
    show ¬ ((0 : ℚ) ≤ -50 ∧ (-50 : ℚ) ≤ 100)
    norm_num
  · rw [h2]
    show ¬ ((0 : ℚ) ≤ 200 ∧ (200 : ℚ) ≤ 100)
    norm_num

/-- C9, amended: for every tracker built by `NewBar` with
`0 ≤ initialValue ≤ maxValue` and every sequence of `Set` calls with
non-negative values, the percentage of the state reached is a finite number in
the closed interval `[0, 100]`. -/
theorem C9_percent_range (message : String) (maxValue initialValue start : Int)
    (calls : List SetCall)
    (hinit : 0 ≤ initialValue ∧ initialValue ≤ maxValue)
    (hvalues : ∀ c ∈ calls, 0 ≤ c.value) :
    F64.InRange 0 100 ((NewBar message maxValue initialValue start).SetAll calls).percent := by
  have h := SetAll_currentValue_bounds (NewBar message maxValue initialValue start) calls
    hvalues hinit.1 hinit.2
  exact percent_inRange _ h.1 h.2

/-- C9 amended, at a concrete input: `NewBar("x", 100, 0)` followed by
`Set(40)` and `Set(250)`. -/
theorem C9_percent_range_witness :
    F64.InRange 0 100
      ((NewBar "x" 100 0 1).SetAll [⟨40, ⟨2, 2, 2⟩⟩, ⟨250, ⟨3, 3, 3⟩⟩]).percent :=
  C9_percent_range "x" 100 0 1 [⟨40, ⟨2, 2, 2⟩⟩, ⟨250, ⟨3, 3, 3⟩⟩]
    (by decide) (by decide)

/-- C10, as stated, fails: the percentage is a float64 and is not always
`currentValue / maxValue * 100`.  For `NewBar("x", 100, 0)` and `Set(29)` the
quotient `29 / 100` rounds to a float64 below `0.29`, and its product with 100
to `28.999999999999996 = 8162774324609023 / 2 ^ 48`, not to 29: the floor is
28 and the rendered prefix shows `28%`. -/
theorem C10_counterexample :
    twentyNine = (NewBar "x" 100 0 1000000000).SetAll
      [⟨29, ⟨2000000000, 2000000000, 2000000000⟩⟩] ∧
    twentyNine.currentValue = 29 ∧ twentyNine.maxValue = 100 ∧
    twentyNine.percentWith binary64 = F64.fin (8162774324609023 / 281474976710656) ∧
    twentyNine.percentWith binary64
      ≠ F64.fin ((twentyNine.currentValue : ℚ) / (twentyNine.maxValue : ℚ) * 100) ∧
    F64.Floor (twentyNine.percentWith binary64) = F64.fin 28 ∧
    twentyNine.preWith binary64 = "x  28% " := by
  refine ⟨rfl, by decide, by decide, twentyNine_percent, ?_, ?_, twentyNine_pre⟩
  · rw [twentyNine_percent]
    have hc : twentyNine.currentValue = 29 := by decide
    have hm : twentyNine.maxValue = 100 := by decide
    rw [hc, hm]
    intro h
    have h2 := F64.fin.inj h
    norm_num at h2
  · rw [twentyNine_percent, floor_of_bounds _ 28 (by norm_num) (by norm_num)]
    norm_num

/-- C10, amended: for every tracker state with `maxValue > 0` the percentage
is the float64 value of `float64(currentValue) / float64(maxValue) * 100`, the
two conversions, the quotient and the product each rounded to the nearest
float64; for `int64` values it is a finite number whose distance from
`currentValue / maxValue * 100` is at most `2 ^ (-50)` of that number.  When
`maxValue ≤ 0` the percentage is exactly `0` whatever `currentValue` is, no
division being made. -/
theorem C10_percent_float64 (b : Bar) :
    (0 < b.maxValue →
      b.percentWith binary64
        = F64.rnd binary64 (F64.mul
            (F64.rnd binary64
              (F64.div (binary64 (b.currentValue : ℚ)) (binary64 (b.maxValue : ℚ))))
            (F64.fin 100))) ∧
    (0 < b.maxValue → b.maxValue ≤ maxInt64 →
      minInt64 ≤ b.currentValue → b.currentValue ≤ maxInt64 →
      ∃ p : ℚ, b.percentWith binary64 = F64.fin p ∧
        |p - (b.currentValue : ℚ) / (b.maxValue : ℚ) * 100|
          ≤ |(b.currentValue : ℚ) / (b.maxValue : ℚ) * 100| / 2 ^ 50) ∧
    (b.maxValue ≤ 0 → b.percentWith binary64 = F64.fin 0) := by
  refine ⟨fun h => ?_, fun h hM hc0 hc1 => ?_, fun h => ?_⟩
  · unfold Bar.percentWith
    rw [if_pos h]
    rfl
  · obtain ⟨p, hp, herr⟩ := percent_binary64_close b h hM hc0 hc1
    refine ⟨p, hp, le_of_le_of_eq herr ?_⟩
    norm_num
    ring
  · unfold Bar.percentWith
    rw [if_neg (by omega)]

/-- C10 at concrete inputs, in float64 arithmetic: 29 of 100 gives a finite
percentage within `29 / 2 ^ 50` of 29; with `maxValue = 0` and
`currentValue = 7` the percentage is 0. -/
theorem C10_percent_float64_witness :
    (∃ p : ℚ, twentyNine.percentWith binary64 = F64.fin p ∧ |p - 29| ≤ 29 / 2 ^ 50) ∧
    (NewBar "x" 0 7 1).percentWith binary64 = F64.fin 0 := by
  refine ⟨?_, (C10_percent_float64 (NewBar "x" 0 7 1)).2.2 (by decide)⟩
  obtain ⟨p, hp, herr⟩ := (C10_percent_float64 twentyNine).2.1 (by decide) (by decide)
    (by decide) (by decide)
  have hc : twentyNine.currentValue = 29 := by decide
  have hm : twentyNine.maxValue = 100 := by decide
  rw [hc, hm] at herr
  refine ⟨p, hp, ?_⟩
  norm_num at herr ⊢
  exact herr

/-! ## Claims about the rate and the window -/

/-- What `rate()` returns when its time delta is zero.  It returns `0` for a
Running tracker with no sample.  In every state whose relevant time delta is
zero (stopped with elapsed rounding to 0 seconds, one sample stamped
`started`, or first and last sample stamped alike) it performs the floating
point division by zero: the result is `NaN` when the numerator is zero and the
infinity of the numerator's sign otherwise; it is never a finite number. -/
theorem rate_zero_delta (b : Bar) (now : Int) :
    (Time.IsZero b.stopped = true → b.buckets = [] → b.rate now = F64.fin 0) ∧
    (Time.IsZero b.stopped = false → b.elapsed now = 0 →
      b.rate now =
        if b.currentValue = b.initialValue then F64.nan
        else if b.initialValue < b.currentValue then F64.posInf else F64.negInf) ∧
    (∀ s : bucket, Time.IsZero b.stopped = true → b.buckets = [s] →
      s.updated = b.started →
      b.rate now =
        if wrapInt64 (s.value - b.initialValue) = 0 then F64.nan
        else if 0 < wrapInt64 (s.value - b.initialValue) then F64.posInf
        else F64.negInf) ∧
    (∀ (first last : bucket) (mid : List bucket), Time.IsZero b.stopped = true →
      b.buckets = first :: (mid ++ [last]) → last.updated = first.updated →
      b.rate now =
        if last.value = first.value then F64.nan
        else if first.value < last.value then F64.posInf else F64.negInf) := by
  refine ⟨fun hs hb => rate_no_sample b now hs hb, ?_, ?_, ?_⟩
  · intro hs he
    rw [rate_stopped b now hs, he]
    simp only [Int.cast_zero, zero_div, div_fin_zero, sub_eq_zero, Int.cast_inj, sub_pos,
      Int.cast_lt]
  · intro s hs hb ht
    rw [rate_one_sample b now s hs hb, ht, Time_Sub_self]
    simp only [Int.cast_zero, zero_div, div_fin_zero, Int.cast_eq_zero, Int.cast_pos]
  · intro first last mid hs hb ht
    rw [rate_window b now first last mid hs hb, ht, Time_Sub_self]
    simp only [Int.cast_zero, zero_div, div_fin_zero, sub_eq_zero, Int.cast_inj, sub_pos,
      Int.cast_lt]

/-- C11 at its failing inputs.  For `NewBar("x", 100, 0)` followed by `Set(0)`
with no time elapsed (every clock reading equal to the start reading) the
window holds one sample stamped `started` and `rate()` is `0 / 0 = NaN`, not
`0`.  For `NewBar("x", 100, 0)` at 1 s and `Set(100)` at 1.2 s the elapsed
time rounds to 0 s and `rate()` is `100 / 0 = +Inf`, not `0`. -/
theorem C11_rate_at_failing_input :
    ((NewBar "x" 100 0 Second).Set 0 ⟨Second, Second, Second⟩).rate Second = F64.nan ∧
    ((NewBar "x" 100 0 Second).Set 0 ⟨Second, Second, Second⟩).rate Second ≠ F64.fin 0 ∧
    ((NewBar "x" 100 0 1000000000).Set 100
      ⟨1200000000, 1200000000, 1200000000⟩).rate 1300000000 = F64.posInf := by
  have h : ((NewBar "x" 100 0 Second).Set 0 ⟨Second, Second, Second⟩).rate Second
      = F64.nan :=
    ((rate_zero_delta ((NewBar "x" 100 0 Second).Set 0 ⟨Second, Second, Second⟩)
      Second).2.2.1 ⟨Second, 0⟩ (by decide) (by decide) (by decide)).trans (by decide)
  refine ⟨h, ?_, ?_⟩
  · rw [h]
    exact fun hh => F64.noConfusion hh
  · exact ((rate_zero_delta ((NewBar "x" 100 0 1000000000).Set 100
      ⟨1200000000, 1200000000, 1200000000⟩) 1300000000).2.1
      (by decide) (by decide)).trans (by decide)

/-- C12: in exact arithmetic (no `int64` or `Duration` overflow) and with a
non-zero time delta, `rate()` is `(currentValue - initialValue)` over the
elapsed seconds when stopped, the elapsed time being `stopped - started`
rounded to a whole number of seconds; otherwise it is `0` with no sample,
`(sample.value - initialValue) / (sample.updated - started)` with one sample
and `(last.value - first.value) / (last.updated - first.updated)` with two or
more, time differences taken in seconds. -/
theorem C12_rate_value (b : Bar) (now : Int) :
    (Time.IsZero b.stopped = false → b.elapsed now ≠ 0 →
      b.rate now = F64.fin (((b.currentValue : ℚ) - (b.initialValue : ℚ))
        / ((b.elapsed now : ℚ) / 1000000000))) ∧
    (Time.IsZero b.stopped = false →
      minDuration + Second ≤ b.stopped - b.started →
      b.stopped - b.started ≤ maxDuration - Second →
      (∃ k : Int, b.elapsed now = k * Second) ∧
        2 * (b.elapsed now - (b.stopped - b.started)) ≤ Second ∧
        -Second ≤ 2 * (b.elapsed now - (b.stopped - b.started))) ∧
    (Time.IsZero b.stopped = true → b.buckets = [] → b.rate now = F64.fin 0) ∧
    (∀ s : bucket, Time.IsZero b.stopped = true → b.buckets = [s] →
      s.updated ≠ b.started →
      minInt64 ≤ s.value - b.initialValue → s.value - b.initialValue ≤ maxInt64 →
      minDuration ≤ s.updated - b.started → s.updated - b.started ≤ maxDuration →
      b.rate now = F64.fin (((s.value : ℚ) - (b.initialValue : ℚ))
        / (((s.updated : ℚ) - (b.started : ℚ)) / 1000000000))) ∧
    (∀ (first last : bucket) (mid : List bucket), Time.IsZero b.stopped = true →
      b.buckets = first :: (mid ++ [last]) → last.updated ≠ first.updated →
      minDuration ≤ last.updated - first.updated →
      last.updated - first.updated ≤ maxDuration →
      b.rate now = F64.fin (((last.value : ℚ) - (first.value : ℚ))
        / (((last.updated : ℚ) - (first.updated : ℚ)) / 1000000000))) := by
  refine ⟨?_, ?_, fun hs hb => rate_no_sample b now hs hb, ?_, ?_⟩
  · intro hs he
    rw [rate_stopped b now hs, div_fin_of_ne]
    have : (b.elapsed now : ℚ) ≠ 0 := by exact_mod_cast he
    exact div_ne_zero this (by norm_num)
  · intro hs h0 h1
    have he : b.elapsed now = Duration.Round (b.stopped - b.started) Second := by
      unfold Bar.elapsed
      simp only [hs, Bool.not_false, if_true]
      rw [Time_Sub_of_range _ _ (by unfold Second at h0; omega) (by unfold Second at h1; omega)]
    rw [he]
    exact Round_Second_spec _ h0 h1
  · intro s hs hb ht hv0 hv1 ht0 ht1
    rw [rate_one_sample b now s hs hb, wrapInt64_of_range _ hv0 hv1,
      Time_Sub_of_range _ _ ht0 ht1, div_fin_of_ne]
    · push_cast
      rfl
    · have : ((s.updated - b.started : Int) : ℚ) ≠ 0 := by
        exact_mod_cast sub_ne_zero.mpr ht
      exact div_ne_zero this (by norm_num)
  · intro first last mid hs hb ht ht0 ht1
    rw [rate_window b now first last mid hs hb, Time_Sub_of_range _ _ ht0 ht1, div_fin_of_ne]
    · push_cast
      rfl
    · have : ((last.updated - first.updated : Int) : ℚ) ≠ 0 := by
        exact_mod_cast sub_ne_zero.mpr ht
      exact div_ne_zero this (by norm_num)

/-- C12 at a concrete input: `NewBar("x", 100, 0)` at 1 s and `Set(50)` at
3 s; the window holds one sample and the rate is 25 per second. -/
theorem C12_rate_value_witness :
    ((NewBar "x" 100 0 1000000000).Set 50
      ⟨3000000000, 3000000000, 3000000000⟩).rate 3000000000 = F64.fin 25 :=
  ((C12_rate_value ((NewBar "x" 100 0 1000000000).Set 50
      ⟨3000000000, 3000000000, 3000000000⟩) 3000000000).2.2.2.1 ⟨3000000000, 50⟩
    (by decide) (by decide) (by decide) (by decide) (by decide) (by decide)
    (by decide)).trans (by
      have hi : ((NewBar "x" 100 0 1000000000).Set 50
          ⟨3000000000, 3000000000, 3000000000⟩).initialValue = 0 := by decide
      have hs : ((NewBar "x" 100 0 1000000000).Set 50
          ⟨3000000000, 3000000000, 3000000000⟩).started = 1000000000 := by decide
      rw [hi, hs]
      norm_num)

/-- C18: for every tracker of capacity 10 whose sample window holds 10
entries, a `Set` call that takes the appending branch yields the old window
without its first entry, followed by the new sample: the oldest entry alone is
evicted, the order of the others is kept and the length stays 10. -/
theorem C18_evict_oldest (b : Bar) (value : Int) (now : Readings)
    (hcap : b.maxBuckets = 10) (hlen : b.buckets.length = 10)
    (hopen : throttleOpen b.buckets now.since = true) :
    (b.Set value now).buckets
        = b.buckets.tail ++ [(⟨now.append, min value b.maxValue⟩ : bucket)] ∧
    (b.Set value now).buckets.length = 10 := by
  have hb : (b.Set value now).buckets
      = b.buckets.tail ++ [(⟨now.append, min value b.maxValue⟩ : bucket)] := by
    rw [Set_buckets, if_pos hopen, if_pos (by rw [hcap, hlen]; decide), List.drop_one]
    cases hbs : b.buckets with
    | nil =>
      rw [hbs] at hlen
      simp at hlen
    | cons x xs => rfl
  refine ⟨hb, ?_⟩
  rw [hb, List.length_append, List.length_tail, hlen]
  rfl

set_option maxRecDepth 20000 in
/-- C18 at a concrete input: ten samples stamped 2 s, 4 s, ..., 20 s, then
`Set(55)` at 22 s. -/
theorem C18_evict_oldest_witness :
    (((NewBar "x" 100 0 0).SetAll
        [⟨5, ⟨2000000000, 2000000000, 2000000000⟩⟩,
          ⟨10, ⟨4000000000, 4000000000, 4000000000⟩⟩,
          ⟨15, ⟨6000000000, 6000000000, 6000000000⟩⟩,
          ⟨20, ⟨8000000000, 8000000000, 8000000000⟩⟩,
          ⟨25, ⟨10000000000, 10000000000, 10000000000⟩⟩,
          ⟨30, ⟨12000000000, 12000000000, 12000000000⟩⟩,
          ⟨35, ⟨14000000000, 14000000000, 14000000000⟩⟩,
          ⟨40, ⟨16000000000, 16000000000, 16000000000⟩⟩,
          ⟨45, ⟨18000000000, 18000000000, 18000000000⟩⟩,
          ⟨50, ⟨20000000000, 20000000000, 20000000000⟩⟩]).Set 55
        ⟨22000000000, 22000000000, 22000000000⟩).buckets.length = 10 :=
  (C18_evict_oldest _ 55 ⟨22000000000, 22000000000, 22000000000⟩
    (by decide) (by decide) (by decide)).2

/-- C20: for every tracker state reached from `NewBar` by `Set` calls at
non-decreasing clock readings whose window holds `k ≥ 2` samples, the newest
sample is more than `k - 1` seconds after the oldest; so, when the tracker is
Running, the sliding-window branch of `rate()` divides by a positive number of
seconds and returns a finite value. -/
theorem C20_window_span (message : String) (maxValue initialValue start : Int)
    (calls : List SetCall) (hclock : List.Chain' (· ≤ ·) (clockReadings calls))
    (first last : bucket) (mid : List bucket)
    (hwin : ((NewBar message maxValue initialValue start).SetAll calls).buckets
      = first :: (mid ++ [last])) (now : Int) :
    ((((NewBar message maxValue initialValue start).SetAll calls).buckets.length : Int) - 1)
        * Second < last.updated - first.updated ∧
    0 < Time.Sub last.updated first.updated ∧
    (Time.IsZero ((NewBar message maxValue initialValue start).SetAll calls).stopped = true →
      ∃ q : ℚ, ((NewBar message maxValue initialValue start).SetAll calls).rate now
        = F64.fin q) := by
  have hnow := clockReadings_since_le_append calls hclock
  have hchain := SetAll_spaced (NewBar message maxValue initialValue start) calls hnow
    (by simp [NewBar])
  rw [hwin] at hchain
  have hl : (first :: (mid ++ [last])).getLast? = some last := by
    show ((first :: mid) ++ [last]).getLast? = some last
    exact List.getLast?_concat _
  have hspan := spaced_span (mid ++ [last]) first last hchain hl
  have hlen : (((first :: (mid ++ [last])).length : Int) - 1) = (mid.length : Int) + 1 := by
    simp
  have hml : (((mid ++ [last]).length : Nat) : Int) = (mid.length : Int) + 1 := by simp
  rw [hml] at hspan
  have hpos : (0 : Int) ≤ (mid.length : Int) := Int.ofNat_nonneg _
  have hgap : ((mid.length : Int) + 1) * Second < last.updated - first.updated := by
    have hx : ((mid.length : Int) + 1) * (Second + 1)
        = ((mid.length : Int) + 1) * Second + ((mid.length : Int) + 1) := by ring
    rw [hx] at hspan
    omega
  have hdiff : 0 < last.updated - first.updated := by
    have : (0 : Int) ≤ ((mid.length : Int) + 1) * Second :=
      mul_nonneg (by omega) (by decide)
    omega
  have hsub := Time_Sub_pos _ _ hdiff
  refine ⟨?_, hsub, ?_⟩
  · rw [hwin, hlen]
    exact hgap
  · intro hs
    rw [rate_window _ now first last mid hs hwin, div_fin_of_ne]
    · exact ⟨_, rfl⟩
    · have : ((Time.Sub last.updated first.updated : Int) : ℚ) ≠ 0 := by
        exact_mod_cast ne_of_gt hsub
      exact div_ne_zero this (by norm_num)

/-- C20 at a concrete input: samples at 1 s and 2.5 s. -/
theorem C20_window_span_witness :
    ((((NewBar "x" 100 0 0).SetAll
        [⟨10, ⟨1000000000, 1000000000, 1000000000⟩⟩,
          ⟨20, ⟨2500000000, 2500000000, 2500000000⟩⟩]).buckets.length : Int) - 1)
      * Second < (⟨2500000000, 20⟩ : bucket).updated - (⟨1000000000, 10⟩ : bucket).updated :=
  (C20_window_span "x" 100 0 0
    [⟨10, ⟨1000000000, 1000000000, 1000000000⟩⟩,
      ⟨20, ⟨2500000000, 2500000000, 2500000000⟩⟩]
    (by simp [clockReadings]) ⟨1000000000, 10⟩ ⟨2500000000, 20⟩ [] (by decide) 0).1

/-! ## The label field, the empty bar and the claims about the rendered line -/

theorem String_empty_append (s : String) : "" ++ s = s := by
  show String.mk ([] ++ s.data) = s
  rfl

theorem sliceTo_data_of_ascii (s : String) (n : Int) (h : IsASCII s) :
    (sliceTo s n).data = s.data.take n.toNat :=
  takeBytes_of_ascii _ _ h

theorem len_pos_of_ascii (s : String) (h : IsASCII s) (hne : s ≠ "") : 0 < len s := by
  rw [len_of_ascii s h]
  have : s.data ≠ [] := by
    intro hd
    apply hne
    exact String.ext hd
  have := List.length_pos.mpr this
  show (0 : Int) < ((s.data.length : Nat) : Int)
  omega

theorem preWith_of_empty (fl : ℚ → F64) (b : Bar) (h : b.message = "") :
    b.preWith fl = formatF3 (F64.Floor (b.percentWith fl)) ++ "% " := by
  unfold Bar.preWith
  simp only []
  rw [h, if_neg (by decide), String_empty_append]

theorem preWith_of_unset (fl : ℚ → F64) (b : Bar) (hlabel : IsASCII b.message)
    (hne : b.message ≠ "") (hw : b.messageWidth ≤ 0) :
    b.preWith fl
      = TrimSpace b.message ++ " " ++ (formatF3 (F64.Floor (b.percentWith fl)) ++ "% ") := by
  have hlen := len_pos_of_ascii _ hlabel hne
  have hl := len_nonneg (TrimSpace b.message)
  have hc : ¬ (b.messageWidth > 0 ∧ len (TrimSpace b.message) > b.messageWidth) := by omega
  unfold Bar.preWith
  simp only [if_pos hlen, if_neg hc, String_empty_append]
  rw [if_neg (by omega)]

theorem preWith_of_width (fl : ℚ → F64) (b : Bar) (hlabel : IsASCII b.message)
    (hne : b.message ≠ "") (hw : 0 < b.messageWidth) :
    b.preWith fl = String.mk ((TrimSpace b.message).data.take b.messageWidth.toNat
        ++ List.replicate (b.messageWidth.toNat - (TrimSpace b.message).length) ' ')
      ++ " " ++ (formatF3 (F64.Floor (b.percentWith fl)) ++ "% ") := by
  have hlen := len_pos_of_ascii _ hlabel hne
  have ht := IsASCII_TrimSpace _ hlabel
  have htl := len_of_ascii _ ht
  have htl2 : (TrimSpace b.message).length = (TrimSpace b.message).data.length := rfl
  unfold Bar.preWith
  by_cases hcut : len (TrimSpace b.message) > b.messageWidth
  · have hsl : len (sliceTo (TrimSpace b.message) b.messageWidth) = b.messageWidth := by
      rw [len_of_ascii _ (IsASCII_sliceTo _ _ ht)]
      show (((sliceTo (TrimSpace b.message) b.messageWidth).data.length : Nat) : Int) = _
      rw [sliceTo_data_of_ascii _ _ ht, List.length_take]
      omega
    have hc : b.messageWidth > 0 ∧ len (TrimSpace b.message) > b.messageWidth := ⟨hw, hcut⟩
    simp only [if_pos hlen, if_pos hc, String_empty_append, hsl]
    rw [if_neg (by omega)]
    have hfield : sliceTo (TrimSpace b.message) b.messageWidth
        = String.mk ((TrimSpace b.message).data.take b.messageWidth.toNat
          ++ List.replicate (b.messageWidth.toNat - (TrimSpace b.message).length) ' ') := by
      apply String.ext
      rw [sliceTo_data_of_ascii _ _ ht]
      have : b.messageWidth.toNat - (TrimSpace b.message).length = 0 := by omega
      rw [this]
      simp
    rw [hfield]
  · have hc : ¬ (b.messageWidth > 0 ∧ len (TrimSpace b.message) > b.messageWidth) :=
      fun h => hcut h.2
    simp only [if_pos hlen, if_neg hc, String_empty_append]
    have htake : (TrimSpace b.message).data.take b.messageWidth.toNat
        = (TrimSpace b.message).data := List.take_of_length_le (by omega)
    rw [htake]
    by_cases hpad : b.messageWidth - len (TrimSpace b.message) > 0
    · rw [if_pos hpad]
      have hfield : TrimSpace b.message
            ++ Repeat " " (b.messageWidth - len (TrimSpace b.message))
          = String.mk ((TrimSpace b.message).data
            ++ List.replicate (b.messageWidth.toNat - (TrimSpace b.message).length) ' ') := by
        apply String.ext
        rw [String.data_append]
        show _ ++ repeatChars [' '] _ = _
        rw [repeatChars_singleton]
        congr 2
        omega
      rw [hfield]
    · rw [if_neg hpad]
      have hfield : TrimSpace b.message
          = String.mk ((TrimSpace b.message).data
            ++ List.replicate (b.messageWidth.toNat - (TrimSpace b.message).length) ' ') := by
        apply String.ext
        have : b.messageWidth.toNat - (TrimSpace b.message).length = 0 := by omega
        rw [this]
        simp
      rw [← hfield]

/-! ### White space and trimming -/

/-- On seven-bit characters `unicode.IsSpace` holds of the six characters
tab, line feed, vertical tab, form feed, carriage return and space. -/
theorem isSpace_ascii (c : Char) (h : c.toNat < 128) :
    isSpace c = true ↔ c.toNat ∈ [9, 10, 11, 12, 13, 32] := by
  unfold isSpace
  generalize c.toNat = n at h ⊢
  simp only [Bool.or_eq_true, decide_eq_true_eq, Bool.and_eq_true, List.mem_cons,
    List.mem_singleton, List.not_mem_nil, or_false]
  omega

theorem head_dropWhile_not (p : Char → Bool) (l : List Char) (c : Char)
    (h : (l.dropWhile p).head? = some c) : p c = false := by
  induction l with
  | nil => simp at h
  | cons a l ih =>
    by_cases ha : p a = true
    · rw [List.dropWhile_cons_of_pos ha] at h
      exact ih h
    · rw [List.dropWhile_cons_of_neg ha] at h
      simp only [List.head?_cons, Option.some.injEq] at h
      rw [← h]
      simpa using ha

theorem getLast_of_dropWhile (p : Char → Bool) (l : List Char) (c : Char)
    (h : (l.dropWhile p).getLast? = some c) : l.getLast? = some c := by
  induction l with
  | nil => exact h
  | cons a l ih =>
    by_cases ha : p a = true
    · rw [List.dropWhile_cons_of_pos ha] at h
      have hl := ih h
      cases l with
      | nil => simp at hl
      | cons d l => rw [List.getLast?_cons_cons]; exact hl
    · rw [List.dropWhile_cons_of_neg ha] at h
      exact h

/-- The result of `TrimSpace` on an ASCII string, told without reference to
the function: the string is a run of white space, the result, and a run of
white space, and the result neither starts nor ends with white space. -/
theorem TrimSpace_spec (s : String) (h : IsASCII s) :
    ∃ lead trail : List Char,
      s.data = lead ++ (TrimSpace s).data ++ trail ∧
      (∀ c ∈ lead, c.toNat ∈ [9, 10, 11, 12, 13, 32]) ∧
      (∀ c ∈ trail, c.toNat ∈ [9, 10, 11, 12, 13, 32]) ∧
      (∀ c, (TrimSpace s).data.head? = some c → c.toNat ∉ [9, 10, 11, 12, 13, 32]) ∧
      (∀ c, (TrimSpace s).data.getLast? = some c → c.toNat ∉ [9, 10, 11, 12, 13, 32]) := by
  have hsplit : s.data = s.data.takeWhile isSpace ++ s.data.dropWhile isSpace :=
    (List.takeWhile_append_dropWhile isSpace s.data).symm
  have hrev : (s.data.dropWhile isSpace).reverse
      = (s.data.dropWhile isSpace).reverse.takeWhile isSpace
        ++ (s.data.dropWhile isSpace).reverse.dropWhile isSpace :=
    (List.takeWhile_append_dropWhile isSpace _).symm
  have hback : s.data.dropWhile isSpace
      = ((s.data.dropWhile isSpace).reverse.dropWhile isSpace).reverse
        ++ ((s.data.dropWhile isSpace).reverse.takeWhile isSpace).reverse := by
    rw [← List.reverse_append, ← hrev, List.reverse_reverse]
  have hdata : (TrimSpace s).data
      = ((s.data.dropWhile isSpace).reverse.dropWhile isSpace).reverse := rfl
  have hmem1 : ∀ c ∈ s.data.dropWhile isSpace, c ∈ s.data :=
    fun c hc => (List.dropWhile_sublist isSpace).subset hc
  refine ⟨s.data.takeWhile isSpace,
    ((s.data.dropWhile isSpace).reverse.takeWhile isSpace).reverse, ?_, ?_, ?_, ?_, ?_⟩
  · rw [hdata, List.append_assoc, ← hback]
    exact hsplit
  · intro c hc
    have hc1 : c ∈ s.data := (List.takeWhile_sublist isSpace).subset hc
    exact (isSpace_ascii c (h c hc1)).mp (List.mem_takeWhile_imp hc)
  · intro c hc
    rw [List.mem_reverse] at hc
    have hc1 : c ∈ s.data :=
      hmem1 c (List.mem_reverse.mp ((List.takeWhile_sublist isSpace).subset hc))
    exact (isSpace_ascii c (h c hc1)).mp (List.mem_takeWhile_imp hc)
  · intro c hc hsp
    rw [hdata, List.head?_reverse] at hc
    have h1 := getLast_of_dropWhile isSpace _ c hc
    rw [List.getLast?_reverse] at h1
    have h2 := head_dropWhile_not isSpace _ c h1
    have hc1 : c ∈ s.data := hmem1 c (List.mem_of_mem_head? h1)
    rw [← isSpace_ascii c (h c hc1)] at hsp
    rw [h2] at hsp
    exact Bool.noConfusion hsp
  · intro c hc hsp
    rw [hdata, List.getLast?_reverse] at hc
    have h2 := head_dropWhile_not isSpace _ c hc
    have hc0 : c ∈ (s.data.dropWhile isSpace).reverse :=
      (List.dropWhile_sublist isSpace).subset (List.mem_of_mem_head? hc)
    have hc1 : c ∈ s.data := hmem1 c (List.mem_reverse.mp hc0)
    rw [← isSpace_ascii c (h c hc1)] at hsp
    rw [h2] at hsp
    exact Bool.noConfusion hsp

theorem dropWhile_append_of_all (p : Char → Bool) (lead rest : List Char)
    (h : ∀ c ∈ lead, p c = true) : (lead ++ rest).dropWhile p = rest.dropWhile p := by
  induction lead with
  | nil => rfl
  | cons a l ih =>
    rw [List.cons_append, List.dropWhile_cons_of_pos (h a (List.mem_cons_self a l))]
    exact ih (fun c hc => h c (List.mem_cons_of_mem a hc))

theorem dropWhile_of_head (p : Char → Bool) (l : List Char)
    (h : ∀ c, l.head? = some c → p c = false) : l.dropWhile p = l := by
  cases l with
  | nil => rfl
  | cons a l =>
    have ha : ¬ p a = true := by
      rw [h a rfl]
      exact Bool.noConfusion
    rw [List.dropWhile_cons_of_neg ha]

/-- A string has one trimmed core: whenever it is a run of `p`, a core that
neither starts nor ends with `p`, and a run of `p`, the core is what dropping
`p` from both ends computes. -/
theorem trim_unique (p : Char → Bool) (xs lead core trail : List Char)
    (hx : xs = lead ++ core ++ trail)
    (hlead : ∀ c ∈ lead, p c = true) (htrail : ∀ c ∈ trail, p c = true)
    (hhead : ∀ c, core.head? = some c → p c = false)
    (hlast : ∀ c, core.getLast? = some c → p c = false) :
    core = ((xs.dropWhile p).reverse.dropWhile p).reverse := by
  rw [hx, List.append_assoc, dropWhile_append_of_all p lead _ hlead]
  cases core with
  | nil =>
    rw [List.nil_append]
    have h1 : trail.dropWhile p = [] := by
      have := dropWhile_append_of_all p trail [] htrail
      rw [List.append_nil] at this
      exact this
    rw [h1]
    rfl
  | cons a l =>
    have h1 : ((a :: l) ++ trail).dropWhile p = (a :: l) ++ trail :=
      dropWhile_of_head p _ (fun c hc => hhead c (by simpa using hc))
    rw [h1, List.reverse_append,
      dropWhile_append_of_all p trail.reverse _
        (fun c hc => htrail c (List.mem_reverse.mp hc)),
      dropWhile_of_head p _ (fun c hc => hlast c (by
        rw [List.head?_reverse] at hc
        exact hc)),
      List.reverse_reverse]


theorem String_of_nonpos (b : Bar) (env : Env) (termWidth now : Int)
    (hp : F64.InRange 0 100 b.percent)
    (hf : b.available env termWidth now ≤ 0) (hmin : minInt64 ≤ b.available env termWidth now) :
    b.mid env (wrapInt64 (b.available env termWidth now)) = "▕▏" ∧
    b.String env termWidth now = b.pre ++ "▕▏" ++ b.suf env now := by
  obtain ⟨p, hpe, hp0, hp1⟩ := inRange_finite _ _ _ hp
  have hwrap : wrapInt64 (b.available env termWidth now) = b.available env termWidth now :=
    wrapInt64_of_range _ hmin (le_trans hf (by decide))
  obtain ⟨hn0, hn1⟩ := filled_of_nonpos b env _ p hpe hp0 hp1 hf hmin
  have hmid : b.mid env (b.available env termWidth now) = "▕▏" := by
    rw [mid_eq, Repeat_nonpos "█" _ hn0, Repeat_nonpos " " _ ?_, String_append_empty,
      String_append_empty]
    · rfl
    · rw [wrapInt64_of_range _ (by omega) (le_trans (by omega : _ ≤ (0 : Int)) (by decide))]
      omega
  rw [hwrap]
  refine ⟨hmid, ?_⟩
  rw [String_def]
  simp only [hwrap, hmid]

theorem halfway_String :
    halfway.String sampleEnv 80 3000000000
      = "download  50% ▕████████████████                ▏(500 B/1000 B, 250 B/s) [2s:2s]" := by
  have hn : F64.toInt64 sampleEnv.undefInt
      (F64.div (F64.mul (F64.ofInt 32) halfway.percent) (F64.fin 100)) = 16 := by
    rw [halfway_percent]
    have : F64.div (F64.mul (F64.ofInt 32) (F64.fin ((50 : Int) : ℚ))) (F64.fin 100)
        = F64.fin ((16 : Int) : ℚ) := by
      simp [F64.div, F64.mul, F64.ofInt]
      norm_num
    rw [this, toInt64_intCast _ _ (by decide) (by decide)]
  rw [String_def]
  rw [halfway_available]
  have hw : wrapInt64 (80 - 48) = 32 := by decide
  rw [hw, mid_eq, hn, halfway_pre, halfway_suf]
  decide

/-- C13, as stated, fails: the rendered line is one glyph short of the
terminal width.  For `NewBar("download", 1000, 0)` at 1 s and `Set(500)` at
3 s, rendered at width 80 with ASCII formatters, 32 columns are available and
the line has 79 glyphs, not 80. -/
theorem C13_counterexample :
    halfway.String sampleEnv 80 3000000000
      = "download  50% ▕████████████████                ▏(500 B/1000 B, 250 B/s) [2s:2s]" ∧
    halfway.available sampleEnv 80 3000000000 = 32 ∧
    (halfway.String sampleEnv 80 3000000000).length = 79 ∧
    (halfway.String sampleEnv 80 3000000000).length ≠ 80 := by
  refine ⟨halfway_String, ?_, ?_, ?_⟩
  · rw [halfway_available]
    decide
  · rw [halfway_String]
    decide
  · rw [halfway_String]
    decide

/-- C13, amended: for every tracker state with
`0 ≤ currentValue ≤ maxValue`, an ASCII label, ASCII output of the byte
formatter and of the two durations printed, and every terminal width (an
`int`) with `available = width - len(pre) - len(suf) - 3 ≥ 0`, the rendered
line has exactly `width - 1` glyphs: the bar holds its two boundary glyphs and
exactly `available` fill and space glyphs. -/
theorem C13_line_length (b : Bar) (env : Env) (termWidth now : Int)
    (hcur : 0 ≤ b.currentValue ∧ b.currentValue ≤ b.maxValue)
    (hlabel : IsASCII b.message)
    (hbytes : ∀ n, IsASCII (env.HumanBytes n))
    (hdur : IsASCII (env.DurationString (b.elapsed now)) ∧
      IsASCII (env.DurationString (b.remaining env (b.rate now))))
    (hw : termWidth ≤ maxInt64) (hf : 0 ≤ b.available env termWidth now) :
    ((b.String env termWidth now).length : Int) = termWidth - 1 ∧
    ((b.mid env (b.available env termWidth now)).length : Int)
      = b.available env termWidth now + 2 :=
  String_length_of_ascii b env termWidth now hcur hlabel hbytes hdur hw hf

/-- C13 amended, at a concrete input: the state `halfway` at width 80. -/
theorem C13_line_length_witness :
    ((halfway.String sampleEnv 80 3000000000).length : Int) = 80 - 1 :=
  (C13_line_length halfway sampleEnv 80 3000000000 (by decide) (by decide)
    sampleEnv_bytes_ascii ⟨sampleEnv_duration_ascii _, sampleEnv_duration_ascii _⟩
    (by decide) (by rw [halfway_available]; decide)).1

/-- C19: the constant 3 reserves the two boundary glyphs and one free
column.  For every tracker state with `0 ≤ currentValue ≤ maxValue`, an ASCII
label, ASCII output of the byte formatter and of the two durations printed,
and every terminal width (an `int`) with `available ≥ 0`, the rendered line
has `len(pre) + len(suf) + available + 2` glyphs, which is exactly
`width - 1`, hence less than `width`. -/
theorem C19_line_below_width (b : Bar) (env : Env) (termWidth now : Int)
    (hcur : 0 ≤ b.currentValue ∧ b.currentValue ≤ b.maxValue)
    (hlabel : IsASCII b.message)
    (hbytes : ∀ n, IsASCII (env.HumanBytes n))
    (hdur : IsASCII (env.DurationString (b.elapsed now)) ∧
      IsASCII (env.DurationString (b.remaining env (b.rate now))))
    (hw : termWidth ≤ maxInt64) (hf : 0 ≤ b.available env termWidth now) :
    ((b.String env termWidth now).length : Int)
      = len b.pre + len (b.suf env now) + b.available env termWidth now + 2 ∧
    ((b.String env termWidth now).length : Int) = termWidth - 1 ∧
    ((b.String env termWidth now).length : Int) < termWidth := by
  have h := (String_length_of_ascii b env termWidth now hcur hlabel hbytes hdur hw hf).1
  have hav : b.available env termWidth now
      = termWidth - len b.pre - len (b.suf env now) - 3 := rfl
  refine ⟨?_, h, ?_⟩ <;> omega

/-- C19 at a concrete input: the state `halfway` at width 100. -/
theorem C19_line_below_width_witness :
    ((halfway.String sampleEnv 100 3000000000).length : Int) < 100 :=
  (C19_line_below_width halfway sampleEnv 100 3000000000 (by decide) (by decide)
    sampleEnv_bytes_ascii ⟨sampleEnv_duration_ascii _, sampleEnv_duration_ascii _⟩
    (by decide) (by rw [halfway_available]; decide)).2.2

/-- C14: the suffix `suf` of the rendered line is `"(" + format(maxValue) +
")"` when the tracker is Completed, and `"(" + format(currentValue) + "/" +
format(maxValue) + ", " + format(rate) + "/s)" + " [" + elapsed + ":" +
remaining + "]"` when it is Running; the line is `pre`, the bar, then `suf`.
After `NewBar("x", 100, 0)` and `Set(100)` (at a clock reading that is not the
zero instant) the suffix is `"(" + format(100) + ")"`. -/
theorem C14_suffix (b : Bar) (env : Env) (termWidth now : Int) :
    (Time.IsZero b.stopped = false →
      b.suf env now = "(" ++ env.HumanBytes b.maxValue ++ ")") ∧
    (Time.IsZero b.stopped = true →
      b.suf env now = "(" ++ env.HumanBytes b.currentValue ++ "/"
        ++ env.HumanBytes b.maxValue ++ ", "
        ++ env.HumanBytes (F64.toInt64 env.undefInt (b.rate now)) ++ "/s)"
        ++ " [" ++ env.DurationString (b.elapsed now) ++ ":"
        ++ env.DurationString (b.remaining env (b.rate now)) ++ "]") ∧
    b.String env termWidth now
      = b.pre ++ b.mid env (wrapInt64 (b.available env termWidth now)) ++ b.suf env now ∧
    (∀ (start : Int) (r : Readings), Time.IsZero r.stop = false →
      ((NewBar "x" 100 0 start).Set 100 r).suf env now = "(" ++ env.HumanBytes 100 ++ ")") := by
  have hstop : Time.IsZero b.stopped = false →
      b.suf env now = "(" ++ env.HumanBytes b.maxValue ++ ")" := by
    intro hs
    unfold Bar.suf Bar.sufWith
    simp only [rateWith_fin, remainingWith_fin]
    simp [hs]
  refine ⟨hstop, ?_, rfl, ?_⟩
  · intro hs
    have hlit : "/s" ++ ")" = "/s)" := rfl
    unfold Bar.suf Bar.sufWith
    simp only [rateWith_fin, remainingWith_fin]
    simp only [hs, if_true, String.append_assoc, hlit]
  · intro start r hr
    have hs : Time.IsZero ((NewBar "x" 100 0 start).Set 100 r).stopped = false := by
      rw [Set_stopped]
      simpa [NewBar] using hr
    unfold Bar.suf Bar.sufWith
    simp only [rateWith_fin, remainingWith_fin]
    simp only [hs, Set_maxValue]
    simp [NewBar]

/-- C14 at a concrete input: the Completed tracker `NewBar("x", 100, 0)`,
`Set(100)`, with byte counts printed as `<n> B`. -/
theorem C14_suffix_witness :
    ((NewBar "x" 100 0 1000000000).Set 100 ⟨2000000000, 2000000000, 2000000000⟩).suf
      sampleEnv 3000000000 = "(100 B)" :=
  ((C14_suffix ((NewBar "x" 100 0 1000000000).Set 100
      ⟨2000000000, 2000000000, 2000000000⟩) sampleEnv 80 3000000000).1 (by decide)).trans
    (by decide)

/-- C15: for an ASCII label, whatever the rounding of the percentage.  The
label is a run of white space (tab, line feed, vertical tab, form feed,
carriage return, space), a core that neither starts nor ends with white space,
and a run of white space: the core is the trimmed label.  When the label is
non-empty and `messageWidth > 0`, `pre` is a label field of exactly
`messageWidth` characters (the first `messageWidth` characters of the trimmed
label, right-padded with spaces) followed by one space and the percentage
field; when the label is non-empty and `messageWidth` is unset (not positive),
`pre` is the trimmed label, one space and the percentage field; when the label
is empty, `pre` is the percentage field alone. -/
theorem C15_label_field (fl : ℚ → F64) (b : Bar) (hlabel : IsASCII b.message) :
    ∃ lead core trail : List Char,
      b.message.data = lead ++ core ++ trail ∧
      (∀ c ∈ lead, c.toNat ∈ [9, 10, 11, 12, 13, 32]) ∧
      (∀ c ∈ trail, c.toNat ∈ [9, 10, 11, 12, 13, 32]) ∧
      (∀ c, core.head? = some c → c.toNat ∉ [9, 10, 11, 12, 13, 32]) ∧
      (∀ c, core.getLast? = some c → c.toNat ∉ [9, 10, 11, 12, 13, 32]) ∧
      (b.message ≠ "" → 0 < b.messageWidth →
        ∃ field : String,
          b.preWith fl
            = field ++ " " ++ (formatF3 (F64.Floor (b.percentWith fl)) ++ "% ") ∧
          (field.length : Int) = b.messageWidth ∧
          field.data = core.take b.messageWidth.toNat
            ++ List.replicate (b.messageWidth.toNat - core.length) ' ') ∧
      (b.message ≠ "" → b.messageWidth ≤ 0 →
        b.preWith fl
          = String.mk core ++ " " ++ (formatF3 (F64.Floor (b.percentWith fl)) ++ "% ")) ∧
      (b.message = "" →
        b.preWith fl = formatF3 (F64.Floor (b.percentWith fl)) ++ "% ") := by
  obtain ⟨lead, trail, hdata, hlead, htrail, hhead, hlast⟩ := TrimSpace_spec b.message hlabel
  refine ⟨lead, (TrimSpace b.message).data, trail, hdata, hlead, htrail, hhead, hlast,
    fun hne hw => ⟨_, preWith_of_width fl b hlabel hne hw, ?_, rfl⟩,
    fun hne hw => preWith_of_unset fl b hlabel hne hw, fun he => preWith_of_empty fl b he⟩
  show ((List.length _ : Nat) : Int) = _
  have htl2 : (TrimSpace b.message).length = (TrimSpace b.message).data.length := rfl
  rw [List.length_append, List.length_take, List.length_replicate, htl2]
  omega

/-- C15 at a concrete input: the label `"  hello "` with `messageWidth = 8`
and nothing transferred of 100, in float64 arithmetic.  The label field is
`"hello   "` and the prefix is the field, one space and the percentage field
`"  0% "`. -/
theorem C15_label_field_witness :
    ({ NewBar "  hello " 100 0 1 with messageWidth := 8 } : Bar).preWith binary64
      = "hello   " ++ " " ++ "  0% " := by
  obtain ⟨lead, core, trail, hdata, hlead, htrail, hhead, hlast, hfield, -, -⟩ :=
    C15_label_field binary64 { NewBar "  hello " 100 0 1 with messageWidth := 8 } (by decide)
  obtain ⟨field, hpre, -, hfd⟩ := hfield (by decide) (by decide)
  have hcore := trim_unique (fun c => decide (c.toNat ∈ [9, 10, 11, 12, 13, 32])) _ lead core
    trail hdata (fun c hc => decide_eq_true (hlead c hc))
    (fun c hc => decide_eq_true (htrail c hc))
    (fun c hc => decide_eq_false (hhead c hc)) (fun c hc => decide_eq_false (hlast c hc))
  have hcore2 : core = "hello".data := by
    rw [hcore]
    decide
  have hf : field = "hello   " := by
    apply String.ext
    rw [hfd, hcore2]
    decide
  have hper : ({ NewBar "  hello " 100 0 1 with messageWidth := 8 } : Bar).percentWith binary64
      = F64.fin ((0 : Int) : ℚ) := by
    have h100 : binary64 (100 : ℚ) = F64.fin 100 := by
      simpa using binary64_natCast 100 (by norm_num)
    have h := percentWith_eval binary64
      ({ NewBar "  hello " 100 0 1 with messageWidth := 8 } : Bar) (by decide) 0 100 0 0
      (by simpa [NewBar] using binary64_zero) (by simpa [NewBar] using h100) (by norm_num)
      (by simpa using binary64_zero) (by simpa using binary64_zero)
    simpa using h
  rw [hpre, hf, hper]
  have hfl : F64.Floor (F64.fin ((0 : Int) : ℚ)) = F64.fin ((0 : Int) : ℚ) := by
    simp [F64.Floor]
  rw [hfl, formatF3_intCast]
  decide

/-- C16, as stated, fails: the state `belowZero`, reached from
`NewBar("x", 100, 0)` by `Set(-50)`, has percentage `-50`; rendered at
terminal width 0 it has `available = -40` and yet the bar holds 20 fill
glyphs between the boundary glyphs. -/
theorem C16_counterexample :
    belowZero = (NewBar "x" 100 0 1000000000).SetAll
      [⟨-50, ⟨2000000000, 2000000000, 2000000000⟩⟩] ∧
    belowZero.available sampleEnv 0 2000000000 = -40 ∧
    belowZero.String sampleEnv 0 2000000000
      = "x -50% ▕████████████████████▏(-50 B/100 B, -50 B/s) [1s:0s]" := by
  refine ⟨rfl, belowZero_available, ?_⟩
  rw [String_def]
  rw [belowZero_available]
  have hw : wrapInt64 (-40) = -40 := by decide
  rw [hw, belowZero_mid, belowZero_pre, belowZero_suf]
  decide

/-- C16, amended: for every tracker state reached from `NewBar` with
`0 ≤ initialValue ≤ maxValue` by `Set` calls with non-negative values, and
every terminal width such that `available ≤ 0` (an `int`, so at least
`minInt64`), the bar of the rendered line is the two boundary glyphs alone. -/
theorem C16_empty_bar (message : String) (maxValue initialValue start : Int)
    (calls : List SetCall) (env : Env) (termWidth now : Int)
    (hinit : 0 ≤ initialValue ∧ initialValue ≤ maxValue)
    (hvalues : ∀ c ∈ calls, 0 ≤ c.value)
    (hf : ((NewBar message maxValue initialValue start).SetAll calls).available
      env termWidth now ≤ 0)
    (hmin : minInt64 ≤ ((NewBar message maxValue initialValue start).SetAll calls).available
      env termWidth now) :
    ((NewBar message maxValue initialValue start).SetAll calls).String env termWidth now
      = ((NewBar message maxValue initialValue start).SetAll calls).pre ++ "▕▏"
        ++ ((NewBar message maxValue initialValue start).SetAll calls).suf env now := by
  have h := SetAll_currentValue_bounds (NewBar message maxValue initialValue start) calls
    hvalues hinit.1 hinit.2
  exact (String_of_nonpos _ env termWidth now (percent_inRange _ h.1 h.2) hf hmin).2

/-- C16 amended, at a concrete input: `NewBar("download", 1000, 0)` and
`Set(500)`, rendered at terminal width 0. -/
theorem C16_empty_bar_witness :
    ((NewBar "download" 1000 0 1000000000).SetAll
        [⟨500, ⟨3000000000, 3000000000, 3000000000⟩⟩]).String sampleEnv 0 3000000000
      = ((NewBar "download" 1000 0 1000000000).SetAll
          [⟨500, ⟨3000000000, 3000000000, 3000000000⟩⟩]).pre ++ "▕▏"
        ++ ((NewBar "download" 1000 0 1000000000).SetAll
          [⟨500, ⟨3000000000, 3000000000, 3000000000⟩⟩]).suf sampleEnv 3000000000 :=
  C16_empty_bar "download" 1000 0 1000000000
    [⟨500, ⟨3000000000, 3000000000, 3000000000⟩⟩] sampleEnv 0 3000000000
    (by decide) (by decide)
    (by
      show halfway.available sampleEnv 0 3000000000 ≤ 0
      rw [halfway_available]
      decide)
    (by
      show minInt64 ≤ halfway.available sampleEnv 0 3000000000
      rw [halfway_available]
      decide)

/-- The bar in exact arithmetic: for every tracker state with `maxValue > 0`
and `0 ≤ currentValue ≤ maxValue` and every terminal width with
`available ≥ 0`, the number of fill glyphs is the exact
`⌊available * percent / 100⌋`. -/
theorem bar_segment_exact (b : Bar) (env : Env) (termWidth now : Int)
    (hmax : 0 < b.maxValue)
    (hcur : 0 ≤ b.currentValue ∧ b.currentValue ≤ b.maxValue)
    (hw : termWidth ≤ maxInt64) (hf : 0 ≤ b.available env termWidth now) :
    ∃ filled : Int,
      filled = ⌊((b.available env termWidth now : Int) : ℚ)
        * ((b.currentValue : ℚ) / (b.maxValue : ℚ) * 100) / 100⌋ ∧
      0 ≤ filled ∧ filled ≤ b.available env termWidth now ∧
      b.String env termWidth now
        = b.pre ++ ("▕" ++ Repeat "█" filled
            ++ Repeat " " (b.available env termWidth now - filled) ++ "▏")
          ++ b.suf env now ∧
      (Repeat "█" filled).data = List.replicate filled.toNat '█' ∧
      (Repeat " " (b.available env termWidth now - filled)).data
        = List.replicate (b.available env termWidth now - filled).toNat ' ' ∧
      filled.toNat + (b.available env termWidth now - filled).toNat
        = (b.available env termWidth now).toNat := by
  have hav : b.available env termWidth now
      = termWidth - len b.pre - len (b.suf env now) - 3 := rfl
  have hl1 := len_nonneg b.pre
  have hl2 := len_nonneg (b.suf env now)
  have hf1 : b.available env termWidth now ≤ maxInt64 := by omega
  have hwrap : wrapInt64 (b.available env termWidth now) = b.available env termWidth now :=
    wrapInt64_of_range _ (le_trans (by decide) hf) hf1
  have hpe := percent_of_pos b hmax
  have hin := percent_inRange b hcur.1 hcur.2
  rw [hpe] at hin
  obtain ⟨hn, hn0, hn1⟩ := filled_of_nonneg b env _ _ hpe hin.1 hin.2 hf hf1
  refine ⟨_, rfl, hn0, hn1, ?_, repeatChars_singleton _ _, repeatChars_singleton _ _, by omega⟩
  rw [String_def]
  simp only [hwrap]
  rw [mid_eq, hn, wrapInt64_of_range _ (le_trans (by decide) (by omega : (0 : Int) ≤ _))
    (by omega)]

/-- C17, as stated, fails: the number of fill glyphs is computed in float64
arithmetic and is not always the floor of `available * percent / 100`.
For `NewBar("xx", 3, 0)` and `Set(1)`, rendered at width 80 with ASCII
formatters, 45 columns are available and the bar holds 14 fill glyphs, while
`⌊45 * (1 / 3 * 100) / 100⌋ = 15`: the percentage rounds below `100 / 3`.
Nor is it the floor taken of the float64 percentage: for `NewBar("xx", 7, 0)`
and `Set(1)` at width 42, 7 columns are available and the bar holds 1 fill
glyph, while 7 times the float64 percentage `14.285714285714285`, over 100,
is below 1 and has floor 0: the product rounds up to 100. -/
theorem C17_counterexample :
    oneThird = (NewBar "xx" 3 0 1000000000).SetAll
      [⟨1, ⟨2000000000, 2000000000, 2000000000⟩⟩] ∧
    (0 < oneThird.maxValue ∧ 0 ≤ oneThird.currentValue ∧
      oneThird.currentValue ≤ oneThird.maxValue) ∧
    oneThird.availableWith binary64 sampleEnv 80 2000000000 = 45 ∧
    oneThird.StringWith binary64 sampleEnv 80 2000000000
      = "xx  33% ▕██████████████                               ▏(1 B/3 B, 1 B/s) [1s:2s]" ∧
    oneThird.filledWith binary64 sampleEnv 45 = 14 ∧
    ⌊((45 : Int) : ℚ)
      * ((oneThird.currentValue : ℚ) / (oneThird.maxValue : ℚ) * 100) / 100⌋ = 15 ∧
    oneSeventh = (NewBar "xx" 7 0 1000000000).SetAll
      [⟨1, ⟨2000000000, 2000000000, 2000000000⟩⟩] ∧
    (0 < oneSeventh.maxValue ∧ 0 ≤ oneSeventh.currentValue ∧
      oneSeventh.currentValue ≤ oneSeventh.maxValue) ∧
    oneSeventh.availableWith binary64 sampleEnv 42 2000000000 = 7 ∧
    oneSeventh.StringWith binary64 sampleEnv 42 2000000000
      = "xx  14% ▕█      ▏(1 B/7 B, 1 B/s) [1s:6s]" ∧
    oneSeventh.filledWith binary64 sampleEnv 7 = 1 ∧
    oneSeventh.percentWith binary64 = F64.fin (2010535547933257 / 140737488355328) ∧
    ⌊((7 : Int) : ℚ) * (2010535547933257 / 140737488355328 : ℚ) / 100⌋ = 0 := by
  refine ⟨rfl, by decide, oneThird_available, oneThird_String,
    filled_1_of_3 _ _ (by decide) (by decide), ?_, rfl, by decide, oneSeventh_available,
    oneSeventh_String, filled_1_of_7 _ _ (by decide) (by decide), oneSeventh_percent, ?_⟩
  · have hc : oneThird.currentValue = 1 := by decide
    have hm : oneThird.maxValue = 3 := by decide
    rw [hc, hm, Int.floor_eq_iff]
    norm_num
  · rw [Int.floor_eq_iff]
    norm_num

/-- C17, amended: for every tracker state with `maxValue > 0` and
`0 ≤ currentValue ≤ maxValue` (`int64` values) and every terminal width (below
`2 ^ 53 / 100`) with `available ≥ 0`, the bar of the rendered line is one left
boundary glyph, `filled` fill glyphs, `available - filled` space glyphs and one
right boundary glyph, where `filled` is `float64(available) * percent / 100`
computed in float64 arithmetic (the conversion, the product and the quotient
each rounded to the nearest float64) and truncated.  It is within one of
`⌊available * currentValue / maxValue⌋`; `0 ≤ filled ≤ available` and the fill
and space glyphs together number `available`. -/
theorem C17_bar_segment (b : Bar) (env : Env) (termWidth now : Int)
    (hmax : 0 < b.maxValue)
    (hcur : 0 ≤ b.currentValue ∧ b.currentValue ≤ b.maxValue)
    (hint : b.maxValue ≤ maxInt64)
    (hw : termWidth ≤ 90071992547409)
    (hf : 0 ≤ b.availableWith binary64 env termWidth now) :
    ∃ filled : Int,
      filled = b.filledWith binary64 env (b.availableWith binary64 env termWidth now) ∧
      |filled - ⌊((b.availableWith binary64 env termWidth now : Int) : ℚ)
        * (b.currentValue : ℚ) / (b.maxValue : ℚ)⌋| ≤ 1 ∧
      0 ≤ filled ∧ filled ≤ b.availableWith binary64 env termWidth now ∧
      b.StringWith binary64 env termWidth now
        = b.preWith binary64 ++ ("▕" ++ Repeat "█" filled
            ++ Repeat " " (b.availableWith binary64 env termWidth now - filled) ++ "▏")
          ++ b.sufWith binary64 env now ∧
      (Repeat "█" filled).data = List.replicate filled.toNat '█' ∧
      (Repeat " " (b.availableWith binary64 env termWidth now - filled)).data
        = List.replicate (b.availableWith binary64 env termWidth now - filled).toNat ' ' ∧
      filled.toNat + (b.availableWith binary64 env termWidth now - filled).toNat
        = (b.availableWith binary64 env termWidth now).toNat := by
  have hav : b.availableWith binary64 env termWidth now
      = termWidth - len (b.preWith binary64) - len (b.sufWith binary64 env now) - 3 := rfl
  have hl1 := len_nonneg (b.preWith binary64)
  have hl2 := len_nonneg (b.sufWith binary64 env now)
  have hf1 : b.availableWith binary64 env termWidth now ≤ 90071992547409 := by omega
  have hwrap : wrapInt64 (b.availableWith binary64 env termWidth now)
      = b.availableWith binary64 env termWidth now :=
    wrapInt64_of_range _ (le_trans (by decide) hf) (le_trans hf1 (by decide))
  obtain ⟨p, hper, hp0, hp1⟩ := percent_binary64_inRange b hcur.1 hcur.2 hmax hint
  obtain ⟨hn0, hn1⟩ := filled_binary64_range b env _ p hper hp0 hp1 hf hf1
  have hclose := filled_binary64_close b env _ hcur.1 hcur.2 hmax hint hf hf1
  refine ⟨_, rfl, hclose, hn0, hn1, ?_, repeatChars_singleton _ _, repeatChars_singleton _ _,
    by omega⟩
  unfold Bar.StringWith
  simp only [hwrap]
  rw [midWith_eq, wrapInt64_of_range _ (le_trans (by decide) (by omega : (0 : Int) ≤ _))
    (le_trans (by omega : _ ≤ (90071992547409 : Int)) (by decide))]

/-- C17 at a concrete input: `NewBar("xx", 7, 0)` and `Set(1)` at width 42,
where 7 columns are available and one of them is filled. -/
theorem C17_bar_segment_witness :
    ∃ filled : Int,
      filled = 1 ∧
      0 ≤ filled ∧ filled ≤ oneSeventh.availableWith binary64 sampleEnv 42 2000000000 ∧
      oneSeventh.StringWith binary64 sampleEnv 42 2000000000
        = oneSeventh.preWith binary64 ++ ("▕" ++ Repeat "█" filled
            ++ Repeat " " (oneSeventh.availableWith binary64 sampleEnv 42 2000000000 - filled)
            ++ "▏")
          ++ oneSeventh.sufWith binary64 sampleEnv 2000000000 := by
  obtain ⟨filled, h1, -, h3, h4, h5, -⟩ :=
    C17_bar_segment oneSeventh sampleEnv 42 2000000000 (by decide) (by decide) (by decide)
      (by decide) (by rw [oneSeventh_available]; decide)
  refine ⟨filled, ?_, h3, h4, h5⟩
  rw [h1, oneSeventh_available]
  exact filled_1_of_7 _ _ (by decide) (by decide)

end Progress
